import Mathlib

/-!
# gstfs-ng: the reader/cache core

A shallow embedding of the extension mapping (`Transcode.cpp`), the image
cache (`ImageCache.cpp`) and the reader factory (`ReaderFactory.cpp`).

C strings (`char const *`) are lists of characters (the bytes before the
terminating NUL).  A pointer into a string is an offset from its start.
-/

set_option autoImplicit false

/-! ## Transcode.h / Transcode.cpp -/

namespace Transcode

/-- Transcode::Element: a source extension, a target extension and the
(wrapped) pipeline description. -/
structure Element where
  source : List Char
  target : List Char
  pipeline : List Char
deriving DecidableEq, Repr

/-- The content of the `multi_index_container` that `Mapping` derives from.
Both indices are `ordered_unique` under `Utility::LessThan<char const *>`
(`strcmp(a, b) < 0`), so two keys are equivalent exactly when the strings
are equal. The list keeps the elements in the order they were inserted. -/
abbrev Mapping := List Element

/-- The lookup `get<SourceIndex>().find(key)`: the element whose source
extension has the content of `key`, or `end()`. -/
def findBySource (m : Mapping) (key : List Char) : Option Element :=
  m.find? (fun e => decide (e.source = key))

/-- The lookup `get<TargetIndex>().find(key)`. -/
def findByTarget (m : Mapping) (key : List Char) : Option Element :=
  m.find? (fun e => decide (e.target = key))

/-- The container's `insert`: the element is linked only when every unique
index accepts it, that is when neither its source nor its target key is
already present; `.second` of the result says whether it was. -/
def insert (m : Mapping) (e : Element) : Mapping × Bool :=
  if (findBySource m e.source).isSome || (findByTarget m e.target).isSome then
    (m, false)
  else
    (m ++ [e], true)

/-- The pipeline description built in `Mapping::add`: `pipeline_` in a
filesrc/fdsink sandwich (`*pipeline_ ? " ! " : ""`). -/
def wrapPipeline (pipeline_ : List Char) : List Char :=
  "filesrc name=filesrc ! ".toList ++ pipeline_
    ++ (if pipeline_ ≠ [] then " ! ".toList else []) ++ "fdsink name=fdsink".toList

/-- Mapping::add: a failed insert only prints a diagnostic and frees the
three copies. -/
def add (m : Mapping) (source_ target_ pipeline_ : List Char) : Mapping :=
  (insert m ⟨source_, target_, wrapPipeline pipeline_⟩).1

/-- The static `newConcatenation(base, end, extension)`: the `end - base`
characters at `base` followed by `extension`; `baseLength` is `end - base`. -/
def newConcatenation (base : List Char) (baseLength : Nat) (extension : List Char) :
    List Char :=
  base.take baseLength ++ extension

/-- The `boost::shared_ptr<char const>` that `sourceFrom` and `targetFrom`
return: either the caller's own `path` pointer (with the `Noop` deleter) or
a freshly allocated string. -/
inductive PathPointer where
  | argument
  | allocated (s : List Char)
deriving DecidableEq, Repr

/-- The string a returned pointer points at, `path` being the argument. -/
def PathPointer.get (p : PathPointer) (path : List Char) : List Char :=
  match p with
  | .argument => path
  | .allocated s => s

/-- The callers' test `result.get() != path` (a comparison of pointers). -/
def PathPointer.differs (p : PathPointer) : Bool :=
  match p with
  | .argument => false
  | .allocated _ => true

/-- What a call leaves behind: the returned pointer and what was written
through `elementReturn` (`none`: nothing was written). -/
structure Resolution where
  result : PathPointer
  elementReturn : Option Element
deriving DecidableEq, Repr

/-- The library function `strchr(s, c)` for a character `c` other than NUL:
the offset of the first `c` in `s`, or `none` for the null pointer. -/
def strchr (s : List Char) (c : Char) : Option Nat :=
  match s with
  | [] => none
  | x :: rest => if x = c then some 0 else (strchr rest c).map (fun i => i + 1)

/-- The loop `while ((extension = strchr(extension, '.')))` of `sourceFrom`
and `targetFrom`, with `find` the index lookup. The first argument is the
string at `extension`, `offset` is `extension - path`. A character other
than '.' is one that `strchr` steps over; at a '.', `++extension` steps past
it and the rest of the string is looked up. The result is the offset of
`extension` at the `return` inside the loop, with the element found. -/
def scanExtension (find : List Char → Option Element) :
    List Char → Nat → Option (Nat × Element)
  | [], _ => none
  | c :: rest, offset =>
    if c = '.' then
      match find rest with
      | some element => some (offset + 1, element)
      | none => scanExtension find rest (offset + 1)
    else
      scanExtension find rest (offset + 1)

/-- Mapping::sourceFrom. -/
def sourceFrom (m : Mapping) (path : List Char) : Resolution :=
  match scanExtension (findByTarget m) path 0 with
  | some (extension, element) =>
    ⟨.allocated (newConcatenation path extension element.source), some element⟩
  | none => ⟨.argument, none⟩

/-- Mapping::targetFrom. -/
def targetFrom (m : Mapping) (path : List Char) : Resolution :=
  match scanExtension (findBySource m) path 0 with
  | some (extension, element) =>
    ⟨.allocated (newConcatenation path extension element.target), some element⟩
  | none => ⟨.argument, none⟩

/-- The uniqueness that the two `ordered_unique` indices enforce: no two
elements share a source extension and no two share a target extension. -/
def Unique (m : Mapping) : Prop :=
  m.Pairwise (fun a b => a.source ≠ b.source) ∧ m.Pairwise (fun a b => a.target ≠ b.target)

instance (m : Mapping) : Decidable (Unique m) := by
  unfold Unique
  infer_instance

/-- The mapping after a sequence of `add` calls, starting empty. -/
def addAll (calls : List (List Char × List Char × List Char)) : Mapping :=
  calls.foldl (fun m c => add m c.1 c.2.1 c.2.2) []

end Transcode

/-! ## FileIndex.h / FileIndex.cpp -/

/-- FileIndex: `fileSystem` (`dev_t`), `inode` (`ino_t`) and `time`
(`time_t`, the modification time) of a file. -/
structure FileIndex where
  fileSystem : Nat
  inode : Nat
  time : Int
deriving DecidableEq, Repr

/-- FileIndex::operator<. -/
def FileIndex.lt (a b : FileIndex) : Bool :=
  if a.fileSystem < b.fileSystem then true
  else if a.fileSystem > b.fileSystem then false
  else if a.inode < b.inode then true
  else if a.inode > b.inode then false
  else if a.time < b.time then true
  else false

/-- Image (`__gnu_cxx::crope`): a sequence of `char`. -/
abbrev Image := List Char

/-- The number of values of `size_t` and of `unsigned long long` (LP64):
2 to the power 64. -/
abbrev SIZE_RANGE : Nat := 18446744073709551616

/-- The number of values of `unsigned int`: 2 to the power 32. -/
abbrev UINT_RANGE : Nat := 4294967296

/-- The number of values of `long` that are not negative: 2 to the power
63. -/
abbrev LONG_RANGE : Nat := 9223372036854775808

/-! ### The stream operators of FileIndex

The operators of FileIndex.cpp are written with the formatted output and
input of the standard streams, for `dev_t` and `ino_t` (`unsigned long`)
and `time_t` (`long`). The streams are those of an `ostringstream` and an
`istringstream` as constructed: the classic locale, decimal base, white
space skipped before a number. -/

/-- What `ostream << unsigned long` writes: the decimal digits. -/
def putUnsigned (n : Nat) : List Char :=
  Nat.toDigits 10 n

/-- What `ostream << long` writes: a '-' before the digits of a negative
number. -/
def putSigned (i : Int) : List Char :=
  if i < 0 then '-' :: Nat.toDigits 10 i.natAbs else Nat.toDigits 10 i.toNat

/-- The `operator <<(std::ostream &, FileIndex &)`: the characters
written. -/
def FileIndex.write (fileIndex : FileIndex) : List Char :=
  putUnsigned fileIndex.fileSystem
    ++ ('.' :: (putUnsigned fileIndex.inode ++ ('.' :: putSigned fileIndex.time)))

/-- An input stream over a string: what is left to read, `failbit` and
`eofbit`. -/
structure IStream where
  input : List Char
  failbit : Bool
  eofbit : Bool
deriving DecidableEq, Repr

/-- The test `good()`. -/
def IStream.good (s : IStream) : Bool :=
  !s.failbit && !s.eofbit

/-- The unformatted `get()`: the character read, or `none` for `EOF`, which
comes with `failbit` (and with `eofbit` at the end of the input). -/
def IStream.get (s : IStream) : IStream × Option Char :=
  if s.good then
    match s.input with
    | [] => ({ s with failbit := true, eofbit := true }, none)
    | c :: rest => ({ s with input := rest }, some c)
  else ({ s with failbit := true }, none)

/-- White space of the classic locale. -/
def isSpace (c : Char) : Bool :=
  c = ' ' || c = '\t' || c = '\n' || c = '\x0b' || c = '\x0c' || c = '\r'

/-- The number that a sequence of decimal digits stands for. -/
def digitsValue (digits : List Char) : Nat :=
  digits.foldl (fun a c => 10 * a + (c.toNat - 48)) 0

/-- What the number parser takes from the input: a sign, the digits after
it, and the input left behind them. -/
structure Scanned where
  negative : Bool
  digits : List Char
  rest : List Char
deriving DecidableEq, Repr

/-- The number parser on an input: one optional sign, then the digits up to
the first character that is none. -/
def scanInteger (input : List Char) : Scanned :=
  match input with
  | [] => ⟨false, [], []⟩
  | c :: rest =>
    let body := if c = '-' ∨ c = '+' then rest else input
    ⟨decide (c = '-'), (body.span Char.isDigit).1, (body.span Char.isDigit).2⟩

/-- The formatted `istream >> unsigned long`: the stream afterwards and the
value stored (`none`: the variable is left as it was). Without a digit the
value is 0 with `failbit`, out of range it is the largest value with
`failbit`, and a '-' negates modulo 2 to the power 64; `eofbit` says that
the end of the input was met. -/
def extractUnsigned (s : IStream) : IStream × Option Nat :=
  if s.good then
    match s.input.dropWhile isSpace with
    | [] => ({ s with input := [], failbit := true, eofbit := true }, none)
    | c :: rest =>
      let scanned := scanInteger (c :: rest)
      let s1 : IStream := { s with input := scanned.rest, eofbit := decide (scanned.rest = []) }
      if scanned.digits = [] then ({ s1 with failbit := true }, some 0)
      else if SIZE_RANGE ≤ digitsValue scanned.digits then
        ({ s1 with failbit := true }, some (SIZE_RANGE - 1))
      else if scanned.negative then
        (s1, some ((SIZE_RANGE - digitsValue scanned.digits) % SIZE_RANGE))
      else (s1, some (digitsValue scanned.digits))
  else ({ s with failbit := true }, none)

/-- The formatted `istream >> long`. -/
def extractSigned (s : IStream) : IStream × Option Int :=
  if s.good then
    match s.input.dropWhile isSpace with
    | [] => ({ s with input := [], failbit := true, eofbit := true }, none)
    | c :: rest =>
      let scanned := scanInteger (c :: rest)
      let s1 : IStream := { s with input := scanned.rest, eofbit := decide (scanned.rest = []) }
      if scanned.digits = [] then ({ s1 with failbit := true }, some 0)
      else if scanned.negative then
        if LONG_RANGE < digitsValue scanned.digits then
          ({ s1 with failbit := true }, some (-(LONG_RANGE : Int)))
        else (s1, some (-(digitsValue scanned.digits : Int)))
      else if LONG_RANGE ≤ digitsValue scanned.digits then
        ({ s1 with failbit := true }, some ((LONG_RANGE : Int) - 1))
      else (s1, some (digitsValue scanned.digits : Int))
  else ({ s with failbit := true }, none)

/-- The `operator >>(std::istream &, dot &)`: `'.' == s.get()`, else
`setstate(failbit)`. -/
def extractDot (s : IStream) : IStream :=
  match s.get with
  | (s1, some c) => if c = '.' then s1 else { s1 with failbit := true }
  | (s1, none) => { s1 with failbit := true }

/-- The `operator >>(std::istream &, FileIndex &)`: the stream and the
FileIndex afterwards. -/
def FileIndex.read (s : IStream) (fileIndex : FileIndex) : IStream × FileIndex :=
  let a := extractUnsigned s
  let f1 : FileIndex := { fileIndex with fileSystem := a.2.getD fileIndex.fileSystem }
  let b := extractUnsigned (extractDot a.1)
  let f2 : FileIndex := { f1 with inode := b.2.getD f1.inode }
  let c := extractSigned (extractDot b.1)
  (c.1, { f2 with time := c.2.getD f2.time })

/-- The input behind some digits: nothing, or something that does not
start with a digit. -/
def EndsNumber (rest : List Char) : Prop :=
  ∀ c r, rest = c :: r → c.isDigit = false

/-! ## ImageCache.h / ImageCache.cpp -/

namespace ImageCache

/-- ImageCache::LruIndex: `count` is the use counter (`unsigned int`),
`time` the time of last use (`time_t`). -/
structure LruIndex where
  count : Nat
  time : Int
deriving DecidableEq, Repr

/-- LruIndex::operator<. -/
def LruIndex.lt (a b : LruIndex) : Bool :=
  if a.count < b.count then true
  else if a.count > b.count then false
  else if a.time < b.time then true
  else false

/-- ImageCache::Value. -/
structure Value where
  fileIndex : FileIndex
  lruIndex : LruIndex
  image : Image
deriving DecidableEq, Repr

/-- What the file system answers to one call of `Container::persist`: the
`openat` of the temporary file fails (`refused`); the file is opened,
`out << *image` fails and the file is unlinked (`unwritten`); the image is
written but `renameat` fails, its result not being tested (`unrenamed`);
the image is written and the file renamed (`written`). -/
inductive PersistAnswer where
  | refused
  | unwritten
  | unrenamed
  | written
deriving DecidableEq, Repr

/-- The directory at `persistFd`: the files in it that are named by a
FileIndex and the temporary files (the name followed by ".tmp") that are in
it, with their content, and what the file system will answer to the calls
of `persist` to come: `answers` to the next calls in their order, `later`
to every call after those. The program is given the directory read only
and does not test that it can write to it. -/
structure PersistFiles where
  files : List (FileIndex × Image)
  temporary : List (FileIndex × Image)
  answers : List PersistAnswer
  later : PersistAnswer
deriving DecidableEq, Repr

/-- The answer of the file system to the next call of `persist`. -/
def PersistFiles.answer (d : PersistFiles) : PersistAnswer :=
  d.answers.head?.getD d.later

/-- What the temporary file of a FileIndex holds; nothing when there is no
such file. -/
def PersistFiles.leftover (d : PersistFiles) (fileIndex : FileIndex) : Image :=
  match d.temporary.find? (fun f => decide (f.1 = fileIndex)) with
  | some f => f.2
  | none => []

/-- The persist directory: `none` when `persistFd` is -1. -/
abbrev PersistDir := Option PersistFiles

/-- ImageCache::Container. `values` is the content of the
`multi_index_container` in the order of its `LruIndex` index
(`ordered_non_unique`, so ascending under `LruIndex::operator<`, least
recently used first); the `FileIndex` index (`ordered_unique`) is the
lookup by `fileIndex` in that list. -/
structure Container where
  countLimit : Nat
  memoryLimit : Nat
  timeLimit : Int
  persistDir : PersistDir
  count : Nat
  memory : Nat
  values : List Value
deriving DecidableEq, Repr

/-- The constructor's member initialisers (the start-up reconciliation of
the persist directory is left to the caller's `persistDir`). -/
def Container.new (countLimit memoryLimit : Nat) (timeLimit : Int)
    (persistDir : PersistDir) : Container :=
  { countLimit := countLimit, memoryLimit := memoryLimit, timeLimit := timeLimit,
    persistDir := persistDir, count := 0, memory := 0, values := [] }

/-- The lookup `get<FileIndex>().find(fileIndex)`. -/
def find (values : List Value) (fileIndex : FileIndex) : Option Value :=
  values.find? (fun v => decide (v.fileIndex = fileIndex))

/-- Linking a node into the `LruIndex` index: below every value that is not
greater (the insertion point of an `ordered_non_unique` index), in front of
the first greater one. -/
def link (value : Value) : List Value → List Value
  | [] => [value]
  | x :: xs =>
    if value.lruIndex.lt x.lruIndex then value :: x :: xs else x :: link value xs

/-- Removing the node of `fileIndex`. -/
def unlink (values : List Value) (fileIndex : FileIndex) : List Value :=
  values.filter (fun v => decide (v.fileIndex ≠ fileIndex))

/-- The call `byFileIndex.replace(it, value)` with `it` the node of
`value.fileIndex`: the node takes the new value and is linked again where
its new `lruIndex` belongs. (Boost leaves a node where it is when the order
still holds there; the two differ only in the place of the node among
values of an equal `lruIndex`.) -/
def replace (values : List Value) (value : Value) : List Value :=
  link value (unlink values value.fileIndex)

/-- Container::persist. Nothing happens without a persist directory
(`if (-1 == persistFd) return;`) and when the temporary file cannot be
opened (`if (-1 == fd) return;`). The temporary file is opened with
`O_CREAT | O_WRONLY` and without `O_TRUNC`: the image is written over the
start of a temporary file that is there already, which keeps what it has
past the end of the image. After a write that succeeded `renameat` makes
the temporary file the file named by the FileIndex, in place of an older
one, or fails and leaves the temporary file as written; after a write that
failed `unlinkat` removes the temporary file. -/
def persist (dir : PersistDir) (fileIndex : FileIndex) (image : Image) : PersistDir :=
  match dir with
  | none => none
  | some d =>
    let d1 : PersistFiles := { d with answers := d.answers.tail }
    match d.answer with
    | .refused => some d1
    | .unwritten =>
      some { d1 with temporary := d.temporary.filter (fun f => decide (f.1 ≠ fileIndex)) }
    | .unrenamed =>
      some { d1 with
        temporary := (fileIndex, image ++ (d.leftover fileIndex).drop image.length)
          :: d.temporary.filter (fun f => decide (f.1 ≠ fileIndex)) }
    | .written =>
      some { d1 with
        temporary := d.temporary.filter (fun f => decide (f.1 ≠ fileIndex))
        files := (fileIndex, image ++ (d.leftover fileIndex).drop image.length)
          :: d.files.filter (fun f => decide (f.1 ≠ fileIndex)) }

/-- The `while` loop of Container::cull: `it` walks the `LruIndex` index
from `begin()`, the list argument being the values from `it` on (every value
in front of `it` has been erased). `--count` and `memory -= size` are
unsigned 64-bit. -/
def cullLoop (latest : Int) (c : Container) : List Value → Container
  | [] => { c with values := [] }
  | v :: rest =>
    if v.lruIndex.count = 0
        ∧ (c.countLimit < c.count ∨ c.memoryLimit < c.memory ∨ v.lruIndex.time < latest) then
      cullLoop latest
        { c with
          count := ((SIZE_RANGE - 1) + c.count) % SIZE_RANGE
          memory := ((SIZE_RANGE - v.image.length % SIZE_RANGE) + c.memory) % SIZE_RANGE
          persistDir := persist c.persistDir v.fileIndex v.image }
        rest
    else
      { c with values := v :: rest }

/-- Container::cull, `now` being what `time(0)` returns. A `time_t` is an
integer here: `now - timeLimit` is computed only when `timeLimit <= now`. -/
def cull (c : Container) (now : Int) : Container :=
  let latest : Int := if now < c.timeLimit then 0 else now - c.timeLimit
  cullLoop latest c c.values

/-- Container::add. `created` is the `time(0)` of the `LruIndex`
constructor, `now` the one of `cull`. The insert fails when the FileIndex
is already in the container; `assert(inserted)` then ends the program
(`none`). -/
def add (c : Container) (fileIndex : FileIndex) (image : Image) (created now : Int) :
    Option Container :=
  if (find c.values fileIndex).isSome then none
  else
    some (cull
      { c with
        values := link ⟨fileIndex, ⟨0, created⟩, image⟩ c.values
        count := (c.count + 1) % SIZE_RANGE
        memory := (c.memory + image.length) % SIZE_RANGE }
      now)

/-- Container::release. `idle` is the `time(0)` stored in the value, `now`
the one of `cull`. -/
def release (c : Container) (fileIndex : FileIndex) (idle now : Int) : Container :=
  match find c.values fileIndex with
  | none => c
  | some value =>
    let count := ((UINT_RANGE - 1) + value.lruIndex.count) % UINT_RANGE
    let value : Value :=
      { value with
        lruIndex := ⟨count, if count = 0 then idle else value.lruIndex.time⟩ }
    let c : Container := { c with values := replace c.values value }
    if value.lruIndex.count = 0 then cull c now else c

/-- Container::acquire: the container afterwards and the image that the
returned smart pointer references (`none`: the null pointer). -/
def acquire (c : Container) (fileIndex : FileIndex) : Container × Option Image :=
  match find c.values fileIndex with
  | none => (c, none)
  | some value =>
    let value : Value :=
      { value with
        lruIndex := ⟨(value.lruIndex.count + 1) % UINT_RANGE, value.lruIndex.time⟩ }
    ({ c with values := replace c.values value }, some value.image)

/-- Container::sizeOf: the size of the cached image, else the size of the
persisted file, else -1. -/
def sizeOf (c : Container) (fileIndex : FileIndex) : Int :=
  match find c.values fileIndex with
  | some value => (value.image.length : Int)
  | none =>
    match c.persistDir with
    | none => -1
    | some d =>
      match d.files.find? (fun f => decide (f.1 = fileIndex)) with
      | some f => (f.2.length : Int)
      | none => -1

/-- The sum of the sizes of the images of the values. -/
def totalSize (values : List Value) : Nat :=
  (values.map (fun v => v.image.length)).sum

/-- The order of the `LruIndex` index: no value is less than one in front of
it. -/
def Ordered (values : List Value) : Prop :=
  values.Pairwise (fun a b => b.lruIndex.lt a.lruIndex = false)

/-- The uniqueness of the `FileIndex` index. -/
def UniqueKeys (values : List Value) : Prop :=
  (values.map (fun v => v.fileIndex)).Nodup

/-- The invariants of the container type: the order of the `LruIndex` index,
the uniqueness of the `FileIndex` index and the range of the use counters. -/
structure WellFormed (c : Container) : Prop where
  ordered : Ordered c.values
  unique : UniqueKeys c.values
  counts : ∀ v ∈ c.values, v.lruIndex.count < UINT_RANGE

/-- The two totals are those of the values, as unsigned 64-bit numbers. -/
def Accounted (c : Container) : Prop :=
  c.count = c.values.length % SIZE_RANGE ∧ c.memory = totalSize c.values % SIZE_RANGE

/-- One operation on a container: `add`, `acquire`, `release` or `cull`. -/
inductive Step : Container → Container → Prop where
  | add (c c1 : Container) (fileIndex : FileIndex) (image : Image) (created now : Int) :
      add c fileIndex image created now = some c1 → Step c c1
  | acquire (c : Container) (fileIndex : FileIndex) : Step c (acquire c fileIndex).1
  | release (c : Container) (fileIndex : FileIndex) (idle now : Int) :
      Step c (release c fileIndex idle now)
  | cull (c : Container) (now : Int) : Step c (cull c now)

/-- The states reachable from the empty cache of the given limits. -/
inductive Reachable (countLimit memoryLimit : Nat) (timeLimit : Int)
    (persistDir : PersistDir) : Container → Prop where
  | init : Reachable countLimit memoryLimit timeLimit persistDir
      (Container.new countLimit memoryLimit timeLimit persistDir)
  | step (c c1 : Container) :
      Reachable countLimit memoryLimit timeLimit persistDir c → Step c c1 →
      Reachable countLimit memoryLimit timeLimit persistDir c1

end ImageCache

/-! ## Reader.h and the Reader classes -/

/-- TranscodeFileReader::ImageBuilderThread, the state that readers and the
factory see: `running` (the thread is still running), `streaming` (the
pipeline is still streaming) and `image` (`none` once `getImage` has
transferred it). -/
structure ImageBuilderThread where
  running : Bool
  streaming : Bool
  image : Option Image
deriving DecidableEq, Repr

/-- ImageBuilderThread::getImage: the builder afterwards and the pointer
returned (`none`: 0). -/
def ImageBuilderThread.getImage (b : ImageBuilderThread) :
    ImageBuilderThread × Option Image :=
  if b.streaming then (b, none) else ({ b with image := none }, b.image)

/-- The function object a TranscodeFileReader is constructed with. -/
inductive Done where
  | readAheadIsDone
  | nonReadAheadIsDone
deriving DecidableEq, Repr

/-- The classes derived from Reader. A FileReader is given by the content
of the file its descriptor is open on, an ImageReader by the image its
smart pointer references (acquired from the image cache), a
TranscodeFileReader by its `imageBuilderThread` pointer (`none`: 0, the
pipeline could not be constructed) and its `done` function object. -/
inductive ReaderClass where
  | fileReader (content : List Char)
  | imageReader (image : Image)
  | transcodeFileReader (imageBuilderThread : Option ImageBuilderThread) (done : Done)
deriving DecidableEq, Repr

/-- Reader: `fileIndex`, the use counter `count` (`unsigned`, the sharers)
and the derived class. -/
structure Reader where
  fileIndex : FileIndex
  count : Nat
  derived : ReaderClass
deriving DecidableEq, Repr

/-- The virtual `getImage`: `Reader::getImage` returns 0 and only
TranscodeFileReader overrides it, with `imageBuilderThread->getImage()`;
that dereferences `imageBuilderThread` whatever its value (`none` for the
whole result: the null pointer is dereferenced). -/
def Reader.getImage (r : Reader) : Option (Reader × Option Image) :=
  match r.derived with
  | .fileReader _ => some (r, none)
  | .imageReader _ => some (r, none)
  | .transcodeFileReader none _ => none
  | .transcodeFileReader (some b) done =>
    some ({ r with derived := .transcodeFileReader (some b.getImage.1) done }, b.getImage.2)

/-- The errno value EINVAL (Linux). -/
abbrev EINVAL : Int := 22

/-- The errno value of an input/output error (Linux), `EIO` in the source. -/
abbrev EIO_ : Int := 5

/-- What a call of `read` comes to: the caller waits on the condition (and
looks again when it is notified), or the call returns `result`, the
`ssize_t`, with the characters that `buffer` points at afterwards. An image
lives in memory, so it has fewer than 2 to the power 63 characters and a
number of copied characters keeps its value as an `ssize_t`. -/
inductive ReadResult where
  | waits
  | returned (result : Int) (buffer : List Char)
deriving DecidableEq, Repr

/-- The copy that ends `ImageBuilderThread::read` and `ImageReader::read`,
from `if (offset >= image->size()) return 0;` on: `image->copy(offset, copy,
buffer)` overwrites the first `copy` characters of the buffer. -/
def answer (image : Image) (buffer : List Char) (size offset : Nat) : ReadResult :=
  if image.length ≤ offset then .returned 0 buffer
  else
    let available := image.length - offset
    let copy := if size < available then size else available
    .returned (copy : Nat) ((image.drop offset).take copy ++ buffer.drop copy)

/-- ImageBuilderThread::read, at one look at the condition of its `while`;
`offset + size` is a `size_t` sum. No result when `image` is null (it is
dereferenced). -/
def ImageBuilderThread.read (b : ImageBuilderThread) (buffer : List Char)
    (size offset : Nat) : Option ReadResult :=
  match b.image with
  | none => none
  | some image =>
    if b.running = true ∧ image.length < (offset + size) % SIZE_RANGE then some .waits
    else some (answer image buffer size offset)

/-- One turn of the loop of `ImageBuilderThread::run`: the tile read from
the pipe is appended to the image. No result when `image` is null. -/
def ImageBuilderThread.append (b : ImageBuilderThread) (tile : List Char) :
    Option ImageBuilderThread :=
  match b.image with
  | none => none
  | some image => some { b with image := some (image ++ tile) }

/-- ImageBuilderThread::eos (with `stopRunning`, which closes the write side
of the pipe). -/
def ImageBuilderThread.eos (b : ImageBuilderThread) : ImageBuilderThread :=
  { b with streaming := false }

/-- The end of `ImageBuilderThread::run`, after its loop. -/
def ImageBuilderThread.runEnd (b : ImageBuilderThread) : ImageBuilderThread :=
  { b with running := false }

/-- One step of the production on a builder: a tile of 1 to `sizeof tile`
characters is appended by the running thread, the bus delivers the end of
the stream, or the thread ends. -/
inductive ImageBuilderThread.Step : ImageBuilderThread → ImageBuilderThread → Prop where
  | append (b b1 : ImageBuilderThread) (tile : List Char) :
      b.running = true → 0 < tile.length → tile.length ≤ 8192 →
      b.append tile = some b1 → ImageBuilderThread.Step b b1
  | eos (b : ImageBuilderThread) : ImageBuilderThread.Step b b.eos
  | runEnd (b : ImageBuilderThread) : b.running = true → ImageBuilderThread.Step b b.runEnd

/-- One event on a builder: a step of the production, or a call of
`getImage`. -/
inductive ImageBuilderThread.Event : ImageBuilderThread → ImageBuilderThread → Prop where
  | step (b b1 : ImageBuilderThread) : ImageBuilderThread.Step b b1 →
      ImageBuilderThread.Event b b1
  | getImage (b : ImageBuilderThread) : ImageBuilderThread.Event b b.getImage.1

/-- TranscodeFileReader::read, for the Reader's `imageBuilderThread`
pointer. -/
def TranscodeFileReader.read (imageBuilderThread : Option ImageBuilderThread)
    (buffer : List Char) (size : Nat) (offset_ : Int) : Option ReadResult :=
  if offset_ < 0 then some (.returned (-EINVAL) buffer)
  else
    match imageBuilderThread with
    | none => some (.returned (-EIO_) buffer)
    | some b => b.read buffer size offset_.toNat

/-- ImageReader::read, for the image that `imageConstPointer` references. -/
def ImageReader.read (image : Image) (buffer : List Char) (size : Nat) (offset_ : Int) :
    ReadResult :=
  if offset_ < 0 then .returned (-EINVAL) buffer
  else answer image buffer size offset_.toNat

/-- ImageReader::size. -/
def ImageReader.size (image : Image) (_wait : Bool) : Nat :=
  image.length

namespace ImageCache

/-- The static `persistName`: the name of the file of a FileIndex in the
persist directory. -/
def persistName (fileIndex : FileIndex) : List Char :=
  FileIndex.write fileIndex

/-- The test `in >> fileIndex && in.eof()` of
`RemoveAllUnreferencedFiles::before` on a file name: the FileIndex built
from the name, if one can be. -/
def named (name : List Char) : Option FileIndex :=
  let r := FileIndex.read ⟨name, false, false⟩ ⟨0, 0, 0⟩
  if !r.1.failbit && r.1.eofbit then some r.2 else none

/-- RemoveAllUnreferencedFiles::before at a regular file of depth 1:
whether the file is unlinked. The set `references` is ordered by
`FileIndex::operator<`, under which two FileIndexes are equivalent exactly
when their fields are equal. -/
def unlinks (references : List FileIndex) (name : List Char) : Bool :=
  match named name with
  | some fileIndex => !decide (fileIndex ∈ references)
  | none => false

/-- Container::open: the container afterwards and the new Reader (its
`count` still 0), or 0. -/
def open_ (c : Container) (fileIndex : FileIndex) : Container × Option Reader :=
  match acquire c fileIndex with
  | (c1, some image) => (c1, some ⟨fileIndex, 0, .imageReader image⟩)
  | (c1, none) =>
    match c1.persistDir with
    | none => (c1, none)
    | some d =>
      match d.files.find? (fun f => decide (f.1 = fileIndex)) with
      | some f => (c1, some ⟨fileIndex, 0, .fileReader f.2⟩)
      | none => (c1, none)

end ImageCache

/-! ## ReaderFactory.h / ReaderFactory.cpp -/

/-- The part of `struct stat` that the factory reads. -/
structure Stat where
  isDir : Bool
  fileIndex : FileIndex
  size : Int
deriving DecidableEq, Repr

/-- The file system under `baseFd` at the time of a call: `fstatat` gives
the stat of a path or fails, `openat` (read only) gives a descriptor, taken
as the content of the file, or fails. -/
structure Base where
  fstatat : List Char → Option Stat
  openat : List Char → Option (List Char)

/-- ReaderFactory. A `Reader *` is an address; `heap` gives the Reader
object that lives at an address (`none`: no live object). `map` is the
`std::map<FileIndex const, Reader *>`, `deque` the queue of its
`readAheadRelease` member. -/
structure ReaderFactory where
  map : List (FileIndex × Nat)
  heap : Nat → Option Reader
  transcodeMapping : Transcode.Mapping
  trueSize : Bool
  readAheadLimit : Nat
  imageCache : ImageCache.Container
  readAheadCount : Nat
  deque : List Nat

namespace ReaderFactory

/-- The constructor. -/
def new (transcodeMapping : Transcode.Mapping) (trueSize : Bool) (readAheadLimit : Nat)
    (countLimit memoryLimit : Nat) (timeLimit : Int) (persistDir : ImageCache.PersistDir) :
    ReaderFactory :=
  { map := [], heap := fun _ => none, transcodeMapping := transcodeMapping,
    trueSize := trueSize, readAheadLimit := readAheadLimit,
    imageCache := ImageCache.Container.new countLimit memoryLimit timeLimit persistDir,
    readAheadCount := 0, deque := [] }

/-- The lookup `map.find(fileIndex)`. -/
def mapFind (map : List (FileIndex × Nat)) (fileIndex : FileIndex) : Option Nat :=
  (map.find? (fun e => decide (e.1 = fileIndex))).map (fun e => e.2)

/-- The call `map.insert(Map::value_type(fileIndex, reader))`: nothing is
inserted when the key is present. -/
def mapInsert (map : List (FileIndex × Nat)) (fileIndex : FileIndex) (reader : Nat) :
    List (FileIndex × Nat) :=
  if (mapFind map fileIndex).isSome then map else map ++ [(fileIndex, reader)]

/-- The call `map.erase(fileIndex)`. -/
def mapErase (map : List (FileIndex × Nat)) (fileIndex : FileIndex) :
    List (FileIndex × Nat) :=
  map.filter (fun e => decide (e.1 ≠ fileIndex))

/-- The statement `++*reader` (`Reader::operator++`, `unsigned`); `none`
when no Reader lives at the address. -/
def increment (f : ReaderFactory) (reader : Nat) : Option ReaderFactory :=
  match f.heap reader with
  | none => none
  | some r =>
    some { f with
      heap := Function.update f.heap reader
        (some { r with count := (r.count + 1) % UINT_RANGE }) }

/-- The expression `new TranscodeFileReader(fileIndex, fileFd, pipeline,
done)`: `built` says whether the pipeline could be constructed, in which
case there is a builder thread, running and streaming, with an empty
image. -/
def newTranscodeFileReader (fileIndex : FileIndex) (built : Bool) (done : Done) : Reader :=
  ⟨fileIndex, 0,
    .transcodeFileReader (if built then some ⟨true, true, some []⟩ else none) done⟩

/-- ReaderFactory::open. `uninitialized` is what the local `st` holds before
anything is written to it, `address` is where a `new` Reader would be put,
`built` says whether the pipeline of a new TranscodeFileReader can be
constructed. The result is the factory afterwards and the Reader returned
(`none`: 0); no result at all when an address is used at which no Reader
lives. -/
def open_ (f : ReaderFactory) (base : Base) (path : List Char) (uninitialized : Stat)
    (address : Nat) (built : Bool) : Option (ReaderFactory × Option Nat) :=
  let st0 := base.fstatat path
  if (match st0 with | some st => st.isDir | none => false) then some (f, none)
  else
    let source := Transcode.sourceFrom f.transcodeMapping path
    let st1 : Option Stat :=
      if source.result.differs then base.fstatat (source.result.get path)
      else some (st0.getD uninitialized)
    match st1 with
    | none => some (f, none)
    | some st =>
      let fileIndex := st.fileIndex
      match mapFind f.map fileIndex with
      | some reader => (increment f reader).map (fun f1 => (f1, some reader))
      | none =>
        let opened := ImageCache.open_ f.imageCache fileIndex
        let f1 : ReaderFactory := { f with imageCache := opened.1 }
        let created : Option (ReaderFactory × Reader) :=
          match opened.2 with
          | some r => some (f1, r)
          | none =>
            match base.openat (source.result.get path) with
            | none => none
            | some content =>
              if !source.result.differs then
                some (f1, ⟨fileIndex, 0, .fileReader content⟩)
              else if f1.readAheadCount < f1.readAheadLimit then
                let r := newTranscodeFileReader fileIndex built .readAheadIsDone
                some ({ f1 with readAheadCount := (f1.readAheadCount + 1) % SIZE_RANGE },
                  { r with count := (r.count + 1) % UINT_RANGE })
              else
                some (f1, newTranscodeFileReader fileIndex built .nonReadAheadIsDone)
        match created with
        | none => some (f1, none)
        | some (f2, r) =>
          let f3 : ReaderFactory :=
            { f2 with
              heap := Function.update f2.heap address (some r)
              map := mapInsert f2.map fileIndex address }
          (increment f3 address).map (fun f4 => (f4, some address))

/-- ReaderFactory::release. `t1` and `t2` are what `time(0)` returns in the
image cache, first for the value (the creation time in `add`, the idle time
in the `release` that the smart pointer of an ImageReader calls when the
Reader is deleted), then for `cull`. No result when no Reader lives at the
address, when `getImage` dereferences a null pointer, or when the
assertion of `Container::add` fails. -/
def release (f : ReaderFactory) (reader : Nat) (t1 t2 : Int) : Option ReaderFactory :=
  match f.heap reader with
  | none => none
  | some r0 =>
    let r : Reader := { r0 with count := ((UINT_RANGE - 1) + r0.count) % UINT_RANGE }
    if r.count = 0 then
      match r.getImage with
      | none => none
      | some (r1, image) =>
        let cache : Option ImageCache.Container :=
          match image with
          | some i => ImageCache.add f.imageCache r1.fileIndex i t1 t2
          | none => some f.imageCache
        match cache with
        | none => none
        | some c =>
          let c1 : ImageCache.Container :=
            match r1.derived with
            | .imageReader _ => ImageCache.release c r1.fileIndex t1 t2
            | _ => c
          some { f with
            imageCache := c1
            map := mapErase f.map r1.fileIndex
            heap := Function.update f.heap reader none }
    else
      some { f with heap := Function.update f.heap reader (some r) }

/-- ReaderFactory::stat up to the point where the lock is given up: the
factory afterwards and the Reader that the caller then holds, whose `size`
it reads before it calls `release` (`none`: the function has returned under
the lock). `address` and `built` are as in `open_`. -/
def stat (f : ReaderFactory) (base : Base) (path : List Char) (address : Nat)
    (built : Bool) : Option (ReaderFactory × Option Nat) :=
  if path = [] then some (f, none)
  else if (match base.fstatat path with | some st => st.isDir | none => false) then
    some (f, none)
  else
    let source := Transcode.sourceFrom f.transcodeMapping path
    if !source.result.differs then some (f, none)
    else
      match base.fstatat (source.result.get path) with
      | none => some (f, none)
      | some st =>
        let fileIndex := st.fileIndex
        if 0 ≤ ImageCache.sizeOf f.imageCache fileIndex then some (f, none)
        else
          match mapFind f.map fileIndex with
          | some reader => (increment f reader).map (fun f1 => (f1, some reader))
          | none =>
            if f.trueSize ∨ f.readAheadCount < f.readAheadLimit then
              match base.openat (source.result.get path) with
              | none => some (f, none)
              | some _ =>
                let r := newTranscodeFileReader fileIndex built .readAheadIsDone
                let f1 : ReaderFactory :=
                  { f with
                    heap := Function.update f.heap address (some r)
                    map := mapInsert f.map fileIndex address }
                match increment f1 address with
                | none => none
                | some f2 =>
                  let f3 : ReaderFactory :=
                    { f2 with readAheadCount := (f2.readAheadCount + 1) % SIZE_RANGE }
                  (increment f3 address).map (fun f4 => (f4, some address))
            else some (f, none)

/-- ReaderFactory::readAhead. -/
def readAhead (f : ReaderFactory) (base : Base) (path : List Char) (address : Nat)
    (built : Bool) : Option ReaderFactory :=
  if ¬ (f.readAheadCount < f.readAheadLimit) then some f
  else if (match base.fstatat path with | some st => st.isDir | none => false) then some f
  else
    let source := Transcode.sourceFrom f.transcodeMapping path
    if !source.result.differs then some f
    else
      match base.fstatat (source.result.get path) with
      | none => some f
      | some st =>
        let fileIndex := st.fileIndex
        if 0 ≤ ImageCache.sizeOf f.imageCache fileIndex then some f
        else if (mapFind f.map fileIndex).isSome then some f
        else
          match base.openat (source.result.get path) with
          | none => some f
          | some _ =>
            let r := newTranscodeFileReader fileIndex built .readAheadIsDone
            let f1 : ReaderFactory :=
              { f with
                heap := Function.update f.heap address (some r)
                map := mapInsert f.map fileIndex address }
            (increment f1 address).map (fun f2 =>
              { f2 with readAheadCount := (f2.readAheadCount + 1) % SIZE_RANGE })

/-- ReaderFactory::readAheadIsDone, with `ReadAheadRelease::push`. -/
def readAheadIsDone (f : ReaderFactory) (reader : Nat) : ReaderFactory :=
  { f with
    readAheadCount := ((SIZE_RANGE - 1) + f.readAheadCount) % SIZE_RANGE
    deque := f.deque ++ [reader] }

/-- The builder thread of the TranscodeFileReader at an address moves on to
the state `b` (a tile appended, the end of the stream, the end of the
thread); nothing changes when there is no such Reader or no builder. -/
def builderStep (f : ReaderFactory) (reader : Nat) (b : ImageBuilderThread) : ReaderFactory :=
  match f.heap reader with
  | some ⟨fileIndex, count, .transcodeFileReader (some _) done⟩ =>
    { f with
      heap := Function.update f.heap reader
        (some ⟨fileIndex, count, .transcodeFileReader (some b) done⟩) }
  | _ => f

/-- No hold taken next on a live Reader can wrap its `unsigned` counter. -/
def CountsInRange (f : ReaderFactory) : Prop :=
  ∀ a r, f.heap a = some r → r.count + 1 < UINT_RANGE

/-- One step of the factory: `open`, `release` of a live Reader (a release
that matches a hold: a Reader is deleted when its last hold is released),
`stat` up to its own release (which is a `release` step), `readAhead`, and
the steps of the threads that the factory does not drive: a builder thread
moving on, and `readAheadIsDone`. A `new` Reader gets an address at which
no Reader lives. -/
inductive Step : ReaderFactory → ReaderFactory → Prop where
  | open_ (f f1 : ReaderFactory) (base : Base) (path : List Char) (uninitialized : Stat)
      (address : Nat) (built : Bool) (result : Option Nat) :
      f.heap address = none → CountsInRange f →
      open_ f base path uninitialized address built = some (f1, result) → Step f f1
  | release (f f1 : ReaderFactory) (reader : Nat) (t1 t2 : Int) :
      (f.heap reader).isSome → release f reader t1 t2 = some f1 → Step f f1
  | stat (f f1 : ReaderFactory) (base : Base) (path : List Char) (address : Nat)
      (built : Bool) (held : Option Nat) :
      f.heap address = none → CountsInRange f →
      stat f base path address built = some (f1, held) → Step f f1
  | readAhead (f f1 : ReaderFactory) (base : Base) (path : List Char) (address : Nat)
      (built : Bool) :
      f.heap address = none →
      readAhead f base path address built = some f1 → Step f f1
  | builderStep (f : ReaderFactory) (reader : Nat) (b : ImageBuilderThread) :
      Step f (builderStep f reader b)
  | readAheadIsDone (f : ReaderFactory) (reader : Nat) :
      Step f (readAheadIsDone f reader)

/-- The states reachable from a newly constructed factory `f0`. -/
inductive Reachable (f0 : ReaderFactory) : ReaderFactory → Prop where
  | init : Reachable f0 f0
  | step (f f1 : ReaderFactory) : Reachable f0 f → Step f f1 → Reachable f0 f1

/-- The invariant of the map, on the map and the heap alone: at most one
entry per FileIndex, and every entry refers to a live Reader that has the
key as its `fileIndex` and a use counter of at least 1. -/
def Linked (map : List (FileIndex × Nat)) (heap : Nat → Option Reader) : Prop :=
  (map.map (fun e => e.1)).Nodup
    ∧ ∀ e ∈ map, ∃ r, heap e.2 = some r ∧ r.fileIndex = e.1 ∧ 1 ≤ r.count

/-- The invariant of the map of a factory. -/
def MapInvariant (f : ReaderFactory) : Prop :=
  Linked f.map f.heap

/-- Whether a call has constructed, at `address`, a TranscodeFileReader with
`readAheadIsDone` as its function object: no Reader lived there before the
call and such a Reader lives there after it. -/
def constructsReadAhead (f f1 : ReaderFactory) (address : Nat) : Bool :=
  match f.heap address, f1.heap address with
  | none, some r =>
    match r.derived with
    | .transcodeFileReader _ .readAheadIsDone => true
    | _ => false
  | _, _ => false

/-- The states of a factory with the guarantees that are outstanding. A
TranscodeFileReader is constructed with a guarantee (`doneGuarantee`) that
its function object is called, once, when production has ended. The list
holds the address of every Reader constructed with `readAheadIsDone` whose
guarantee has not been fulfilled yet: a call that constructs such a Reader
adds its address, and `readAheadIsDone` runs for an address of the list,
which it takes off. The other steps are those of `Step`. -/
inductive Guaranteed (f0 : ReaderFactory) : ReaderFactory → List Nat → Prop where
  | init : Guaranteed f0 f0 []
  | open_ (f f1 : ReaderFactory) (pending : List Nat) (base : Base) (path : List Char)
      (uninitialized : Stat) (address : Nat) (built : Bool) (result : Option Nat) :
      Guaranteed f0 f pending → f.heap address = none →
      open_ f base path uninitialized address built = some (f1, result) →
      Guaranteed f0 f1
        (if constructsReadAhead f f1 address then address :: pending else pending)
  | release (f f1 : ReaderFactory) (pending : List Nat) (reader : Nat) (t1 t2 : Int) :
      Guaranteed f0 f pending → release f reader t1 t2 = some f1 →
      Guaranteed f0 f1 pending
  | stat (f f1 : ReaderFactory) (pending : List Nat) (base : Base) (path : List Char)
      (address : Nat) (built : Bool) (held : Option Nat) :
      Guaranteed f0 f pending → f.heap address = none →
      stat f base path address built = some (f1, held) →
      Guaranteed f0 f1
        (if constructsReadAhead f f1 address then address :: pending else pending)
  | readAhead (f f1 : ReaderFactory) (pending : List Nat) (base : Base) (path : List Char)
      (address : Nat) (built : Bool) :
      Guaranteed f0 f pending → f.heap address = none →
      readAhead f base path address built = some f1 →
      Guaranteed f0 f1
        (if constructsReadAhead f f1 address then address :: pending else pending)
  | builderStep (f : ReaderFactory) (pending : List Nat) (reader : Nat)
      (b : ImageBuilderThread) :
      Guaranteed f0 f pending → Guaranteed f0 (builderStep f reader b) pending
  | readAheadIsDone (f : ReaderFactory) (pending : List Nat) (reader : Nat) :
      Guaranteed f0 f pending → reader ∈ pending →
      Guaranteed f0 (readAheadIsDone f reader) (pending.erase reader)

/-- Whether a Reader is a TranscodeFileReader. -/
def isTranscode (r : Reader) : Bool :=
  match r.derived with
  | .transcodeFileReader _ _ => true
  | _ => false

/-- One step of the factory or of the thread of its image cache
(`Container::run`), which calls `cull` at a time of its own. -/
inductive StepOrCull : ReaderFactory → ReaderFactory → Prop where
  | step (f f1 : ReaderFactory) : Step f f1 → StepOrCull f f1
  | cull (f : ReaderFactory) (now : Int) :
      StepOrCull f { f with imageCache := ImageCache.cull f.imageCache now }

/-- Every live Reader is the one that the map holds for its FileIndex. -/
def Indexed (f : ReaderFactory) : Prop :=
  ∀ a r, f.heap a = some r → (r.fileIndex, a) ∈ f.map

/-- No TranscodeFileReader of the map has a FileIndex that the image cache
holds a value for. -/
def Uncached (f : ReaderFactory) : Prop :=
  ∀ e ∈ f.map, ∀ r, f.heap e.2 = some r → isTranscode r = true →
    ImageCache.find f.imageCache.values e.1 = none

end ReaderFactory

/-! ## Cwd.h / Cwd.cpp -/

namespace CwdSynchronized

/-- The call `chdir(path)` in a process whose working directory is `wd`,
`isDirectory` telling the paths that name a directory the process may enter
(paths are absolute, as the ones the program nominates are): the working
directory afterwards. A failed `chdir` leaves it as it was; the program
does not look at the result. -/
def chdir (isDirectory : List Char → Bool) (wd path : List Char) : List Char :=
  if isDirectory path then path else wd

/-- The working directory of the process and the class variables of
CwdSynchronized: `cwd` is the `Cwd` object (`none`: the null pointer), given
by the `path` that its constructor got from `getcwd`. -/
structure State where
  wd : List Char
  cwd : Option (List Char)
  path : List Char
  count : Nat
deriving DecidableEq, Repr

/-- The constructor `CwdSynchronized(path_)`: `none` while the caller is
kept in `wait()` (there is a `cwd` and `path` differs from `path_`),
otherwise the state when the constructor returns. -/
def acquire (isDirectory : List Char → Bool) (s : State) (path_ : List Char) :
    Option State :=
  if s.cwd.isSome ∧ s.path ≠ path_ then none
  else
    let s1 : State :=
      match s.cwd with
      | none => { s with cwd := some s.wd, wd := chdir isDirectory s.wd path_, path := path_ }
      | some _ => s
    some { s1 with count := (s1.count + 1) % UINT_RANGE }

/-- The destructor `~CwdSynchronized()`. -/
def release (isDirectory : List Char → Bool) (s : State) : State :=
  let count := ((UINT_RANGE - 1) + s.count) % UINT_RANGE
  if count = 0 then
    { s with
      count := count
      cwd := none
      wd := match s.cwd with
        | some saved => chdir isDirectory s.wd saved
        | none => s.wd }
  else { s with count := count }

end CwdSynchronized

/-! ## FindFile.h -/

namespace FindFile

/-- Visitor::DirectionEnum. -/
inductive DirectionEnum where
  | Continue
  | Stop
  | Prune
  | Return
deriving DecidableEq, Repr

/-- A file hierarchy as a traverse meets it: the name of a file and, for a
directory that can be opened, what `Location::next` returns one after the
other (the entries other than "." and ".."). -/
inductive Tree where
  | node (name : List Char) (children : List Tree)

/-- A call of one of the two callbacks of a Visitor, with the Location it
was called for (the name of the file, then those of its parents up to the
root of the traverse) and the direction it returned. -/
inductive Call where
  | before (location : List (List Char)) (direction : DirectionEnum)
  | after (location : List (List Char)) (direction : DirectionEnum)
deriving DecidableEq, Repr

/-- The direction that a call returned. -/
def Call.direction : Call → DirectionEnum
  | .before _ d => d
  | .after _ d => d

/-- A Visitor: the callbacks `before` and `after`, which see the Location
and may change the state `σ` of the object. -/
structure Visitor (σ : Type) where
  before : σ → List (List Char) → DirectionEnum × σ
  after : σ → List (List Char) → DirectionEnum × σ

/-- The `after` of the base class: it returns `Continue`. -/
def Visitor.defaultAfter {σ : Type} (s : σ) (_location : List (List Char)) :
    DirectionEnum × σ :=
  (.Continue, s)

mutual
/-- Visitor::traverseLocation at a file under the Locations `parents`: the
direction returned, the state of the Visitor and the calls made so far. -/
def traverseLocation {σ : Type} (v : Visitor σ) (parents : List (List Char)) :
    Tree → σ → List Call → DirectionEnum × σ × List Call
  | .node name children, s, log =>
    let location := name :: parents
    let b := v.before s location
    let log1 := log ++ [.before location b.1]
    let r : DirectionEnum × σ × List Call :=
      if b.1 = .Continue then children_ v location children b.1 b.2 log1
      else (b.1, b.2, log1)
    if r.1 ≠ .Stop then
      let a := v.after r.2.1 location
      (a.1, a.2, r.2.2 ++ [.after location a.1])
    else r
/-- The `do ... while` loop of `traverseLocation` over what `next` returns:
it ends when `next` returns a null pointer, and after a `traverse` that
returned neither `Continue` nor `Prune`. -/
def children_ {σ : Type} (v : Visitor σ) (location : List (List Char)) :
    List Tree → DirectionEnum → σ → List Call → DirectionEnum × σ × List Call
  | [], direction, s, log => (direction, s, log)
  | child :: rest, _, s, log =>
    let r := traverseLocation v location child s log
    if r.1 = .Continue ∨ r.1 = .Prune then children_ v location rest r.1 r.2.1 r.2.2
    else r
end

/-- Visitor::traverse at the root of a hierarchy, no call made yet. -/
def traverse {σ : Type} (v : Visitor σ) (root : Tree) (s : σ) :
    DirectionEnum × σ × List Call :=
  traverseLocation v [] root s []

/-- No call of the list returned `Stop`. -/
def Quiet (log : List Call) : Prop :=
  ∀ c ∈ log, c.direction ≠ .Stop

/-- A traverse with the direction `d` and the calls `log`: either no call
returned `Stop` and `d` is not `Stop`, or the last call and no other
returned `Stop` and `d` is `Stop`. -/
def Ended (d : DirectionEnum) (log : List Call) : Prop :=
  (d ≠ .Stop ∧ Quiet log)
    ∨ (d = .Stop ∧ ∃ pre c, log = pre ++ [c] ∧ c.direction = .Stop ∧ Quiet pre)

end FindFile

/-! ## GstFs.cpp -/

namespace GstFs

/-- GstFs::open for a read-only open: `++path`, and the factory's `open`
unless nothing is left of the path (`none` for the Reader: `-EACCES`). -/
def open_ (f : ReaderFactory) (base : Base) (path : List Char) (uninitialized : Stat)
    (address : Nat) (built : Bool) : Option (ReaderFactory × Option Nat) :=
  let path1 := path.drop 1
  if path1 = [] then some (f, none)
  else ReaderFactory.open_ f base path1 uninitialized address built

/-- GstFs::getattr up to the point where the factory's `stat` gives up its
lock. -/
def getattr (f : ReaderFactory) (base : Base) (path : List Char) (address : Nat)
    (built : Bool) : Option (ReaderFactory × Option Nat) :=
  ReaderFactory.stat f base (path.drop 1) address built

/-- GstFs::readdir: the paths handed to `ReaderFactory::readAhead` and the
names handed to `filler`, in order, for the names `entries` that `::readdir`
returns one after the other. `room` is the number of names that `filler`
takes before it returns 1 for a full buffer. -/
def readdir (transcodeMapping : Transcode.Mapping) (path : List Char) :
    List (List Char) → Nat → List (List Char) × List (List Char)
  | [], _ => ([], [])
  | d_name :: rest, room =>
    let target := (Transcode.targetFrom transcodeMapping d_name).result
    let ahead : List (List Char) :=
      if target.differs then [path.drop 1 ++ ('/' :: target.get d_name)] else []
    match room with
    | 0 => (ahead, [target.get d_name])
    | room1 + 1 =>
      let r := readdir transcodeMapping path rest room1
      (ahead ++ r.1, target.get d_name :: r.2)

end GstFs

/-! ## Concrete inputs -/

namespace Transcode

/-- The mapping of the single rule (flac, mp3) with an empty pipeline. -/
def flacToMp3 : Mapping := addAll [("flac".toList, "mp3".toList, [])]

/-- The element that `add` stores for the rule (flac, mp3). -/
def flacElement : Element := ⟨"flac".toList, "mp3".toList, wrapPipeline []⟩

/-- A mapping with a source extension that ends in a dot and another source
extension: the rules (flac, mp3) and (b.flac, ogg). -/
def nested : Mapping :=
  addAll [("flac".toList, "mp3".toList, []), ("b.flac".toList, "ogg".toList, [])]

end Transcode

namespace ImageCache

/-- Three files. -/
def fiA : FileIndex := ⟨1, 1, 0⟩

/-- The second file. -/
def fiB : FileIndex := ⟨1, 2, 0⟩

/-- The third file. -/
def fiC : FileIndex := ⟨1, 3, 0⟩

/-- A cache of limits 10 values, 1000 bytes and 0 seconds, after `add` of
`fiA` at time 5 and `acquire` of it: its one value is in use once. -/
def busy : Container :=
  { countLimit := 10, memoryLimit := 1000, timeLimit := 0, persistDir := none,
    count := 1, memory := 1, values := [⟨fiA, ⟨1, 5⟩, ['a']⟩] }

/-- A cache of at most 2 values, with three unused values last used at
times 1, 2 and 3, and neither memory nor age pressure. -/
def threeIdle : Container :=
  { countLimit := 2, memoryLimit := 1000, timeLimit := 1000, persistDir := none,
    count := 3, memory := 3,
    values := [⟨fiA, ⟨0, 1⟩, ['a']⟩, ⟨fiB, ⟨0, 2⟩, ['b']⟩, ⟨fiC, ⟨0, 3⟩, ['c']⟩] }

/-- A cache of limits 10 values, 1000 bytes and 10 seconds, after `add` of
`fiA` and of `fiB` at time 0: two unused values. -/
def twoIdle : Container :=
  { countLimit := 10, memoryLimit := 1000, timeLimit := 10, persistDir := none,
    count := 2, memory := 2,
    values := [⟨fiA, ⟨0, 0⟩, ['a']⟩, ⟨fiB, ⟨0, 0⟩, ['b']⟩] }

/-- A cache with `fiA` in use twice and `fiB` in use once. -/
def shared : Container :=
  { countLimit := 10, memoryLimit := 1000, timeLimit := 10, persistDir := none,
    count := 2, memory := 2,
    values := [⟨fiB, ⟨1, 0⟩, ['b']⟩, ⟨fiA, ⟨2, 0⟩, ['a']⟩] }

end ImageCache

namespace ReaderFactory

/-- A base directory that holds the one file "x.flac". -/
def oneFlac : Base :=
  { fstatat := fun p => if p = "x.flac".toList then some ⟨false, ⟨1, 7, 0⟩, 100⟩ else none
    openat := fun p => if p = "x.flac".toList then some "flac".toList else none }

/-- A new factory for the rule (flac, mp3), with the default limits. -/
def start : ReaderFactory :=
  new Transcode.flacToMp3 false 16 50 1000 3600 none

/-- A new factory for the rule (flac, mp3) that reports true sizes and has
no room for read-ahead. -/
def sizing : ReaderFactory :=
  new Transcode.flacToMp3 true 0 50 1000 3600 none

/-- The factory `sizing` after the locked part of `stat("x.mp3")` on the
base `oneFlac`. -/
def sized : ReaderFactory :=
  match stat sizing oneFlac "x.mp3".toList 0 true with
  | some (f, _) => f
  | none => sizing

/-- A new factory for the rule (flac, mp3) without room for read-ahead. -/
def single : ReaderFactory :=
  new Transcode.flacToMp3 false 0 50 1000 3600 none

/-- The factory `single` after `open("x.mp3")` on the base `oneFlac`, the
pipeline of the new Reader at address 0 failing to be constructed. -/
def unbuilt : ReaderFactory :=
  match open_ single oneFlac "x.mp3".toList ⟨false, ⟨0, 0, 0⟩, 0⟩ 0 false with
  | some (f, _) => f
  | none => single

/-- The factory `start` after `open("x.mp3")` on the base `oneFlac`, the
new Reader being put at address 0. -/
def opened : ReaderFactory :=
  match open_ start oneFlac "x.mp3".toList ⟨false, ⟨0, 0, 0⟩, 0⟩ 0 true with
  | some (f, _) => f
  | none => start

/-- The factory `opened` after a second `open("x.mp3")`, for which a new
Reader would be put at address 1. -/
def openedTwice : ReaderFactory :=
  match open_ opened oneFlac "x.mp3".toList ⟨false, ⟨0, 0, 0⟩, 0⟩ 1 true with
  | some (f, _) => f
  | none => opened

/-- The factory `openedTwice` after two calls of `release` for the Reader
at address 0, at the times 5 and 6. -/
def releasedTwice : ReaderFactory :=
  match (release openedTwice 0 5 5).bind (fun f => release f 0 6 6) with
  | some f => f
  | none => openedTwice

end ReaderFactory

namespace ImageCache

/-- A cache without room and with a persist directory that holds nothing
but a temporary file of six characters for `fiA`. -/
def leftOver : Container :=
  Container.new 0 1000 3600
    (some ⟨[], [(fiA, ['u', 'v', 'w', 'x', 'y', 'z'])], [], .written⟩)

end ImageCache

namespace FindFile

/-- A directory "r" that holds the directory "a", with the file "c" in it,
and the file "b". -/
def hierarchy : Tree :=
  .node "r".toList [.node "a".toList [.node "c".toList []], .node "b".toList []]

/-- A Visitor without state whose `before` returns `direction` at the files
named `name` and `Continue` at the others, and whose `after` is that of the
base class. -/
def directs (direction : DirectionEnum) (name : List Char) : Visitor Unit :=
  { before := fun s location =>
      (if location.head? = some name then direction else .Continue, s)
    after := Visitor.defaultAfter }

end FindFile

/-! ## The extension mapping: lemmas -/

namespace Transcode

theorem findBySource_some {m : Mapping} {key : List Char} {e : Element}
    (h : findBySource m key = some e) : e ∈ m ∧ e.source = key := by
  unfold findBySource at h
  exact ⟨List.mem_of_find?_eq_some h, by simpa using List.find?_some h⟩

theorem findByTarget_some {m : Mapping} {key : List Char} {e : Element}
    (h : findByTarget m key = some e) : e ∈ m ∧ e.target = key := by
  unfold findByTarget at h
  exact ⟨List.mem_of_find?_eq_some h, by simpa using List.find?_some h⟩

theorem findBySource_eq_none {m : Mapping} {key : List Char} :
    findBySource m key = none ↔ ∀ e ∈ m, e.source ≠ key := by
  simp [findBySource]

theorem findByTarget_eq_none {m : Mapping} {key : List Char} :
    findByTarget m key = none ↔ ∀ e ∈ m, e.target ≠ key := by
  simp [findByTarget]

theorem findBySource_of_mem {m : Mapping} (hm : Unique m) {e : Element} (he : e ∈ m) :
    findBySource m e.source = some e := by
  have hp := hm.1
  clear hm
  induction m with
  | nil => cases he
  | cons x xs ih =>
    rw [List.pairwise_cons] at hp
    by_cases hx : x = e
    · subst hx
      simp [findBySource]
    · have hmem : e ∈ xs := by
        rcases List.mem_cons.1 he with h | h
        · exact absurd h.symm hx
        · exact h
      have hne : x.source ≠ e.source := hp.1 e hmem
      have := ih hmem hp.2
      simp only [findBySource] at this ⊢
      rw [List.find?_cons_of_neg _ (by simpa using hne)]
      exact this

theorem findByTarget_of_mem {m : Mapping} (hm : Unique m) {e : Element} (he : e ∈ m) :
    findByTarget m e.target = some e := by
  have hp := hm.2
  clear hm
  induction m with
  | nil => cases he
  | cons x xs ih =>
    rw [List.pairwise_cons] at hp
    by_cases hx : x = e
    · subst hx
      simp [findByTarget]
    · have hmem : e ∈ xs := by
        rcases List.mem_cons.1 he with h | h
        · exact absurd h.symm hx
        · exact h
      have hne : x.target ≠ e.target := hp.1 e hmem
      have := ih hmem hp.2
      simp only [findByTarget] at this ⊢
      rw [List.find?_cons_of_neg _ (by simpa using hne)]
      exact this

/-- One turn of the loop, in terms of `strchr`: without a dot the loop
ends; at the dot that `strchr` finds, the string past it is looked up and
the loop returns or goes on from there. -/
theorem scanExtension_strchr (find : List Char → Option Element) (s : List Char) (k : Nat) :
    scanExtension find s k
      = match strchr s '.' with
        | none => none
        | some i =>
          match find (s.drop (i + 1)) with
          | some element => some (k + i + 1, element)
          | none => scanExtension find (s.drop (i + 1)) (k + i + 1) := by
  induction s generalizing k with
  | nil => rfl
  | cons c rest ih =>
    by_cases hc : c = '.'
    · subst hc
      simp only [scanExtension, strchr, if_true, List.drop_succ_cons, List.drop_zero,
        Nat.add_zero]
    · simp only [scanExtension, strchr, if_neg hc]
      rw [ih (k + 1)]
      cases hs : strchr rest '.' with
      | none => rfl
      | some i =>
        simp only [Option.map_some', List.drop_succ_cons]
        have hk : k + 1 + i + 1 = k + (i + 1) + 1 := by omega
        rw [hk]

/-- The scan finds nothing when no suffix after a dot is found by the
lookup. -/
theorem scanExtension_none (find : List Char → Option Element) (s : List Char) (k : Nat)
    (h : ∀ pre ext, s = pre ++ '.' :: ext → find ext = none) :
    scanExtension find s k = none := by
  induction s generalizing k with
  | nil => rfl
  | cons c rest ih =>
    have hrest : ∀ pre ext, rest = pre ++ '.' :: ext → find ext = none :=
      fun pre ext e => h (c :: pre) ext (by simp [e])
    by_cases hc : c = '.'
    · subst hc
      have h0 : find rest = none := h [] rest rfl
      simp only [scanExtension, if_true, h0]
      exact ih _ hrest
    · simp only [scanExtension, if_neg hc]
      exact ih _ hrest

/-- The scan stops at the first dot whose suffix the lookup finds. -/
theorem scanExtension_some (find : List Char → Option Element) (pre ext : List Char)
    (e : Element) (k : Nat) (hfind : find ext = some e)
    (hfirst : ∀ pre1 y, pre = pre1 ++ '.' :: y → find (y ++ '.' :: ext) = none) :
    scanExtension find (pre ++ '.' :: ext) k = some (k + pre.length + 1, e) := by
  induction pre generalizing k with
  | nil => simp [scanExtension, hfind]
  | cons c rest ih =>
    have hrest : ∀ pre1 y, rest = pre1 ++ '.' :: y → find (y ++ '.' :: ext) = none :=
      fun pre1 y e1 => hfirst (c :: pre1) y (by simp [e1])
    have hstep := ih (k + 1) hrest
    have hlen : k + 1 + rest.length + 1 = k + (c :: rest).length + 1 := by
      simp only [List.length_cons]; omega
    rw [hlen] at hstep
    by_cases hc : c = '.'
    · subst hc
      have h0 : find (rest ++ '.' :: ext) = none := hfirst [] rest rfl
      show scanExtension find ('.' :: (rest ++ '.' :: ext)) k = _
      simp only [scanExtension, if_true, h0]
      exact hstep
    · show scanExtension find (c :: (rest ++ '.' :: ext)) k = _
      simp only [scanExtension, if_neg hc]
      exact hstep

/-- What a successful scan says about the string. -/
theorem scanExtension_inv (find : List Char → Option Element) (s : List Char) (k n : Nat)
    (e : Element) (h : scanExtension find s k = some (n, e)) :
    ∃ pre ext, s = pre ++ '.' :: ext ∧ n = k + pre.length + 1 ∧ find ext = some e
      ∧ ∀ pre1 y, pre = pre1 ++ '.' :: y → find (y ++ '.' :: ext) = none := by
  induction s generalizing k with
  | nil => simp [scanExtension] at h
  | cons c rest ih =>
    have hcons : ∀ (hrec : scanExtension find rest (k + 1) = some (n, e))
        (hhead : c = '.' → find rest = none),
        ∃ pre ext, c :: rest = pre ++ '.' :: ext ∧ n = k + pre.length + 1
          ∧ find ext = some e
          ∧ ∀ pre1 y, pre = pre1 ++ '.' :: y → find (y ++ '.' :: ext) = none := by
      intro hrec hhead
      obtain ⟨pre, ext, hs, hn, hf, hfirst⟩ := ih (k + 1) hrec
      refine ⟨c :: pre, ext, by simp [hs], by simp only [List.length_cons]; omega, hf, ?_⟩
      intro pre1 y hpre
      cases pre1 with
      | nil =>
        simp only [List.nil_append, List.cons.injEq] at hpre
        have := hhead hpre.1
        rw [hs, hpre.2] at this
        exact this
      | cons d pre2 =>
        simp only [List.cons_append, List.cons.injEq] at hpre
        exact hfirst pre2 y hpre.2
    by_cases hc : c = '.'
    · subst hc
      simp only [scanExtension, if_true] at h
      cases hf : find rest with
      | none =>
        rw [hf] at h
        exact hcons h (fun _ => hf)
      | some e1 =>
        rw [hf] at h
        simp only [Option.some.injEq, Prod.mk.injEq] at h
        refine ⟨[], rest, rfl, by simp [← h.1], by rw [hf, h.2], ?_⟩
        intro pre1 y hpre
        simp at hpre
    · simp only [scanExtension, if_neg hc] at h
      exact hcons h (fun h1 => absurd h1 hc)

theorem newConcatenation_split (pre ext extension : List Char) :
    newConcatenation (pre ++ '.' :: ext) (0 + pre.length + 1) extension
      = pre ++ '.' :: extension := by
  have h : pre ++ '.' :: ext = (pre ++ ['.']) ++ ext := by simp
  have hl : 0 + pre.length + 1 = (pre ++ ['.']).length := by simp
  rw [newConcatenation, h, hl, List.take_left]
  simp

/-- The form of `targetFrom` at its leftmost match. -/
theorem targetFrom_of_first (m : Mapping) (pre ext : List Char) (e : Element)
    (hfind : findBySource m ext = some e)
    (hfirst : ∀ pre1 y, pre = pre1 ++ '.' :: y → findBySource m (y ++ '.' :: ext) = none) :
    targetFrom m (pre ++ '.' :: ext) = ⟨.allocated (pre ++ '.' :: e.target), some e⟩ := by
  unfold targetFrom
  rw [scanExtension_some (findBySource m) pre ext e 0 hfind hfirst]
  simp only [newConcatenation_split]

/-- The form of `sourceFrom` at its leftmost match. -/
theorem sourceFrom_of_first (m : Mapping) (pre ext : List Char) (e : Element)
    (hfind : findByTarget m ext = some e)
    (hfirst : ∀ pre1 y, pre = pre1 ++ '.' :: y → findByTarget m (y ++ '.' :: ext) = none) :
    sourceFrom m (pre ++ '.' :: ext) = ⟨.allocated (pre ++ '.' :: e.source), some e⟩ := by
  unfold sourceFrom
  rw [scanExtension_some (findByTarget m) pre ext e 0 hfind hfirst]
  simp only [newConcatenation_split]

/-- A successful `sourceFrom` found its element at a leftmost match. -/
theorem sourceFrom_inv (m : Mapping) (p : List Char) (e : Element)
    (h : (sourceFrom m p).elementReturn = some e) :
    ∃ pre ext, p = pre ++ '.' :: ext ∧ findByTarget m ext = some e
      ∧ ∀ pre1 y, pre = pre1 ++ '.' :: y → findByTarget m (y ++ '.' :: ext) = none := by
  unfold sourceFrom at h
  cases hs : scanExtension (findByTarget m) p 0 with
  | none => rw [hs] at h; simp at h
  | some r =>
    obtain ⟨n, e1⟩ := r
    rw [hs] at h
    simp only [Option.some.injEq] at h
    subst h
    obtain ⟨pre, ext, hp, -, hf, hfirst⟩ := scanExtension_inv _ _ _ _ _ hs
    exact ⟨pre, ext, hp, hf, hfirst⟩

/-- A successful `targetFrom` found its element at a leftmost match. -/
theorem targetFrom_inv (m : Mapping) (p : List Char) (e : Element)
    (h : (targetFrom m p).elementReturn = some e) :
    ∃ pre ext, p = pre ++ '.' :: ext ∧ findBySource m ext = some e
      ∧ ∀ pre1 y, pre = pre1 ++ '.' :: y → findBySource m (y ++ '.' :: ext) = none := by
  unfold targetFrom at h
  cases hs : scanExtension (findBySource m) p 0 with
  | none => rw [hs] at h; simp at h
  | some r =>
    obtain ⟨n, e1⟩ := r
    rw [hs] at h
    simp only [Option.some.injEq] at h
    subst h
    obtain ⟨pre, ext, hp, -, hf, hfirst⟩ := scanExtension_inv _ _ _ _ _ hs
    exact ⟨pre, ext, hp, hf, hfirst⟩

end Transcode

/-! ## The extension mapping: the claims -/

namespace Transcode

theorem split_earlier (ext : List Char) {pre pre1 ext1 : List Char}
    (h : pre = pre1 ++ '.' :: ext1) :
    pre ++ '.' :: ext = pre1 ++ '.' :: (ext1 ++ '.' :: ext) ∧ pre1.length < pre.length := by
  subst h
  constructor
  · simp
  · simp only [List.length_append, List.length_cons]; omega

/-- C1. `targetFrom` stops at the first dot of the path whose following
suffix is the source extension of a rule: for a rule `e` of the mapping and
a path `pre ++ "." ++ e.source` in which no earlier dot is followed by a
source extension of any rule, it returns a new string, `pre ++ "." ++
e.target`, and writes `e` through `elementReturn`. `sourceFrom` does the
same over the target extensions. With the single rule (flac, mp3),
"a/b.flac" becomes "a/b.mp3" and "a.b.flac" becomes "a.b.mp3". -/
theorem targetFrom_leftmost_match (m : Mapping) (hm : Unique m) (e : Element) (he : e ∈ m)
    (pre : List Char) :
    ((∀ pre1 ext1, pre ++ '.' :: e.source = pre1 ++ '.' :: ext1 →
        pre1.length < pre.length → ∀ r ∈ m, r.source ≠ ext1) →
      targetFrom m (pre ++ '.' :: e.source)
        = ⟨.allocated (pre ++ '.' :: e.target), some e⟩)
    ∧ ((∀ pre1 ext1, pre ++ '.' :: e.target = pre1 ++ '.' :: ext1 →
        pre1.length < pre.length → ∀ r ∈ m, r.target ≠ ext1) →
      sourceFrom m (pre ++ '.' :: e.target)
        = ⟨.allocated (pre ++ '.' :: e.source), some e⟩)
    ∧ targetFrom flacToMp3 "a/b.flac".toList
        = ⟨.allocated "a/b.mp3".toList, some flacElement⟩
    ∧ targetFrom flacToMp3 "a.b.flac".toList
        = ⟨.allocated "a.b.mp3".toList, some flacElement⟩ := by
  refine ⟨?_, ?_, by decide, by decide⟩
  · intro h
    apply targetFrom_of_first m pre e.source e (findBySource_of_mem hm he)
    intro pre1 y hpre
    obtain ⟨h1, h2⟩ := split_earlier e.source hpre
    exact findBySource_eq_none.2 (h pre1 _ h1 h2)
  · intro h
    apply sourceFrom_of_first m pre e.target e (findByTarget_of_mem hm he)
    intro pre1 y hpre
    obtain ⟨h1, h2⟩ := split_earlier e.target hpre
    exact findByTarget_eq_none.2 (h pre1 _ h1 h2)

/-- C2. When no suffix after a dot of the path is a source extension of a
rule, `targetFrom` returns the pointer it was given (so the callers' test
`result.get() != path` is false) and writes nothing through
`elementReturn`; likewise `sourceFrom` for the target extensions. With the
rule (flac, mp3), "readme.txt" comes back as it is. -/
theorem targetFrom_no_match (m : Mapping) (path : List Char) :
    ((∀ pre ext, path = pre ++ '.' :: ext → ∀ r ∈ m, r.source ≠ ext) →
      targetFrom m path = ⟨.argument, none⟩
        ∧ (targetFrom m path).result.differs = false
        ∧ (targetFrom m path).result.get path = path)
    ∧ ((∀ pre ext, path = pre ++ '.' :: ext → ∀ r ∈ m, r.target ≠ ext) →
      sourceFrom m path = ⟨.argument, none⟩
        ∧ (sourceFrom m path).result.differs = false
        ∧ (sourceFrom m path).result.get path = path)
    ∧ targetFrom flacToMp3 "readme.txt".toList = ⟨.argument, none⟩ := by
  refine ⟨?_, ?_, by decide⟩
  · intro h
    have hs : targetFrom m path = ⟨.argument, none⟩ := by
      unfold targetFrom
      rw [scanExtension_none (findBySource m) path 0
        (fun pre ext hp => findBySource_eq_none.2 (h pre ext hp))]
    rw [hs]
    exact ⟨rfl, rfl, rfl⟩
  · intro h
    have hs : sourceFrom m path = ⟨.argument, none⟩ := by
      unfold sourceFrom
      rw [scanExtension_none (findByTarget m) path 0
        (fun pre ext hp => findByTarget_eq_none.2 (h pre ext hp))]
    rw [hs]
    exact ⟨rfl, rfl, rfl⟩

/-- C3, as stated, fails: with the rules (flac, mp3) and (b.flac, ogg),
`sourceFrom` maps "a.b.mp3" to "a.b.flac" by the first rule, and
`targetFrom` maps "a.b.flac" to "a.ogg" by the second. -/
theorem roundtrip_fails_nested :
    Unique nested
    ∧ (sourceFrom nested "a.b.mp3".toList).elementReturn ≠ none
    ∧ (sourceFrom nested "a.b.mp3".toList).result.get "a.b.mp3".toList = "a.b.flac".toList
    ∧ (targetFrom nested "a.b.flac".toList).result.get "a.b.flac".toList = "a.ogg".toList
    ∧ (targetFrom nested
        ((sourceFrom nested "a.b.mp3".toList).result.get "a.b.mp3".toList)).result.get
          ((sourceFrom nested "a.b.mp3".toList).result.get "a.b.mp3".toList)
        ≠ "a.b.mp3".toList := by
  decide

/-- C3, amended. In a mapping where no source extension is some text, a dot
and then a source extension of the mapping, `targetFrom` undoes
`sourceFrom` on every path for which `sourceFrom` finds a rule; where no
target extension is some text, a dot and then a target extension,
`sourceFrom` undoes `targetFrom` on every path for which `targetFrom` finds
a rule. -/
theorem roundtrip_without_nested_extensions (m : Mapping) (hm : Unique m) (p : List Char) :
    ((∀ r ∈ m, ∀ r1 ∈ m, ∀ x : List Char, r1.source ≠ x ++ '.' :: r.source) →
      (sourceFrom m p).elementReturn ≠ none →
      (targetFrom m ((sourceFrom m p).result.get p)).result.get
        ((sourceFrom m p).result.get p) = p)
    ∧ ((∀ r ∈ m, ∀ r1 ∈ m, ∀ x : List Char, r1.target ≠ x ++ '.' :: r.target) →
      (targetFrom m p).elementReturn ≠ none →
      (sourceFrom m ((targetFrom m p).result.get p)).result.get
        ((targetFrom m p).result.get p) = p) := by
  constructor
  · intro hnest hfound
    cases he : (sourceFrom m p).elementReturn with
    | none => exact absurd he hfound
    | some e =>
      obtain ⟨pre, ext, hp, hf, hfirst⟩ := sourceFrom_inv m p e he
      obtain ⟨hmem, htarget⟩ := findByTarget_some hf
      subst hp
      rw [sourceFrom_of_first m pre ext e hf hfirst]
      simp only [PathPointer.get]
      rw [targetFrom_of_first m pre e.source e (findBySource_of_mem hm hmem)
        (fun pre1 y _ => findBySource_eq_none.2 (fun r1 hr1 => hnest e hmem r1 hr1 y))]
      simp only [PathPointer.get, htarget]
  · intro hnest hfound
    cases he : (targetFrom m p).elementReturn with
    | none => exact absurd he hfound
    | some e =>
      obtain ⟨pre, ext, hp, hf, hfirst⟩ := targetFrom_inv m p e he
      obtain ⟨hmem, hsource⟩ := findBySource_some hf
      subst hp
      rw [targetFrom_of_first m pre ext e hf hfirst]
      simp only [PathPointer.get]
      rw [sourceFrom_of_first m pre e.target e (findByTarget_of_mem hm hmem)
        (fun pre1 y _ => findByTarget_eq_none.2 (fun r1 hr1 => hnest e hmem r1 hr1 y))]
      simp only [PathPointer.get, hsource]

theorem add_eq (m : Mapping) (s t p : List Char) :
    add m s t p
      = if (∃ e ∈ m, e.source = s) ∨ (∃ e ∈ m, e.target = t) then m
        else m ++ [⟨s, t, wrapPipeline p⟩] := by
  unfold add insert
  by_cases h : (∃ e ∈ m, e.source = s) ∨ (∃ e ∈ m, e.target = t)
  · rw [if_pos h]
    have : ((findBySource m s).isSome || (findByTarget m t).isSome) = true := by
      rcases h with ⟨e, he, hs⟩ | ⟨e, he, ht⟩
      · have : findBySource m s ≠ none := fun hn => findBySource_eq_none.1 hn e he hs
        simp [Option.isSome_iff_ne_none, this]
      · have : findByTarget m t ≠ none := fun hn => findByTarget_eq_none.1 hn e he ht
        simp [Option.isSome_iff_ne_none, this]
    simp only [this, if_true]
  · rw [if_neg h]
    have h1 : findBySource m s = none :=
      findBySource_eq_none.2 (fun e he hs => h (Or.inl ⟨e, he, hs⟩))
    have h2 : findByTarget m t = none :=
      findByTarget_eq_none.2 (fun e he ht => h (Or.inr ⟨e, he, ht⟩))
    simp [h1, h2]

theorem add_unique (m : Mapping) (s t p : List Char) (hm : Unique m) :
    Unique (add m s t p) := by
  rw [add_eq]
  by_cases h : (∃ e ∈ m, e.source = s) ∨ (∃ e ∈ m, e.target = t)
  · rw [if_pos h]; exact hm
  · rw [if_neg h]
    unfold Unique
    rw [List.pairwise_append, List.pairwise_append]
    refine ⟨⟨hm.1, List.pairwise_singleton _ _, ?_⟩, ⟨hm.2, List.pairwise_singleton _ _, ?_⟩⟩
    · intro a ha b hb
      rw [List.mem_singleton] at hb
      subst hb
      exact fun hs => h (Or.inl ⟨a, ha, hs⟩)
    · intro a ha b hb
      rw [List.mem_singleton] at hb
      subst hb
      exact fun ht => h (Or.inr ⟨a, ha, ht⟩)

theorem foldl_add_unique (calls : List (List Char × List Char × List Char)) (m : Mapping)
    (hm : Unique m) : Unique (calls.foldl (fun m c => add m c.1 c.2.1 c.2.2) m) := by
  induction calls generalizing m with
  | nil => exact hm
  | cons c cs ih => exact ih _ (add_unique m c.1 c.2.1 c.2.2 hm)

/-- C4. `add(s, t, p)` leaves the mapping as it is when `s` is already the
source extension of an element or `t` already the target extension of one,
and otherwise adds exactly one element, with source `s`, target `t` and the
wrapped pipeline; so after any sequence of `add` calls on an empty mapping
no two elements share a source extension and no two share a target
extension. -/
theorem add_keeps_extensions_unique (m : Mapping) (s t p : List Char)
    (calls : List (List Char × List Char × List Char)) :
    add m s t p
        = (if (∃ e ∈ m, e.source = s) ∨ (∃ e ∈ m, e.target = t) then m
          else m ++ [⟨s, t, wrapPipeline p⟩])
    ∧ Unique (addAll calls) :=
  ⟨add_eq m s t p, foldl_add_unique calls [] ⟨List.Pairwise.nil, List.Pairwise.nil⟩⟩

end Transcode

/-! ## The image cache: lemmas -/

namespace ImageCache

/-- The loop erases a front part of the index, all of it unused, and leaves
the limits alone. -/
theorem cullLoop_spec (latest : Int) (c : Container) (l : List Value) :
    ∃ dropped, l = dropped ++ (cullLoop latest c l).values
      ∧ (∀ v ∈ dropped, v.lruIndex.count = 0)
      ∧ (cullLoop latest c l).countLimit = c.countLimit
      ∧ (cullLoop latest c l).memoryLimit = c.memoryLimit
      ∧ (cullLoop latest c l).timeLimit = c.timeLimit := by
  induction l generalizing c with
  | nil => exact ⟨[], rfl, by simp, rfl, rfl, rfl⟩
  | cons v rest ih =>
    by_cases h : v.lruIndex.count = 0
        ∧ (c.countLimit < c.count ∨ c.memoryLimit < c.memory ∨ v.lruIndex.time < latest)
    · simp only [cullLoop, if_pos h]
      obtain ⟨dropped, h1, h2, h3, h4, h5⟩ := ih
        { c with
          count := ((SIZE_RANGE - 1) + c.count) % SIZE_RANGE
          memory := ((SIZE_RANGE - v.image.length % SIZE_RANGE) + c.memory) % SIZE_RANGE
          persistDir := persist c.persistDir v.fileIndex v.image }
      refine ⟨v :: dropped, ?_, ?_, h3, h4, h5⟩
      · rw [List.cons_append, ← h1]
      · intro w hw
        rcases List.mem_cons.1 hw with hw | hw
        · rw [hw]; exact h.1
        · exact h2 w hw
    · have hr : cullLoop latest c (v :: rest) = { c with values := v :: rest } := by
        simp only [cullLoop, if_neg h]
      rw [hr]
      exact ⟨[], rfl, by simp, rfl, rfl, rfl⟩

/-- The loop does nothing when the value at `begin()` does not qualify. -/
theorem cullLoop_quiet (latest : Int) (c : Container) (l : List Value)
    (h : ∀ v rest, l = v :: rest →
      ¬ (v.lruIndex.count = 0
        ∧ (c.countLimit < c.count ∨ c.memoryLimit < c.memory ∨ v.lruIndex.time < latest))) :
    cullLoop latest c l = { c with values := l } := by
  cases l with
  | nil => rfl
  | cons v rest => simp only [cullLoop, if_neg (h v rest rfl)]

/-- The loop keeps `count` and `memory` in step with the values. -/
theorem cullLoop_accounting (latest : Int) (c : Container) (l : List Value)
    (hc : c.count = l.length % SIZE_RANGE) (hm : c.memory = totalSize l % SIZE_RANGE) :
    (cullLoop latest c l).count = (cullLoop latest c l).values.length % SIZE_RANGE
      ∧ (cullLoop latest c l).memory
          = totalSize (cullLoop latest c l).values % SIZE_RANGE := by
  induction l generalizing c with
  | nil => exact ⟨hc, hm⟩
  | cons v rest ih =>
    by_cases h : v.lruIndex.count = 0
        ∧ (c.countLimit < c.count ∨ c.memoryLimit < c.memory ∨ v.lruIndex.time < latest)
    · simp only [cullLoop, if_pos h]
      apply ih
      · simp only [List.length_cons] at hc
        simp only [hc, SIZE_RANGE]
        omega
      · simp only [totalSize, List.map_cons, List.sum_cons] at hm ⊢
        simp only [hm, SIZE_RANGE]
        omega
    · simp only [cullLoop, if_neg h]
      exact ⟨hc, hm⟩

end ImageCache

namespace ImageCache

theorem LruIndex.lt_eq_false_iff (a b : LruIndex) :
    b.lt a = false ↔ a.count < b.count ∨ (a.count = b.count ∧ a.time ≤ b.time) := by
  unfold LruIndex.lt
  split_ifs <;> simp <;> omega

theorem LruIndex.lt_eq_true_iff (a b : LruIndex) :
    a.lt b = true ↔ a.count < b.count ∨ (a.count = b.count ∧ a.time < b.time) := by
  unfold LruIndex.lt
  split_ifs <;> simp <;> omega

theorem mem_link (v w : Value) (l : List Value) : w ∈ link v l ↔ w = v ∨ w ∈ l := by
  induction l with
  | nil => simp [link]
  | cons x xs ih =>
    unfold link
    split_ifs
    · simp
    · simp only [List.mem_cons, ih]
      tauto

theorem link_perm (v : Value) (l : List Value) : (link v l).Perm (v :: l) := by
  induction l with
  | nil => simp [link]
  | cons x xs ih =>
    unfold link
    split_ifs
    · exact List.Perm.refl _
    · exact (List.Perm.cons x ih).trans (List.Perm.swap v x xs)

theorem link_ordered (v : Value) (l : List Value) (h : Ordered l) : Ordered (link v l) := by
  induction l with
  | nil => simp [link, Ordered]
  | cons x xs ih =>
    unfold Ordered at h ih ⊢
    rw [List.pairwise_cons] at h
    unfold link
    split_ifs with hv
    · rw [List.pairwise_cons]
      refine ⟨?_, List.pairwise_cons.2 h⟩
      intro w hw
      rw [LruIndex.lt_eq_true_iff] at hv
      rcases List.mem_cons.1 hw with hw | hw
      · rw [hw, LruIndex.lt_eq_false_iff]; omega
      · have := h.1 w hw
        rw [LruIndex.lt_eq_false_iff] at this ⊢
        omega
    · rw [List.pairwise_cons]
      refine ⟨?_, ih h.2⟩
      intro w hw
      rcases (mem_link v w xs).1 hw with hw | hw
      · rw [hw]; simpa using hv
      · exact h.1 w hw

theorem mem_unlink (w : Value) (l : List Value) (fileIndex : FileIndex) :
    w ∈ unlink l fileIndex ↔ w ∈ l ∧ w.fileIndex ≠ fileIndex := by
  simp [unlink]

theorem unlink_ordered (l : List Value) (fileIndex : FileIndex) (h : Ordered l) :
    Ordered (unlink l fileIndex) :=
  List.Pairwise.sublist (List.filter_sublist l) h

theorem unlink_link (v : Value) (l : List Value) :
    unlink (link v l) v.fileIndex = unlink l v.fileIndex := by
  induction l with
  | nil => simp [link, unlink]
  | cons x xs ih =>
    unfold link
    split_ifs
    · simp [unlink]
    · simp only [unlink, List.filter_cons] at ih ⊢
      rw [ih]

theorem unlink_unlink (l : List Value) (fileIndex : FileIndex) :
    unlink (unlink l fileIndex) fileIndex = unlink l fileIndex := by
  simp [unlink]

theorem find_eq_none {l : List Value} {fileIndex : FileIndex} :
    find l fileIndex = none ↔ ∀ v ∈ l, v.fileIndex ≠ fileIndex := by
  simp [find]

theorem find_some {l : List Value} {fileIndex : FileIndex} {v : Value}
    (h : find l fileIndex = some v) : v ∈ l ∧ v.fileIndex = fileIndex := by
  unfold find at h
  exact ⟨List.mem_of_find?_eq_some h, by simpa using List.find?_some h⟩

theorem find_unlink (l : List Value) (fileIndex : FileIndex) :
    find (unlink l fileIndex) fileIndex = none :=
  find_eq_none.2 (fun v hv => ((mem_unlink v l fileIndex).1 hv).2)

theorem find_link_self (v : Value) (l : List Value)
    (h : ∀ w ∈ l, w.fileIndex ≠ v.fileIndex) : find (link v l) v.fileIndex = some v := by
  induction l with
  | nil => simp [link, find]
  | cons x xs ih =>
    have hx : x.fileIndex ≠ v.fileIndex := h x (List.mem_cons_self _ _)
    unfold link
    split_ifs
    · simp [find]
    · have := ih (fun w hw => h w (List.mem_cons_of_mem _ hw))
      simp only [find] at this ⊢
      rw [List.find?_cons_of_neg _ (by simpa using hx)]
      exact this

theorem find_replace (l : List Value) (v : Value) :
    find (replace l v) v.fileIndex = some v :=
  find_link_self v _ (fun w hw => ((mem_unlink w l v.fileIndex).1 hw).2)

/-- With unique keys, a list is its value of a key and the rest. -/
theorem perm_cons_unlink (l : List Value) (v : Value) (hu : UniqueKeys l) (hv : v ∈ l) :
    l.Perm (v :: unlink l v.fileIndex) := by
  induction l with
  | nil => cases hv
  | cons x xs ih =>
    unfold UniqueKeys at hu ih
    simp only [List.map_cons, List.nodup_cons, List.mem_map, not_exists, not_and] at hu
    by_cases hx : x = v
    · subst hx
      have : unlink (x :: xs) x.fileIndex = xs := by
        simp only [unlink, List.filter_cons]
        simp only [ne_eq, not_true_eq_false, decide_False, Bool.false_eq_true, ↓reduceIte]
        rw [List.filter_eq_self]
        intro w hw
        simpa using hu.1 w hw
      rw [this]
    · have hmem : v ∈ xs := by
        rcases List.mem_cons.1 hv with h | h
        · exact absurd h.symm hx
        · exact h
      have hne : x.fileIndex ≠ v.fileIndex := fun e => hu.1 v hmem e.symm
      have : unlink (x :: xs) v.fileIndex = x :: unlink xs v.fileIndex := by
        simp [unlink, List.filter_cons, hne]
      rw [this]
      exact (List.Perm.cons x (ih hu.2 hmem)).trans (List.Perm.swap v x _)

theorem unlink_keys_nodup (l : List Value) (fileIndex : FileIndex) (hu : UniqueKeys l) :
    UniqueKeys (unlink l fileIndex) := by
  unfold UniqueKeys unlink at *
  exact List.Nodup.sublist (List.Sublist.map _ (List.filter_sublist l)) hu

theorem replace_keys_nodup (l : List Value) (v : Value) (hu : UniqueKeys l) :
    UniqueKeys (replace l v) := by
  have hp := link_perm v (unlink l v.fileIndex)
  unfold UniqueKeys replace
  rw [(hp.map _).nodup_iff, List.map_cons, List.nodup_cons]
  refine ⟨?_, unlink_keys_nodup l v.fileIndex hu⟩
  simp only [List.mem_map, not_exists, not_and]
  intro w hw
  exact ((mem_unlink w l v.fileIndex).1 hw).2

theorem link_keys_nodup (l : List Value) (v : Value) (hu : UniqueKeys l)
    (hv : find l v.fileIndex = none) : UniqueKeys (link v l) := by
  have hp := link_perm v l
  unfold UniqueKeys
  rw [(hp.map _).nodup_iff, List.map_cons, List.nodup_cons]
  refine ⟨?_, hu⟩
  simp only [List.mem_map, not_exists, not_and]
  exact find_eq_none.1 hv

end ImageCache

namespace ImageCache

theorem cullLoop_mem_of_in_use (latest : Int) (c : Container) (l : List Value) (v : Value)
    (hv : v ∈ l) (hpos : 0 < v.lruIndex.count) : v ∈ (cullLoop latest c l).values := by
  obtain ⟨dropped, h1, h2, -⟩ := cullLoop_spec latest c l
  rw [h1] at hv
  rcases List.mem_append.1 hv with h | h
  · have := h2 v h
    omega
  · exact h

theorem cullLoop_sublist (latest : Int) (c : Container) (l : List Value) :
    (cullLoop latest c l).values.Sublist l := by
  obtain ⟨dropped, h1, -⟩ := cullLoop_spec latest c l
  conv => rhs; rw [h1]
  exact List.sublist_append_right _ _

theorem cull_mem_of_in_use (c : Container) (now : Int) (v : Value)
    (hv : v ∈ c.values) (hpos : 0 < v.lruIndex.count) : v ∈ (cull c now).values :=
  cullLoop_mem_of_in_use _ c c.values v hv hpos

theorem add_mem_of_in_use (c c1 : Container) (fileIndex : FileIndex) (image : Image)
    (created now : Int) (h : add c fileIndex image created now = some c1) (v : Value)
    (hv : v ∈ c.values) (hpos : 0 < v.lruIndex.count) : v ∈ c1.values := by
  unfold add at h
  split_ifs at h
  simp only [Option.some.injEq] at h
  rw [← h]
  apply cull_mem_of_in_use _ _ _ _ hpos
  exact (mem_link _ _ _).2 (Or.inr hv)

theorem release_mem_of_other (c : Container) (fileIndex : FileIndex) (idle now : Int)
    (v : Value) (hv : v ∈ c.values) (hpos : 0 < v.lruIndex.count)
    (hne : v.fileIndex ≠ fileIndex) : v ∈ (release c fileIndex idle now).values := by
  unfold release
  cases hf : find c.values fileIndex with
  | none => exact hv
  | some value =>
    have hkey := (find_some hf).2
    have hmem : ∀ w : Value, w.fileIndex = fileIndex → v ∈ replace c.values w := by
      intro w hw
      unfold replace
      rw [hw]
      exact (mem_link _ _ _).2 (Or.inr ((mem_unlink _ _ _).2 ⟨hv, hne⟩))
    simp only
    split_ifs
    · exact cull_mem_of_in_use _ _ _ (hmem _ hkey) hpos
    · exact hmem _ hkey

theorem find_of_mem {l : List Value} (hu : UniqueKeys l) {v : Value} (hv : v ∈ l) :
    find l v.fileIndex = some v := by
  induction l with
  | nil => cases hv
  | cons x xs ih =>
    unfold UniqueKeys at hu ih
    simp only [List.map_cons, List.nodup_cons, List.mem_map, not_exists, not_and] at hu
    by_cases hx : x = v
    · subst hx
      simp [find]
    · have hmem : v ∈ xs := by
        rcases List.mem_cons.1 hv with h | h
        · exact absurd h.symm hx
        · exact h
      have hne : x.fileIndex ≠ v.fileIndex := fun e => hu.1 v hmem e.symm
      have := ih hu.2 hmem
      simp only [find] at this ⊢
      rw [List.find?_cons_of_neg _ (by simpa using hne)]
      exact this

theorem release_mem_of_shared (c : Container) (idle now : Int) (v : Value)
    (hu : UniqueKeys c.values) (hv : v ∈ c.values) (h1 : 1 < v.lruIndex.count)
    (h2 : v.lruIndex.count < UINT_RANGE) :
    (⟨v.fileIndex, ⟨v.lruIndex.count - 1, v.lruIndex.time⟩, v.image⟩ : Value)
      ∈ (release c v.fileIndex idle now).values := by
  have hcount : ((UINT_RANGE - 1) + v.lruIndex.count) % UINT_RANGE = v.lruIndex.count - 1 := by
    simp only [UINT_RANGE] at h2 ⊢
    omega
  have hnz : v.lruIndex.count - 1 ≠ 0 := by omega
  unfold release
  rw [find_of_mem hu hv]
  simp only [hcount, if_neg hnz]
  unfold replace
  exact (mem_link _ _ _).2 (Or.inl rfl)

end ImageCache

namespace ImageCache

theorem totalSize_perm {l l1 : List Value} (h : l.Perm l1) : totalSize l = totalSize l1 :=
  (h.map _).sum_eq

theorem ordered_of_sublist {l l1 : List Value} (hs : l1.Sublist l) (h : Ordered l) :
    Ordered l1 :=
  List.Pairwise.sublist hs h

theorem uniqueKeys_of_sublist {l l1 : List Value} (hs : l1.Sublist l) (h : UniqueKeys l) :
    UniqueKeys l1 :=
  List.Nodup.sublist (List.Sublist.map _ hs) h

theorem cull_values_sublist (c : Container) (now : Int) : (cull c now).values.Sublist c.values :=
  cullLoop_sublist _ c c.values

theorem cull_wellFormed (c : Container) (now : Int) (h : WellFormed c) :
    WellFormed (cull c now) :=
  have hs := cull_values_sublist c now
  ⟨ordered_of_sublist hs h.ordered, uniqueKeys_of_sublist hs h.unique,
    fun v hv => h.counts v (hs.subset hv)⟩

theorem cull_accounted (c : Container) (now : Int) (h : Accounted c) :
    Accounted (cull c now) :=
  cullLoop_accounting _ c c.values h.1 h.2

theorem replace_perm (l : List Value) (v0 v : Value) (hu : UniqueKeys l) (hv0 : v0 ∈ l)
    (hkey : v.fileIndex = v0.fileIndex) :
    (replace l v).Perm (v :: unlink l v0.fileIndex) ∧ l.Perm (v0 :: unlink l v0.fileIndex) := by
  refine ⟨?_, perm_cons_unlink l v0 hu hv0⟩
  unfold replace
  rw [hkey]
  exact link_perm _ _

theorem UINT_RANGE_pos : 0 < UINT_RANGE := by decide

theorem replace_wellFormed (c : Container) (v : Value) (h : WellFormed c)
    (hcount : v.lruIndex.count < UINT_RANGE) :
    WellFormed { c with values := replace c.values v } :=
  ⟨link_ordered _ _ (unlink_ordered _ _ h.ordered), replace_keys_nodup _ _ h.unique,
    fun w hw => by
      rcases (mem_link _ _ _).1 hw with hw | hw
      · rw [hw]; exact hcount
      · exact h.counts w ((mem_unlink _ _ _).1 hw).1⟩

theorem replace_accounted (c : Container) (v0 v : Value) (hu : UniqueKeys c.values)
    (hv0 : v0 ∈ c.values) (hkey : v.fileIndex = v0.fileIndex) (himage : v.image = v0.image)
    (h : Accounted c) : Accounted { c with values := replace c.values v } := by
  obtain ⟨h1, h2⟩ := replace_perm c.values v0 v hu hv0 hkey
  unfold Accounted
  simp only
  rw [h1.length_eq, totalSize_perm h1, h.1, h.2, h2.length_eq, totalSize_perm h2]
  simp [totalSize, himage]

theorem replace_lru_invariant (c : Container) (v0 : Value) (lru : LruIndex)
    (hv0 : v0 ∈ c.values) (hlru : lru.count < UINT_RANGE) (h : WellFormed c)
    (ha : Accounted c) :
    WellFormed { c with values := replace c.values ⟨v0.fileIndex, lru, v0.image⟩ }
      ∧ Accounted { c with values := replace c.values ⟨v0.fileIndex, lru, v0.image⟩ } :=
  ⟨replace_wellFormed c _ h hlru, replace_accounted c v0 _ h.unique hv0 rfl rfl ha⟩

theorem add_invariant (c c1 : Container) (fileIndex : FileIndex) (image : Image)
    (created now : Int) (hadd : add c fileIndex image created now = some c1)
    (h : WellFormed c) (ha : Accounted c) : WellFormed c1 ∧ Accounted c1 := by
  unfold add at hadd
  split_ifs at hadd with hfound
  simp only [Option.some.injEq] at hadd
  have hnone : find c.values fileIndex = none := by
    cases hf : find c.values fileIndex with
    | none => rfl
    | some w => rw [hf] at hfound; simp at hfound
  rw [← hadd]
  constructor
  · apply cull_wellFormed
    refine ⟨link_ordered _ _ h.ordered, link_keys_nodup _ _ h.unique hnone, ?_⟩
    intro w hw
    rcases (mem_link _ _ _).1 hw with hw | hw
    · rw [hw]; exact UINT_RANGE_pos
    · exact h.counts w hw
  · apply cull_accounted
    have hp := link_perm ⟨fileIndex, ⟨0, created⟩, image⟩ c.values
    unfold Accounted
    simp only
    rw [hp.length_eq, totalSize_perm hp, ha.1, ha.2]
    simp only [List.length_cons, totalSize, List.map_cons, List.sum_cons, SIZE_RANGE]
    constructor <;> omega

theorem acquire_invariant (c : Container) (fileIndex : FileIndex)
    (h : WellFormed c) (ha : Accounted c) :
    WellFormed (acquire c fileIndex).1 ∧ Accounted (acquire c fileIndex).1 := by
  unfold acquire
  cases hf : find c.values fileIndex with
  | none => exact ⟨h, ha⟩
  | some v0 =>
    exact replace_lru_invariant c v0 _ (find_some hf).1 (Nat.mod_lt _ UINT_RANGE_pos) h ha

theorem cache_release_invariant (c : Container) (fileIndex : FileIndex) (idle now : Int)
    (h : WellFormed c) (ha : Accounted c) :
    WellFormed (release c fileIndex idle now) ∧ Accounted (release c fileIndex idle now) := by
  unfold release
  cases hf : find c.values fileIndex with
  | none => exact ⟨h, ha⟩
  | some v0 =>
    have hr := replace_lru_invariant c v0
      ⟨((UINT_RANGE - 1) + v0.lruIndex.count) % UINT_RANGE,
        if ((UINT_RANGE - 1) + v0.lruIndex.count) % UINT_RANGE = 0 then idle
        else v0.lruIndex.time⟩ (find_some hf).1 (Nat.mod_lt _ UINT_RANGE_pos) h ha
    simp only
    split_ifs at hr ⊢
    · exact ⟨cull_wellFormed _ _ hr.1, cull_accounted _ _ hr.2⟩
    · exact hr

/-- Every state reachable from the empty cache is well formed and has its
totals in step with its values. -/
theorem cache_reachable_invariant (countLimit memoryLimit : Nat) (timeLimit : Int)
    (persistDir : PersistDir) (c : Container)
    (h : Reachable countLimit memoryLimit timeLimit persistDir c) :
    WellFormed c ∧ Accounted c := by
  induction h with
  | init =>
    exact ⟨⟨List.Pairwise.nil, List.nodup_nil, fun v hv => by cases hv⟩, rfl, rfl⟩
  | step c c1 _ hstep ih =>
    cases hstep with
    | add _ fileIndex image created now hadd =>
      exact add_invariant c c1 fileIndex image created now hadd ih.1 ih.2
    | acquire fileIndex => exact acquire_invariant c fileIndex ih.1 ih.2
    | release fileIndex idle now => exact cache_release_invariant c fileIndex idle now ih.1 ih.2
    | cull now => exact ⟨cull_wellFormed c now ih.1, cull_accounted c now ih.2⟩

end ImageCache

/-! ## The image cache: the claims -/

namespace ImageCache

/-- C5, as stated, fails for `release`: in a cache with a time limit of 0,
`fiA` is added at time 5 and acquired, so its value is in use once; the
`release` of `fiA` that reads time 6, and then time 7 in `cull`, makes the
value unused and evicts it at once. -/
theorem release_evicts_the_value_released :
    Reachable 10 1000 0 none busy
    ∧ busy.values = [⟨fiA, ⟨1, 5⟩, ['a']⟩]
    ∧ (release busy fiA 6 7).values = [] := by
  refine ⟨?_, rfl, by decide⟩
  have h1 : Step (Container.new 10 1000 0 none)
      { countLimit := 10, memoryLimit := 1000, timeLimit := 0, persistDir := none,
        count := 1, memory := 1, values := [⟨fiA, ⟨0, 5⟩, ['a']⟩] } :=
    Step.add _ _ fiA ['a'] 5 5 (by decide)
  have h2 := Step.acquire
    { countLimit := 10, memoryLimit := 1000, timeLimit := 0, persistDir := none,
      count := 1, memory := 1, values := [⟨fiA, ⟨0, 5⟩, ['a']⟩] } fiA
  have h3 : (acquire
    { countLimit := 10, memoryLimit := 1000, timeLimit := 0, persistDir := none,
      count := 1, memory := 1, values := [⟨fiA, ⟨0, 5⟩, ['a']⟩] } fiA).1 = busy := by decide
  rw [h3] at h2
  exact Reachable.step _ _ (Reachable.step _ _ Reachable.init h1) h2

/-- C5, amended. A value that is in use (use counter greater than 0) is
still in the container, unchanged, after `cull`, after `add`, and after
the `release` of another FileIndex; after the `release` of its own
FileIndex it is still there, with the same image and its use counter one
lower, when its use counter was greater than 1. -/
theorem cull_keeps_values_in_use (c : Container) (v : Value) (hv : v ∈ c.values)
    (hpos : 0 < v.lruIndex.count) :
    (∀ now, v ∈ (cull c now).values)
    ∧ (∀ fileIndex image created now c1,
        add c fileIndex image created now = some c1 → v ∈ c1.values)
    ∧ (∀ fileIndex idle now, v.fileIndex ≠ fileIndex →
        v ∈ (release c fileIndex idle now).values)
    ∧ (∀ idle now, UniqueKeys c.values → 1 < v.lruIndex.count →
        v.lruIndex.count < UINT_RANGE →
        (⟨v.fileIndex, ⟨v.lruIndex.count - 1, v.lruIndex.time⟩, v.image⟩ : Value)
          ∈ (release c v.fileIndex idle now).values) :=
  ⟨fun now => cull_mem_of_in_use c now v hv hpos,
    fun fileIndex image created now c1 h =>
      add_mem_of_in_use c c1 fileIndex image created now h v hv hpos,
    fun fileIndex idle now hne => release_mem_of_other c fileIndex idle now v hv hpos hne,
    fun idle now hu h1 h2 => release_mem_of_shared c idle now v hu hv h1 h2⟩

/-- The amended C5 at the cache `shared`, for its value of `fiA`, in use
twice. -/
theorem cull_keeps_values_in_use_witness :
    (⟨fiA, ⟨2, 0⟩, ['a']⟩ : Value) ∈ shared.values
    ∧ (⟨fiA, ⟨2, 0⟩, ['a']⟩ : Value) ∈ (cull shared 100).values
    ∧ (⟨fiA, ⟨2, 0⟩, ['a']⟩ : Value) ∈ (release shared fiB 100 100).values
    ∧ (⟨fiA, ⟨1, 0⟩, ['a']⟩ : Value) ∈ (release shared fiA 100 100).values :=
  have h := cull_keeps_values_in_use shared ⟨fiA, ⟨2, 0⟩, ['a']⟩ (by decide) (by decide)
  ⟨by decide, h.1 100, h.2.2.1 fiB 100 100 (by decide),
    h.2.2.2 100 100 (by unfold UniqueKeys; decide) (by decide) (by decide)⟩

/-- C7. On a container whose `LruIndex` index is in order, when an unused
value is still there after `cull`, so is every unused value with a later
time of last use; and with a count limit of 2, no memory or age pressure
and three unused values last used at times 1, 2 and 3, `cull` erases the
value of time 1 and keeps the other two. -/
theorem cull_least_recently_used_first (c : Container) (now : Int) (h : Ordered c.values)
    (v w : Value) (hv : v ∈ (cull c now).values) (hw : w ∈ c.values)
    (hv0 : v.lruIndex.count = 0) (hw0 : w.lruIndex.count = 0)
    (hlater : v.lruIndex.time < w.lruIndex.time) :
    w ∈ (cull c now).values
    ∧ (cull threeIdle 3).values = [⟨fiB, ⟨0, 2⟩, ['b']⟩, ⟨fiC, ⟨0, 3⟩, ['c']⟩] := by
  refine ⟨?_, by decide⟩
  obtain ⟨dropped, h1, -⟩ := cullLoop_spec
    (if now < c.timeLimit then 0 else now - c.timeLimit) c c.values
  have hkept : (cull c now).values
      = (cullLoop (if now < c.timeLimit then 0 else now - c.timeLimit) c c.values).values := rfl
  rw [← hkept] at h1
  rw [h1] at hw h
  rcases List.mem_append.1 hw with hd | hk
  · unfold Ordered at h
    have := (List.pairwise_append.1 h).2.2 w hd v hv
    rw [LruIndex.lt_eq_false_iff] at this
    omega
  · exact hk

/-- C7 at the cache `threeIdle`: the value of time 2 is kept, so the value
of time 3 is. -/
theorem cull_least_recently_used_first_witness :
    (⟨fiB, ⟨0, 2⟩, ['b']⟩ : Value) ∈ (cull threeIdle 3).values
    ∧ (⟨fiC, ⟨0, 3⟩, ['c']⟩ : Value) ∈ (cull threeIdle 3).values :=
  ⟨by decide,
    (cull_least_recently_used_first threeIdle 3 (by unfold Ordered; decide)
      ⟨fiB, ⟨0, 2⟩, ['b']⟩ ⟨fiC, ⟨0, 3⟩, ['c']⟩ (by decide) (by decide) rfl rfl
      (by decide)).1⟩

/-- C8. In every state reachable from the empty cache by `add`, `acquire`,
`release` and `cull`, the field `count` is the number of values in the
container and the field `memory` is the sum of the sizes of their images
(both numbers being ones that the 64-bit fields can hold). -/
theorem count_and_memory_match_values (countLimit memoryLimit : Nat) (timeLimit : Int)
    (persistDir : PersistDir) (c : Container)
    (h : Reachable countLimit memoryLimit timeLimit persistDir c)
    (hcount : c.values.length < SIZE_RANGE) (hmemory : totalSize c.values < SIZE_RANGE) :
    c.count = c.values.length ∧ c.memory = totalSize c.values := by
  obtain ⟨-, h1, h2⟩ := cache_reachable_invariant countLimit memoryLimit timeLimit persistDir c h
  rw [h1, h2, Nat.mod_eq_of_lt hcount, Nat.mod_eq_of_lt hmemory]
  exact ⟨rfl, rfl⟩

end ImageCache

namespace ImageCache

theorem twoIdle_reachable : Reachable 10 1000 10 none twoIdle := by
  have h1 : Step (Container.new 10 1000 10 none)
      { countLimit := 10, memoryLimit := 1000, timeLimit := 10, persistDir := none,
        count := 1, memory := 1, values := [⟨fiA, ⟨0, 0⟩, ['a']⟩] } :=
    Step.add _ _ fiA ['a'] 0 0 (by decide)
  have h2 : Step
      { countLimit := 10, memoryLimit := 1000, timeLimit := 10, persistDir := none,
        count := 1, memory := 1, values := [⟨fiA, ⟨0, 0⟩, ['a']⟩] } twoIdle :=
    Step.add _ _ fiB ['b'] 0 0 (by decide)
  exact Reachable.step _ _ (Reachable.step _ _ Reachable.init h1) h2

/-- C8 at the cache `twoIdle`. -/
theorem count_and_memory_match_values_witness :
    Reachable 10 1000 10 none twoIdle
    ∧ twoIdle.count = twoIdle.values.length ∧ twoIdle.memory = totalSize twoIdle.values :=
  ⟨twoIdle_reachable,
    count_and_memory_match_values 10 1000 10 none twoIdle twoIdle_reachable
      (by decide) (by decide)⟩

/-- What `acquire` and then `release` of a cached FileIndex come to. -/
theorem release_acquire_eq (c : Container) (fileIndex : FileIndex) (idle now : Int)
    (v0 : Value) (hf : find c.values fileIndex = some v0)
    (hrange : v0.lruIndex.count < UINT_RANGE) :
    release (acquire c fileIndex).1 fileIndex idle now
      = if v0.lruIndex.count = 0 then
          cull { c with
            values := link ⟨fileIndex, ⟨0, idle⟩, v0.image⟩ (unlink c.values fileIndex) } now
        else { c with values := link v0 (unlink c.values fileIndex) } := by
  have hkey : v0.fileIndex = fileIndex := (find_some hf).2
  have hacq : (acquire c fileIndex).1
      = { c with
          values := replace c.values
            ⟨fileIndex, ⟨(v0.lruIndex.count + 1) % UINT_RANGE, v0.lruIndex.time⟩, v0.image⟩ } := by
    unfold acquire
    rw [hf]
    simp only [hkey]
  have hfind := find_replace c.values
    ⟨fileIndex, ⟨(v0.lruIndex.count + 1) % UINT_RANGE, v0.lruIndex.time⟩, v0.image⟩
  have hcount : ((UINT_RANGE - 1) + (v0.lruIndex.count + 1) % UINT_RANGE) % UINT_RANGE
      = v0.lruIndex.count := by
    simp only [UINT_RANGE] at hrange ⊢
    omega
  have hunlink : unlink (link
      ⟨fileIndex, ⟨(v0.lruIndex.count + 1) % UINT_RANGE, v0.lruIndex.time⟩, v0.image⟩
        (unlink c.values fileIndex)) fileIndex = unlink c.values fileIndex := by
    rw [unlink_link
      ⟨fileIndex, ⟨(v0.lruIndex.count + 1) % UINT_RANGE, v0.lruIndex.time⟩, v0.image⟩]
    exact unlink_unlink _ _
  rw [hacq]
  unfold release
  simp only [hfind, hcount]
  unfold replace
  simp only [hunlink]
  by_cases hz : v0.lruIndex.count = 0
  · simp only [hz, if_true]
  · simp only [hz, if_false]
    have : (⟨fileIndex, ⟨v0.lruIndex.count, v0.lruIndex.time⟩, v0.image⟩ : Value) = v0 := by
      rw [← hkey]
    rw [this]

end ImageCache

namespace ImageCache

/-- C9, as stated, fails: in a cache with a time limit of 10 seconds that
holds `fiA` and `fiB`, both unused since time 0, `acquire` and then
`release` of `fiA` at time 100 evict `fiB`, through the `cull` at the end of
`release`. -/
theorem release_after_acquire_evicts_another :
    Reachable 10 1000 10 none twoIdle
    ∧ find twoIdle.values fiA = some ⟨fiA, ⟨0, 0⟩, ['a']⟩
    ∧ find twoIdle.values fiB = some ⟨fiB, ⟨0, 0⟩, ['b']⟩
    ∧ find (release (acquire twoIdle fiA).1 fiA 100 100).values fiB = none
    ∧ (release (acquire twoIdle fiA).1 fiA 100 100).count = 1 :=
  ⟨twoIdle_reachable, by decide, by decide, by decide, by decide⟩

/-- C9, amended. On a well-formed container that holds `fileIndex`,
`acquire` and then `release` of it leave the values (each with its image,
use counter and time), `count`, `memory` and the persist directory as they
were when its value was in use before. When its value was unused, they
leave the values with their images and use counters, `count`, `memory` and
the persist directory as they were, and set the time of last use of that
value to the time of the release, provided the `cull` at the end of
`release` finds nothing to evict: `count` and `memory` are within their
limits, the release time is not before `now - timeLimit` (0 when `now <
timeLimit`) and no other unused value was last used before that. -/
theorem release_after_acquire (c : Container) (fileIndex : FileIndex) (idle now : Int)
    (h : WellFormed c) (v0 : Value) (hf : find c.values fileIndex = some v0) :
    (0 < v0.lruIndex.count →
      (release (acquire c fileIndex).1 fileIndex idle now).values.Perm c.values
      ∧ release (acquire c fileIndex).1 fileIndex idle now
          = { c with values := (release (acquire c fileIndex).1 fileIndex idle now).values })
    ∧ (v0.lruIndex.count = 0 →
      c.count ≤ c.countLimit → c.memory ≤ c.memoryLimit →
      (if now < c.timeLimit then 0 else now - c.timeLimit) ≤ idle →
      (∀ w ∈ c.values, w.lruIndex.count = 0 → w.fileIndex ≠ fileIndex →
        (if now < c.timeLimit then 0 else now - c.timeLimit) ≤ w.lruIndex.time) →
      (release (acquire c fileIndex).1 fileIndex idle now).values.Perm
        (c.values.map (fun w =>
          if w.fileIndex = fileIndex then ⟨w.fileIndex, ⟨0, idle⟩, w.image⟩ else w))
      ∧ release (acquire c fileIndex).1 fileIndex idle now
          = { c with
              values := (release (acquire c fileIndex).1 fileIndex idle now).values }) := by
  obtain ⟨hmem, hkey⟩ := find_some hf
  have heq := release_acquire_eq c fileIndex idle now v0 hf (h.counts v0 hmem)
  have hperm := perm_cons_unlink c.values v0 h.unique hmem
  rw [hkey] at hperm
  constructor
  · intro hpos
    have hnz : v0.lruIndex.count ≠ 0 := by omega
    rw [if_neg hnz] at heq
    rw [heq]
    exact ⟨(link_perm _ _).trans hperm.symm, rfl⟩
  · intro hz hcount hmemory hidle hothers
    rw [if_pos hz] at heq
    have hquiet : cull { c with
          values := link ⟨fileIndex, ⟨0, idle⟩, v0.image⟩ (unlink c.values fileIndex) } now
        = { c with
          values := link ⟨fileIndex, ⟨0, idle⟩, v0.image⟩ (unlink c.values fileIndex) } := by
      unfold cull
      apply cullLoop_quiet
      intro v rest hvals hcond
      have hv : v ∈ link ⟨fileIndex, ⟨0, idle⟩, v0.image⟩ (unlink c.values fileIndex) := by
        simp only at hvals
        rw [hvals]
        exact List.mem_cons_self _ _
      simp only at hcond
      rcases (mem_link _ _ _).1 hv with hv | hv
      · rw [hv] at hcond
        simp only at hcond
        omega
      · obtain ⟨hv1, hv2⟩ := (mem_unlink _ _ _).1 hv
        have := hothers v hv1 hcond.1 hv2
        omega
    rw [heq, hquiet]
    refine ⟨?_, rfl⟩
    simp only
    refine (link_perm _ _).trans ?_
    have hmap := hperm.map (fun w : Value =>
      if w.fileIndex = fileIndex then (⟨w.fileIndex, ⟨0, idle⟩, w.image⟩ : Value) else w)
    refine List.Perm.trans ?_ hmap.symm
    rw [List.map_cons, if_pos hkey, hkey]
    apply List.Perm.cons
    have hid : (unlink c.values fileIndex).map (fun w : Value =>
        if w.fileIndex = fileIndex then (⟨w.fileIndex, ⟨0, idle⟩, w.image⟩ : Value) else w)
        = unlink c.values fileIndex := by
      conv => rhs; rw [← List.map_id (unlink c.values fileIndex)]
      apply List.map_congr_left
      intro w hw
      rw [if_neg ((mem_unlink _ _ _).1 hw).2]
      rfl
    rw [hid]

theorem twoIdle_wellFormed : WellFormed twoIdle :=
  (cache_reachable_invariant 10 1000 10 none twoIdle twoIdle_reachable).1

/-- The amended C9 at the cache `twoIdle`, for `fiA` released at time 5:
nothing is evicted. -/
theorem release_after_acquire_witness :
    WellFormed twoIdle
    ∧ find twoIdle.values fiA = some ⟨fiA, ⟨0, 0⟩, ['a']⟩
    ∧ (release (acquire twoIdle fiA).1 fiA 5 5).values.Perm
        (twoIdle.values.map (fun w =>
          if w.fileIndex = fiA then ⟨w.fileIndex, ⟨0, 5⟩, w.image⟩ else w)) :=
  ⟨twoIdle_wellFormed, by decide,
    ((release_after_acquire twoIdle fiA 5 5 twoIdle_wellFormed ⟨fiA, ⟨0, 0⟩, ['a']⟩
      (by decide)).2 rfl (by decide) (by decide) (by decide) (by decide)).1⟩

end ImageCache

/-! ## The reader factory: lemmas -/

namespace ReaderFactory

theorem mapFind_eq_none {map : List (FileIndex × Nat)} {fileIndex : FileIndex} :
    mapFind map fileIndex = none ↔ ∀ e ∈ map, e.1 ≠ fileIndex := by
  simp [mapFind]

theorem mapFind_some {map : List (FileIndex × Nat)} {fileIndex : FileIndex} {a : Nat}
    (h : mapFind map fileIndex = some a) : (fileIndex, a) ∈ map := by
  unfold mapFind at h
  cases hf : map.find? (fun e => decide (e.1 = fileIndex)) with
  | none => rw [hf] at h; simp at h
  | some e =>
    rw [hf] at h
    simp only [Option.map_some', Option.some.injEq] at h
    have h1 := List.mem_of_find?_eq_some hf
    have h2 : e.1 = fileIndex := by simpa using List.find?_some hf
    rw [← h, ← h2]
    exact h1

/-- A live Reader is replaced by one of the same FileIndex that is still
shared if it was. -/
theorem linked_update (map : List (FileIndex × Nat)) (heap : Nat → Option Reader) (a : Nat)
    (r1 : Reader) (h : Linked map heap)
    (hkey : ∀ r, heap a = some r →
      r1.fileIndex = r.fileIndex ∧ (1 ≤ r.count → 1 ≤ r1.count)) :
    Linked map (Function.update heap a (some r1)) := by
  refine ⟨h.1, ?_⟩
  intro e he
  obtain ⟨r, hr, hk, hc⟩ := h.2 e he
  by_cases hea : e.2 = a
  · rw [hea] at hr
    refine ⟨r1, by rw [hea, Function.update_same], ?_, (hkey r hr).2 hc⟩
    rw [(hkey r hr).1, hk]
  · exact ⟨r, by rw [Function.update_noteq hea]; exact hr, hk, hc⟩

/-- A new Reader is put at a free address and into the map, under a key
that the map does not have. -/
theorem linked_insert (map : List (FileIndex × Nat)) (heap : Nat → Option Reader) (a : Nat)
    (r1 : Reader) (h : Linked map heap) (hfree : heap a = none)
    (hnew : mapFind map r1.fileIndex = none) (hcount : 1 ≤ r1.count) :
    Linked (mapInsert map r1.fileIndex a) (Function.update heap a (some r1)) := by
  have hins : mapInsert map r1.fileIndex a = map ++ [(r1.fileIndex, a)] := by
    unfold mapInsert
    rw [hnew]
    rfl
  rw [hins]
  constructor
  · rw [List.map_append, List.nodup_append]
    refine ⟨h.1, by simp, ?_⟩
    intro k hk1 hk2
    simp only [List.map_cons, List.map_nil, List.mem_singleton] at hk2
    obtain ⟨e, he, hek⟩ := List.mem_map.1 hk1
    exact mapFind_eq_none.1 hnew e he (hek.trans hk2)
  · intro e he
    rcases List.mem_append.1 he with he | he
    · obtain ⟨r, hr, hk, hc⟩ := h.2 e he
      have hea : e.2 ≠ a := by
        intro hea
        rw [hea, hfree] at hr
        cases hr
      exact ⟨r, by rw [Function.update_noteq hea]; exact hr, hk, hc⟩
    · rw [List.mem_singleton] at he
      rw [he]
      exact ⟨r1, Function.update_same _ _ _, rfl, hcount⟩

/-- A Reader is deleted and the entry of its FileIndex erased. -/
theorem linked_erase (map : List (FileIndex × Nat)) (heap : Nat → Option Reader) (a : Nat)
    (fileIndex : FileIndex) (h : Linked map heap)
    (hkey : ∀ r, heap a = some r → r.fileIndex = fileIndex) :
    Linked (mapErase map fileIndex) (Function.update heap a none) := by
  constructor
  · exact List.Nodup.sublist (List.Sublist.map _ (List.filter_sublist map)) h.1
  · intro e he
    unfold mapErase at he
    rw [List.mem_filter] at he
    obtain ⟨r, hr, hk, hc⟩ := h.2 e he.1
    have hea : e.2 ≠ a := by
      intro hea
      rw [hea] at hr
      have := hkey r hr
      rw [hk] at this
      simp [this] at he
    exact ⟨r, by rw [Function.update_noteq hea]; exact hr, hk, hc⟩

theorem mapErase_not_mem (map : List (FileIndex × Nat)) (fileIndex : FileIndex) (a : Nat) :
    (fileIndex, a) ∉ mapErase map fileIndex := by
  unfold mapErase
  simp

theorem increment_eq {f f1 : ReaderFactory} {a : Nat} (h : increment f a = some f1) :
    ∃ r, f.heap a = some r
      ∧ f1 = { f with
          heap := Function.update f.heap a
            (some { r with count := (r.count + 1) % UINT_RANGE }) } := by
  unfold increment at h
  cases hr : f.heap a with
  | none => rw [hr] at h; cases h
  | some r =>
    rw [hr] at h
    simp only [Option.some.injEq] at h
    exact ⟨r, rfl, h.symm⟩

theorem increment_heap {f f1 : ReaderFactory} {a : Nat} {r : Reader}
    (h : increment f a = some f1) (hr : f.heap a = some r) :
    f1.heap a = some { r with count := (r.count + 1) % UINT_RANGE } := by
  obtain ⟨r1, hr1, hf1⟩ := increment_eq h
  rw [hr] at hr1
  cases hr1
  rw [hf1]
  exact Function.update_same _ _ _

theorem increment_linked {f f1 : ReaderFactory} {a : Nat} (h : increment f a = some f1)
    (hinv : Linked f.map f.heap) (hrange : ∀ r, f.heap a = some r → r.count + 1 < UINT_RANGE) :
    Linked f1.map f1.heap := by
  obtain ⟨r, hr, hf1⟩ := increment_eq h
  rw [hf1]
  apply linked_update _ _ _ _ hinv
  intro r2 hr2
  have hrng := hrange r2 hr2
  rw [hr] at hr2
  cases hr2
  refine ⟨rfl, fun _ => ?_⟩
  simp only [UINT_RANGE] at hrng ⊢
  omega

theorem increment_invariant {f f1 : ReaderFactory} {a : Nat} (h : increment f a = some f1)
    (hinv : MapInvariant f) (hrange : CountsInRange f) : MapInvariant f1 :=
  increment_linked h hinv (fun r hr => hrange a r hr)

/-- A new Reader with at most one hold is put into the map and given one
more hold. -/
theorem insert_increment_invariant (f f2 f4 : ReaderFactory) (a : Nat) (r : Reader)
    (hinv : MapInvariant f) (hfree : f.heap a = none)
    (hnew : mapFind f.map r.fileIndex = none) (hcount : r.count ≤ 1)
    (hmap : f2.map = f.map) (hheap : f2.heap = f.heap)
    (h : increment
      { f2 with
        heap := Function.update f2.heap a (some r)
        map := mapInsert f2.map r.fileIndex a } a = some f4) :
    Linked f4.map f4.heap := by
  obtain ⟨r1, hr1, hf4⟩ := increment_eq h
  simp only [Function.update_same, Option.some.injEq] at hr1
  rw [hf4, ← hr1]
  simp only [Function.update_idem, hmap, hheap]
  apply linked_insert f.map f.heap a
    { r with count := (r.count + 1) % UINT_RANGE } hinv hfree hnew
  simp only [UINT_RANGE]
  omega

end ReaderFactory

namespace ReaderFactory

theorem imageCache_open_reader {c : ImageCache.Container} {fileIndex : FileIndex} {r : Reader}
    (h : (ImageCache.open_ c fileIndex).2 = some r) : r.fileIndex = fileIndex ∧ r.count = 0 := by
  unfold ImageCache.open_ at h
  split at h
  · simp only [Option.some.injEq] at h
    rw [← h]
    exact ⟨rfl, rfl⟩
  · split at h
    · cases h
    · split at h
      · simp only [Option.some.injEq] at h
        rw [← h]
        exact ⟨rfl, rfl⟩
      · cases h

theorem open_invariant (f f1 : ReaderFactory) (base : Base) (path : List Char)
    (uninitialized : Stat) (address : Nat) (built : Bool) (result : Option Nat)
    (hfree : f.heap address = none) (hrange : CountsInRange f)
    (h : open_ f base path uninitialized address built = some (f1, result))
    (hinv : MapInvariant f) : MapInvariant f1 := by
  unfold open_ at h
  simp only at h
  split at h
  · simp only [Option.some.injEq, Prod.mk.injEq] at h
    rw [← h.1]
    exact hinv
  · split at h
    · simp only [Option.some.injEq, Prod.mk.injEq] at h
      rw [← h.1]
      exact hinv
    · rename_i st hst
      split at h
      · rename_i reader hfind
        cases hinc : increment f reader with
        | none => rw [hinc] at h; cases h
        | some f2 =>
          rw [hinc] at h
          simp only [Option.map_some', Option.some.injEq, Prod.mk.injEq] at h
          rw [← h.1]
          exact increment_invariant hinc hinv hrange
      · rename_i hfind
        split at h
        · simp only [Option.some.injEq, Prod.mk.injEq] at h
          rw [← h.1]
          exact hinv
        · rename_i f2 r hcreated
          have hprops : f2.map = f.map ∧ f2.heap = f.heap ∧ r.fileIndex = st.fileIndex
              ∧ r.count ≤ 1 := by
            split at hcreated
            · rename_i r0 hopen
              simp only [Option.some.injEq, Prod.mk.injEq] at hcreated
              obtain ⟨hk, hc⟩ := imageCache_open_reader hopen
              rw [← hcreated.1, ← hcreated.2]
              exact ⟨rfl, rfl, hk, by omega⟩
            · split at hcreated
              · cases hcreated
              · split at hcreated
                · simp only [Option.some.injEq, Prod.mk.injEq] at hcreated
                  rw [← hcreated.1, ← hcreated.2]
                  exact ⟨rfl, rfl, rfl, by simp [newTranscodeFileReader]⟩
                · split at hcreated
                  · simp only [Option.some.injEq, Prod.mk.injEq] at hcreated
                    rw [← hcreated.1, ← hcreated.2]
                    exact ⟨rfl, rfl, rfl, by simp [newTranscodeFileReader]⟩
                  · simp only [Option.some.injEq, Prod.mk.injEq] at hcreated
                    rw [← hcreated.1, ← hcreated.2]
                    exact ⟨rfl, rfl, rfl, by simp [newTranscodeFileReader]⟩
          obtain ⟨hmap, hheap, hkey, hcount⟩ := hprops
          cases hinc : increment
              { f2 with
                heap := Function.update f2.heap address (some r)
                map := mapInsert f2.map st.fileIndex address } address with
          | none => rw [hinc] at h; cases h
          | some f4 =>
            rw [hinc] at h
            simp only [Option.map_some', Option.some.injEq, Prod.mk.injEq] at h
            rw [← h.1]
            rw [← hkey] at hinc hfind
            exact insert_increment_invariant f f2 f4 address r hinv hfree hfind hcount
              hmap hheap hinc

end ReaderFactory

namespace ReaderFactory

theorem getImage_fileIndex {r r1 : Reader} {image : Option Image}
    (h : r.getImage = some (r1, image)) : r1.fileIndex = r.fileIndex ∧ r1.count = r.count := by
  unfold Reader.getImage at h
  split at h
  · simp only [Option.some.injEq, Prod.mk.injEq] at h
    rw [← h.1]
    exact ⟨rfl, rfl⟩
  · simp only [Option.some.injEq, Prod.mk.injEq] at h
    rw [← h.1]
    exact ⟨rfl, rfl⟩
  · cases h
  · simp only [Option.some.injEq, Prod.mk.injEq] at h
    rw [← h.1]
    exact ⟨rfl, rfl⟩

/-- What `release` does to the map and the heap. -/
theorem release_eq (f f1 : ReaderFactory) (reader : Nat) (t1 t2 : Int)
    (h : release f reader t1 t2 = some f1) :
    ∃ r, f.heap reader = some r
      ∧ ((((UINT_RANGE - 1) + r.count) % UINT_RANGE = 0
          ∧ f1.map = mapErase f.map r.fileIndex
          ∧ f1.heap = Function.update f.heap reader none)
        ∨ (((UINT_RANGE - 1) + r.count) % UINT_RANGE ≠ 0
          ∧ f1.map = f.map
          ∧ f1.heap = Function.update f.heap reader
              (some { r with count := ((UINT_RANGE - 1) + r.count) % UINT_RANGE }))) := by
  unfold release at h
  cases hr : f.heap reader with
  | none => rw [hr] at h; cases h
  | some r =>
    rw [hr] at h
    refine ⟨r, rfl, ?_⟩
    simp only at h
    split at h
    · rename_i hz
      left
      split at h
      · cases h
      · rename_i r1 image hget
        have hk := (getImage_fileIndex hget).1
        simp only at hk
        split at h
        · cases h
        · simp only [Option.some.injEq] at h
          rw [← h, ← hk]
          exact ⟨hz, rfl, rfl⟩
    · rename_i hz
      right
      simp only [Option.some.injEq] at h
      rw [← h]
      exact ⟨hz, rfl, rfl⟩

theorem release_invariant (f f1 : ReaderFactory) (reader : Nat) (t1 t2 : Int)
    (h : release f reader t1 t2 = some f1) (hinv : MapInvariant f) : MapInvariant f1 := by
  obtain ⟨r, hr, hcase | hcase⟩ := release_eq f f1 reader t1 t2 h
  · obtain ⟨-, hmap, hheap⟩ := hcase
    unfold MapInvariant
    rw [hmap, hheap]
    apply linked_erase _ _ _ _ hinv
    intro r2 hr2
    rw [hr] at hr2
    cases hr2
    rfl
  · obtain ⟨hz, hmap, hheap⟩ := hcase
    unfold MapInvariant
    rw [hmap, hheap]
    apply linked_update _ _ _ _ hinv
    intro r2 hr2
    rw [hr] at hr2
    cases hr2
    exact ⟨rfl, fun _ => Nat.pos_of_ne_zero hz⟩

theorem stat_invariant (f f1 : ReaderFactory) (base : Base) (path : List Char)
    (address : Nat) (built : Bool) (held : Option Nat)
    (hfree : f.heap address = none) (hrange : CountsInRange f)
    (h : stat f base path address built = some (f1, held))
    (hinv : MapInvariant f) : MapInvariant f1 := by
  have hsame : ∀ {x : Option Nat}, some (f, x) = some (f1, held) → MapInvariant f1 := by
    intro x hx
    simp only [Option.some.injEq, Prod.mk.injEq] at hx
    rw [← hx.1]
    exact hinv
  unfold stat at h
  simp only at h
  split at h
  · exact hsame h
  · split at h
    · exact hsame h
    · split at h
      · exact hsame h
      · split at h
        · exact hsame h
        · rename_i st hst
          split at h
          · exact hsame h
          · split at h
            · rename_i reader hfind
              cases hinc : increment f reader with
              | none => rw [hinc] at h; cases h
              | some f2 =>
                rw [hinc] at h
                simp only [Option.map_some', Option.some.injEq, Prod.mk.injEq] at h
                rw [← h.1]
                exact increment_invariant hinc hinv hrange
            · rename_i hfind
              split at h
              · split at h
                · exact hsame h
                · split at h
                  · cases h
                  · rename_i f2 hinc1
                    cases hinc2 : increment
                        { f2 with readAheadCount := (f2.readAheadCount + 1) % SIZE_RANGE }
                        address with
                    | none => rw [hinc2] at h; cases h
                    | some f4 =>
                      rw [hinc2] at h
                      simp only [Option.map_some', Option.some.injEq, Prod.mk.injEq] at h
                      rw [← h.1]
                      have hlinked := insert_increment_invariant f f f2 address
                        (newTranscodeFileReader st.fileIndex built .readAheadIsDone) hinv hfree
                        hfind (by simp [newTranscodeFileReader]) rfl rfl hinc1
                      have hheap := increment_heap hinc1 (Function.update_same _ _ _)
                      apply increment_linked hinc2 hlinked
                      intro r hr
                      simp only at hr
                      rw [hheap] at hr
                      simp only [Option.some.injEq] at hr
                      subst hr
                      show (0 + 1) % UINT_RANGE + 1 < UINT_RANGE
                      decide
              · exact hsame h

theorem readAhead_invariant (f f1 : ReaderFactory) (base : Base) (path : List Char)
    (address : Nat) (built : Bool) (hfree : f.heap address = none)
    (h : readAhead f base path address built = some f1)
    (hinv : MapInvariant f) : MapInvariant f1 := by
  have hsame : some f = some f1 → MapInvariant f1 := by
    intro hx
    simp only [Option.some.injEq] at hx
    rw [← hx]
    exact hinv
  unfold readAhead at h
  simp only at h
  split at h
  · exact hsame h
  · split at h
    · exact hsame h
    · split at h
      · exact hsame h
      · split at h
        · exact hsame h
        · rename_i st hst
          split at h
          · exact hsame h
          · split at h
            · exact hsame h
            · rename_i hfind
              split at h
              · exact hsame h
              · cases hinc : increment
                    { f with
                      heap := Function.update f.heap address
                        (some (newTranscodeFileReader st.fileIndex built .readAheadIsDone))
                      map := mapInsert f.map st.fileIndex address } address with
                | none => rw [hinc] at h; cases h
                | some f2 =>
                  rw [hinc] at h
                  simp only [Option.map_some', Option.some.injEq] at h
                  rw [← h]
                  have hnone : mapFind f.map st.fileIndex = none := by
                    cases hm : mapFind f.map st.fileIndex with
                    | none => rfl
                    | some a => rw [hm] at hfind; simp at hfind
                  exact insert_increment_invariant f f f2 address
                    (newTranscodeFileReader st.fileIndex built .readAheadIsDone) hinv hfree
                    hnone (by simp [newTranscodeFileReader]) rfl rfl hinc

theorem builderStep_invariant (f : ReaderFactory) (reader : Nat) (b : ImageBuilderThread)
    (hinv : MapInvariant f) : MapInvariant (builderStep f reader b) := by
  unfold builderStep
  split
  · rename_i fileIndex count b0 done hr
    apply linked_update _ _ _ _ hinv
    intro r2 hr2
    rw [hr] at hr2
    cases hr2
    exact ⟨rfl, fun hc => hc⟩
  · exact hinv

end ReaderFactory

/-! ## The reader factory: the claims -/

namespace ReaderFactory

theorem new_invariant (transcodeMapping : Transcode.Mapping) (trueSize : Bool)
    (readAheadLimit countLimit memoryLimit : Nat) (timeLimit : Int)
    (persistDir : ImageCache.PersistDir) :
    MapInvariant
      (new transcodeMapping trueSize readAheadLimit countLimit memoryLimit timeLimit
        persistDir) :=
  ⟨List.nodup_nil, fun e he => by cases he⟩

end ReaderFactory

namespace Transcode

theorem mem_flacToMp3 {r : Element} (hr : r ∈ flacToMp3) : r = flacElement := by
  have h : flacToMp3 = [flacElement] := by decide
  rw [h, List.mem_singleton] at hr
  exact hr

theorem flac_chars : flacElement.source = ['f', 'l', 'a', 'c'] := by decide

/-- C1 at the rule (flac, mp3) and the path "a.b.flac": the first dot is
followed by "b.flac", which is no source extension. -/
theorem targetFrom_leftmost_match_witness :
    Unique flacToMp3 ∧ flacElement ∈ flacToMp3
    ∧ targetFrom flacToMp3 (['a', '.', 'b'] ++ '.' :: flacElement.source)
        = ⟨.allocated (['a', '.', 'b'] ++ '.' :: flacElement.target), some flacElement⟩ :=
  ⟨by decide, by decide,
    (targetFrom_leftmost_match flacToMp3 (by decide) flacElement (by decide)
      ['a', '.', 'b']).1 (by
        intro pre1 ext1 heq hlen r hr hsource
        rw [mem_flacToMp3 hr] at hsource
        rw [← hsource] at heq
        have hl := congrArg List.length heq
        simp only [List.length_append, List.length_cons] at hl hlen
        omega)⟩

/-- C2 at the rule (flac, mp3) and the path "readme.txt". -/
theorem targetFrom_no_match_witness :
    targetFrom flacToMp3 ['r', 'e', 'a', 'd', 'm', 'e', '.', 't', 'x', 't']
      = ⟨.argument, none⟩ :=
  ((targetFrom_no_match flacToMp3 ['r', 'e', 'a', 'd', 'm', 'e', '.', 't', 'x', 't']).1 (by
    intro pre ext heq r hr hsource
    rw [mem_flacToMp3 hr, flac_chars] at hsource
    rw [← hsource] at heq
    have hl := congrArg List.getLast? heq
    simp at hl)).1

/-- The amended C3 at the rule (flac, mp3) and the path "a.b.mp3". -/
theorem roundtrip_without_nested_extensions_witness :
    Unique flacToMp3
    ∧ (sourceFrom flacToMp3 "a.b.mp3".toList).elementReturn ≠ none
    ∧ (targetFrom flacToMp3
        ((sourceFrom flacToMp3 "a.b.mp3".toList).result.get "a.b.mp3".toList)).result.get
          ((sourceFrom flacToMp3 "a.b.mp3".toList).result.get "a.b.mp3".toList)
        = "a.b.mp3".toList :=
  ⟨by decide, by decide,
    (roundtrip_without_nested_extensions flacToMp3 (by decide) "a.b.mp3".toList).1 (by
      intro r hr r1 hr1 x heq
      rw [mem_flacToMp3 hr, mem_flacToMp3 hr1] at heq
      have hl := congrArg List.length heq
      simp only [List.length_append, List.length_cons] at hl
      omega) (by decide)⟩

end Transcode

/-! ## The readers: lemmas and claims -/

namespace ImageBuilderThread

/-- The number of characters that a read at `offset` of at most `size`
gets from an image: nothing at or past the end, else what is there, up to
`size`. -/
theorem answer_eq (image : Image) (buffer : List Char) (size offset : Nat) :
    answer image buffer size offset
      = .returned ((if image.length ≤ offset then 0 else min size (image.length - offset) : Nat))
          ((image.drop offset).take
              (if image.length ≤ offset then 0 else min size (image.length - offset))
            ++ buffer.drop
              (if image.length ≤ offset then 0 else min size (image.length - offset))) := by
  unfold answer
  by_cases h : image.length ≤ offset
  · simp [h]
  · simp only [if_neg h]
    by_cases hs : size < image.length - offset
    · simp only [if_pos hs, Nat.min_eq_left (Nat.le_of_lt hs)]
    · simp only [if_neg hs, Nat.min_eq_right (Nat.le_of_not_lt hs)]

theorem copied_length (image : Image) (size offset : Nat) :
    ((image.drop offset).take
      (if image.length ≤ offset then 0 else min size (image.length - offset))).length
      = if image.length ≤ offset then 0 else min size (image.length - offset) := by
  rw [List.length_take, List.length_drop]
  split_ifs <;> omega

theorem read_of_ready (b : ImageBuilderThread) (image : Image) (buffer : List Char)
    (size offset : Nat) (himage : b.image = some image)
    (hready : b.running = false ∨ offset + size ≤ image.length) :
    b.read buffer size offset = some (answer image buffer size offset) := by
  unfold ImageBuilderThread.read
  rw [himage]
  have hnot : ¬ (b.running = true ∧ image.length < (offset + size) % SIZE_RANGE) := by
    rintro ⟨hr, hl⟩
    rcases hready with h | h
    · rw [h] at hr; cases hr
    · have := Nat.mod_le (offset + size) SIZE_RANGE
      omega
  simp only [if_neg hnot]

end ImageBuilderThread

namespace TranscodeFileReader

/-- C15. When the read does not have to wait (the builder thread is no
longer running, or `offset + size` is within the image), `read` at an
offset that is not negative returns 0 at or past the end of the image and
otherwise the smaller of `size` and what is left from `offset`; the buffer
then starts with exactly that many characters of the image, from `offset`
on, and the rest of the buffer is untouched. At or past the end of the
image of a thread that has ended it returns 0. -/
theorem read_returns_available (b : ImageBuilderThread) (image : Image)
    (buffer : List Char) (size offset : Nat) (himage : b.image = some image)
    (hready : b.running = false ∨ offset + size ≤ image.length) :
    read (some b) buffer size (offset : Int)
      = some (.returned
          ((if image.length ≤ offset then 0 else min size (image.length - offset) : Nat))
          ((image.drop offset).take
              (if image.length ≤ offset then 0 else min size (image.length - offset))
            ++ buffer.drop
              (if image.length ≤ offset then 0 else min size (image.length - offset))))
    ∧ ((image.drop offset).take
        (if image.length ≤ offset then 0 else min size (image.length - offset))).length
        = (if image.length ≤ offset then 0 else min size (image.length - offset))
    ∧ (b.running = false → image.length ≤ offset →
        read (some b) buffer size (offset : Int) = some (.returned 0 buffer)) := by
  have hread : read (some b) buffer size (offset : Int)
      = some (answer image buffer size offset) := by
    unfold read
    have hneg : ¬ ((offset : Int) < 0) := by omega
    simp only [if_neg hneg, Int.toNat_ofNat]
    exact ImageBuilderThread.read_of_ready b image buffer size offset himage hready
  refine ⟨?_, ImageBuilderThread.copied_length image size offset, ?_⟩
  · rw [hread, ImageBuilderThread.answer_eq]
  · intro _ hpast
    rw [hread]
    unfold answer
    simp [hpast]

/-- C16. `read` returns `-EINVAL` for every negative offset, with or
without a builder, and `-EIO` for every other offset when there is no
builder; the buffer is as it was. -/
theorem read_error_codes (imageBuilderThread : Option ImageBuilderThread)
    (buffer : List Char) (size : Nat) (offset_ : Int) :
    (offset_ < 0 →
      read imageBuilderThread buffer size offset_ = some (.returned (-EINVAL) buffer))
    ∧ (0 ≤ offset_ → read none buffer size offset_ = some (.returned (-EIO_) buffer))
    ∧ -EINVAL = -22 ∧ -EIO_ = -5 := by
  refine ⟨?_, ?_, rfl, rfl⟩
  · intro h
    unfold read
    simp only [if_pos h]
  · intro h
    unfold read
    have hneg : ¬ (offset_ < 0) := by omega
    simp only [if_neg hneg]

/-- C16 at the offsets -1 and 0, without a builder. -/
theorem read_error_codes_witness :
    read none ['x'] 1 (-1) = some (.returned (-22) ['x'])
    ∧ read none ['x'] 1 0 = some (.returned (-5) ['x']) :=
  ⟨(read_error_codes none ['x'] 1 (-1)).1 (by decide),
    (read_error_codes none ['x'] 1 0).2.1 (by decide)⟩

/-- C15 at a thread that has ended with the image "abcdef": a read of 4
characters at offset 4 gets the last two. -/
theorem read_returns_available_witness :
    read (some ⟨false, false, some ['a', 'b', 'c', 'd', 'e', 'f']⟩) ['x', 'y', 'z', 'w'] 4 4
      = some (.returned 2 ['e', 'f', 'z', 'w']) :=
  (read_returns_available ⟨false, false, some ['a', 'b', 'c', 'd', 'e', 'f']⟩
    ['a', 'b', 'c', 'd', 'e', 'f'] ['x', 'y', 'z', 'w'] 4 4 rfl (Or.inl rfl)).1

end TranscodeFileReader

namespace ImageBuilderThread

theorem step_image_none (b b1 : ImageBuilderThread) (h : Step b b1) (hnone : b.image = none) :
    b1.image = none := by
  cases h with
  | append _ tile _ _ _ happend =>
    unfold ImageBuilderThread.append at happend
    rw [hnone] at happend
    cases happend
  | eos => exact hnone
  | runEnd _ => exact hnone

theorem getImage_image_none (b : ImageBuilderThread) (hnone : b.image = none) :
    b.getImage.1.image = none ∧ b.getImage.2 = none := by
  unfold ImageBuilderThread.getImage
  split_ifs
  · exact ⟨hnone, rfl⟩
  · exact ⟨rfl, hnone⟩

theorem events_image_none (b b1 : ImageBuilderThread)
    (h : Relation.ReflTransGen Event b b1) (hnone : b.image = none) : b1.image = none := by
  induction h with
  | refl => exact hnone
  | tail _ hev ih =>
    cases hev with
    | step _ hstep => exact step_image_none _ _ hstep ih
    | getImage => exact (getImage_image_none _ ih).1

/-- C17. While the pipeline is still streaming `getImage` returns 0 and
leaves the builder as it is; once streaming has ended, a call returns the
image pointer of the builder and leaves a null pointer there, and after
that, whatever production steps and further calls follow, every call
returns 0: the image is handed out at most once. -/
theorem getImage_transfers_once (b : ImageBuilderThread) :
    (b.streaming = true → b.getImage = (b, none))
    ∧ (b.streaming = false →
        b.getImage.2 = b.image ∧ b.getImage.1 = { b with image := none }
        ∧ ∀ b1, Relation.ReflTransGen Event b.getImage.1 b1 → b1.getImage.2 = none) := by
  constructor
  · intro h
    unfold ImageBuilderThread.getImage
    simp only [h, if_true]
  · intro h
    have hget : b.getImage = ({ b with image := none }, b.image) := by
      unfold ImageBuilderThread.getImage
      simp [h]
    refine ⟨by rw [hget], by rw [hget], ?_⟩
    intro b1 hev
    have hnone : b.getImage.1.image = none := by rw [hget]
    exact (getImage_image_none b1 (events_image_none _ b1 hev hnone)).2

/-- C17 at a builder whose stream has ended with the image "ab": the first
call returns it, the second returns 0. -/
theorem getImage_transfers_once_witness :
    (⟨false, false, some ['a', 'b']⟩ : ImageBuilderThread).getImage.2 = some ['a', 'b']
    ∧ ((⟨false, false, some ['a', 'b']⟩ : ImageBuilderThread).getImage.1).getImage.2 = none :=
  have h := (getImage_transfers_once ⟨false, false, some ['a', 'b']⟩).2 rfl
  ⟨h.1, h.2.2 _ Relation.ReflTransGen.refl⟩

theorem step_image_prefix (b b1 : ImageBuilderThread) (h : Step b b1) (image : Image)
    (himage : b.image = some image) : ∃ tile, b1.image = some (image ++ tile) := by
  cases h with
  | append _ tile _ _ _ happend =>
    unfold ImageBuilderThread.append at happend
    rw [himage] at happend
    simp only [Option.some.injEq] at happend
    exact ⟨tile, by rw [← happend]⟩
  | eos => exact ⟨[], by simpa [ImageBuilderThread.eos] using himage⟩
  | runEnd _ => exact ⟨[], by simpa [ImageBuilderThread.runEnd] using himage⟩

theorem steps_image_prefix (b b1 : ImageBuilderThread)
    (h : Relation.ReflTransGen Step b b1) (image : Image) (himage : b.image = some image) :
    ∃ tail, b1.image = some (image ++ tail) := by
  induction h with
  | refl => exact ⟨[], by simpa using himage⟩
  | tail _ hstep ih =>
    obtain ⟨t1, h1⟩ := ih
    obtain ⟨t2, h2⟩ := step_image_prefix _ _ hstep _ h1
    exact ⟨t1 ++ t2, by rw [h2, List.append_assoc]⟩

theorem steps_not_running (b b1 : ImageBuilderThread)
    (h : Relation.ReflTransGen Step b b1) (hrunning : b.running = false) :
    b1.running = false := by
  induction h with
  | refl => exact hrunning
  | tail _ hstep ih =>
    cases hstep with
    | append _ tile hrun _ _ _ => rw [ih] at hrun; cases hrun
    | eos => exact ih
    | runEnd _ => rfl

/-- A read that has returned keeps returning along the production: the
thread has ended, or the image already reaches `offset + size`. -/
theorem read_returns_later (b b1 : ImageBuilderThread)
    (h : Relation.ReflTransGen Step b b1) (buffer buffer1 : List Char) (size offset : Nat)
    (n : Int) (data : List Char) (hread : b.read buffer size offset = some (.returned n data)) :
    ∃ n1 data1, b1.read buffer1 size offset = some (.returned n1 data1) := by
  unfold ImageBuilderThread.read at hread
  cases himage : b.image with
  | none => rw [himage] at hread; cases hread
  | some image =>
    rw [himage] at hread
    simp only at hread
    obtain ⟨tail, htail⟩ := steps_image_prefix b b1 h image himage
    have hnowait : ¬ (b1.running = true
        ∧ (image ++ tail).length < (offset + size) % SIZE_RANGE) := by
      intro hw
      split_ifs at hread with hwait
      · cases hread
      · apply hwait
        constructor
        · cases hrun : b.running with
          | true => rfl
          | false =>
            have := steps_not_running b b1 h hrun
            rw [this] at hw
            exact absurd hw.1 (by decide)
        · have hlen := hw.2
          rw [List.length_append] at hlen
          omega
    unfold ImageBuilderThread.read
    rw [htail]
    simp only [if_neg hnowait]
    unfold answer
    split_ifs
    · exact ⟨_, _, rfl⟩
    · exact ⟨_, _, rfl⟩

theorem read_returned (b : ImageBuilderThread) (buffer : List Char) (size offset : Nat)
    (n : Int) (data : List Char) (h : b.read buffer size offset = some (.returned n data)) :
    ∃ image, b.image = some image
      ∧ n = ((if image.length ≤ offset then 0 else min size (image.length - offset) : Nat))
      ∧ data.take (if image.length ≤ offset then 0 else min size (image.length - offset))
          = (image.drop offset).take
              (if image.length ≤ offset then 0 else min size (image.length - offset)) := by
  unfold ImageBuilderThread.read at h
  cases himage : b.image with
  | none => rw [himage] at h; cases h
  | some image =>
    rw [himage] at h
    refine ⟨image, rfl, ?_⟩
    simp only at h
    split_ifs at h
    · cases h
    · rw [answer_eq] at h
      simp only [Option.some.injEq, ReadResult.returned.injEq] at h
      refine ⟨h.1.symm, ?_⟩
      rw [← h.2]
      exact List.take_left' (copied_length image size offset)

/-- C18. Along every sequence of production steps (a tile appended, the
end of the stream, the end of the thread) the image at an earlier step is a
prefix of the image at any later step; so when a read at an offset has
returned `n` characters, any later read at that offset with the same size
returns too, without a wait, at least `n` characters and the same first
`n`. -/
theorem image_is_append_only (b b1 : ImageBuilderThread)
    (h : Relation.ReflTransGen Step b b1) (image : Image) (himage : b.image = some image) :
    (∃ tail, b1.image = some (image ++ tail))
    ∧ ∀ (buffer buffer1 : List Char) (size offset : Nat) (n : Int) (data : List Char),
        b.read buffer size offset = some (.returned n data) →
        ∃ (n1 : Int) (data1 : List Char),
          b1.read buffer1 size offset = some (.returned n1 data1)
          ∧ n ≤ n1 ∧ data1.take n.toNat = data.take n.toNat := by
  obtain ⟨tail, htail⟩ := steps_image_prefix b b1 h image himage
  refine ⟨⟨tail, htail⟩, ?_⟩
  intro buffer buffer1 size offset n data hread
  obtain ⟨n1, data1, hread1⟩ := read_returns_later b b1 h buffer buffer1 size offset n data hread
  refine ⟨n1, data1, hread1, ?_⟩
  obtain ⟨i, hi, hn, hdata⟩ := read_returned b buffer size offset n data hread
  obtain ⟨i1, hi1, hn1, hdata1⟩ := read_returned b1 buffer1 size offset n1 data1 hread1
  rw [himage] at hi
  cases hi
  rw [htail] at hi1
  cases hi1
  by_cases hpast : image.length ≤ offset
  · rw [if_pos hpast] at hn
    rw [hn, hn1]
    constructor
    · exact_mod_cast Nat.zero_le _
    · simp
  · rw [if_neg hpast] at hn hdata
    have hpast1 : ¬ (image ++ tail).length ≤ offset := by
      rw [List.length_append]; omega
    rw [if_neg hpast1] at hn1 hdata1
    have hle : min size (image.length - offset) ≤ min size ((image ++ tail).length - offset) := by
      rw [List.length_append]
      omega
    constructor
    · rw [hn, hn1]
      exact_mod_cast hle
    · rw [hn]
      simp only [Int.toNat_ofNat]
      have h1 := congrArg (List.take (min size (image.length - offset))) hdata1
      rw [List.take_take, List.take_take, Nat.min_eq_left hle] at h1
      rw [h1, hdata]
      have hdrop : (image ++ tail).drop offset = image.drop offset ++ tail := by
        rw [List.drop_append_of_le_length (by omega)]
      rw [hdrop, List.take_append_of_le_length]
      rw [List.length_drop]
      omega

/-- C18 at a running builder with the image "abc" to which the tile "de" is
appended: a read of 2 characters at offset 1 returns "bc" before and
after. -/
theorem image_is_append_only_witness :
    Relation.ReflTransGen Step ⟨true, true, some ['a', 'b', 'c']⟩
      ⟨true, true, some ['a', 'b', 'c', 'd', 'e']⟩
    ∧ ∃ (n1 : Int) (data1 : List Char),
      (⟨true, true, some ['a', 'b', 'c', 'd', 'e']⟩ : ImageBuilderThread).read
          ['u', 'v', 'y'] 2 1 = some (.returned n1 data1)
      ∧ (2 : Int) ≤ n1
      ∧ data1.take (2 : Int).toNat = (['b', 'c', 'x'] : List Char).take (2 : Int).toNat :=
  have hsteps : Relation.ReflTransGen Step ⟨true, true, some ['a', 'b', 'c']⟩
      ⟨true, true, some ['a', 'b', 'c', 'd', 'e']⟩ :=
    Relation.ReflTransGen.single
      (Step.append _ _ ['d', 'e'] rfl (by decide) (by decide) rfl)
  ⟨hsteps,
    (image_is_append_only _ _ hsteps ['a', 'b', 'c'] rfl).2 ['u', 'v', 'x'] ['u', 'v', 'y']
      2 1 2 ['b', 'c', 'x'] (by decide)⟩

end ImageBuilderThread

namespace ImageReader

/-- C19. `read` on an ImageReader returns `-EINVAL` for a negative offset
and 0 for an offset at or past the end of the image; otherwise it returns
the smaller of `size` and what is left from the offset, the buffer then
starting with that many characters of the image from the offset on.
`size` returns the length of the image whatever `wait` is. On an image of
at least 4 characters, `read(buffer, 4, 0)` returns 4 with the first 4
characters of the image. -/
theorem read_serves_the_image (image : Image) (buffer : List Char) (size : Nat)
    (offset_ : Int) :
    (offset_ < 0 → read image buffer size offset_ = .returned (-EINVAL) buffer)
    ∧ (0 ≤ offset_ → (image.length : Int) ≤ offset_ →
        read image buffer size offset_ = .returned 0 buffer)
    ∧ (0 ≤ offset_ → offset_ < (image.length : Int) →
        read image buffer size offset_
          = .returned ((min size (image.length - offset_.toNat) : Nat))
              ((image.drop offset_.toNat).take (min size (image.length - offset_.toNat))
                ++ buffer.drop (min size (image.length - offset_.toNat)))
        ∧ ((image.drop offset_.toNat).take (min size (image.length - offset_.toNat))).length
            = min size (image.length - offset_.toNat))
    ∧ (∀ wait, ImageReader.size image wait = image.length)
    ∧ (4 ≤ image.length →
        read image buffer 4 0 = .returned 4 (image.take 4 ++ buffer.drop 4)) := by
  refine ⟨?_, ?_, ?_, fun _ => rfl, ?_⟩
  · intro h
    unfold read
    simp only [if_pos h]
  · intro h0 hpast
    unfold read
    have hneg : ¬ (offset_ < 0) := by omega
    have hp : image.length ≤ offset_.toNat := by omega
    simp only [if_neg hneg, answer, if_pos hp]
  · intro h0 hin
    unfold read
    have hneg : ¬ (offset_ < 0) := by omega
    have hp : ¬ image.length ≤ offset_.toNat := by omega
    have hlen := ImageBuilderThread.copied_length image size offset_.toNat
    simp only [if_neg hp] at hlen
    refine ⟨?_, hlen⟩
    simp only [if_neg hneg]
    rw [ImageBuilderThread.answer_eq]
    simp only [if_neg hp]
  · intro h4
    unfold read
    have hneg : ¬ ((0 : Int) < 0) := by omega
    have hp : ¬ image.length ≤ 0 := by omega
    simp only [if_neg hneg, Int.toNat_zero]
    rw [ImageBuilderThread.answer_eq]
    simp only [if_neg hp, List.drop_zero, Nat.sub_zero, Nat.min_eq_left h4]
    rfl

/-- C19 at the image "abcdef": 4 characters from offset 0, and a negative
offset. -/
theorem read_serves_the_image_witness :
    read ['a', 'b', 'c', 'd', 'e', 'f'] ['w', 'x', 'y', 'z', '!'] 4 0
      = .returned 4 ['a', 'b', 'c', 'd', '!']
    ∧ read ['a', 'b', 'c', 'd', 'e', 'f'] ['w', 'x', 'y', 'z', '!'] 4 (-1)
      = .returned (-22) ['w', 'x', 'y', 'z', '!'] :=
  ⟨(read_serves_the_image ['a', 'b', 'c', 'd', 'e', 'f'] ['w', 'x', 'y', 'z', '!'] 4 0).2.2.2.2
      (by decide),
    (read_serves_the_image ['a', 'b', 'c', 'd', 'e', 'f'] ['w', 'x', 'y', 'z', '!'] 4 (-1)).1
      (by decide)⟩

end ImageReader

/-! ## The image cache: spilling -/

namespace ImageCache

theorem link_before_in_use (value : Value) (l : List Value)
    (hidle : value.lruIndex.count = 0) (hbusy : ∀ v ∈ l, v.lruIndex.count ≠ 0) :
    link value l = value :: l := by
  cases l with
  | nil => rfl
  | cons x xs =>
    have hx : x.lruIndex.count ≠ 0 := hbusy x (List.mem_cons_self _ _)
    have hlt : value.lruIndex.lt x.lruIndex = true := by
      rw [LruIndex.lt_eq_true_iff]
      omega
    simp only [link, hlt, if_true]

theorem cullLoop_cons_evict (latest : Int) (c : Container) (v : Value) (rest : List Value)
    (h : v.lruIndex.count = 0
      ∧ (c.countLimit < c.count ∨ c.memoryLimit < c.memory ∨ v.lruIndex.time < latest)) :
    cullLoop latest c (v :: rest)
      = cullLoop latest
          { c with
            count := ((SIZE_RANGE - 1) + c.count) % SIZE_RANGE
            memory := ((SIZE_RANGE - v.image.length % SIZE_RANGE) + c.memory) % SIZE_RANGE
            persistDir := persist c.persistDir v.fileIndex v.image }
          rest := by
  simp only [cullLoop, if_pos h]

/-- With a count limit of 0 and no unused value in the container, `add`
evicts what it has inserted and nothing else. -/
theorem add_without_room (c : Container) (fileIndex : FileIndex) (image : Image)
    (created now : Int) (hlimit : c.countLimit = 0) (hnew : find c.values fileIndex = none)
    (hbusy : ∀ v ∈ c.values, v.lruIndex.count ≠ 0) (hcount : c.count + 1 < SIZE_RANGE)
    (hmemory : c.memory < SIZE_RANGE) :
    add c fileIndex image created now
      = some { c with persistDir := persist c.persistDir fileIndex image } := by
  unfold add
  rw [hnew]
  simp only [Option.isSome_none, Bool.false_eq_true, if_false, Option.some.injEq]
  rw [link_before_in_use _ _ rfl hbusy]
  unfold cull
  have hc1 : (c.count + 1) % SIZE_RANGE = c.count + 1 := Nat.mod_eq_of_lt hcount
  have hcount2 : ((SIZE_RANGE - 1) + (c.count + 1) % SIZE_RANGE) % SIZE_RANGE = c.count := by
    simp only [SIZE_RANGE] at hcount ⊢
    omega
  have hmemory2 : ((SIZE_RANGE - image.length % SIZE_RANGE)
      + (c.memory + image.length) % SIZE_RANGE) % SIZE_RANGE = c.memory := by
    simp only [SIZE_RANGE] at hmemory ⊢
    omega
  rw [cullLoop_cons_evict _ _ _ _ ⟨rfl, Or.inl (by
    show c.countLimit < (c.count + 1) % SIZE_RANGE
    rw [hc1, hlimit]
    omega)⟩]
  rw [cullLoop_quiet _ _ _ (by
    intro v rest hvals hcond
    have hv : v ∈ c.values := by
      rw [hvals]
      exact List.mem_cons_self _ _
    exact hbusy v hv hcond.1)]
  simp only [hcount2, hmemory2]

/-- With a temporary file for `fiA` left in the persist directory, which is
opened without `O_TRUNC`, the file that `add(fiA, "abc")` spills is "abc"
followed by what the temporary file had past its third character. -/
theorem add_over_a_leftOver_file :
    (add leftOver fiA ['a', 'b', 'c'] 5 5).map (fun c => (open_ c fiA).2)
      = some (some ⟨fiA, 0, .fileReader ['a', 'b', 'c', 'x', 'y', 'z']⟩)
    ∧ (add leftOver fiA ['a', 'b', 'c'] 5 5).map (fun c => sizeOf c fiA) = some 6 := by
  decide

/-- A cache with a count limit of 0 never holds a value: every state
reachable from the empty cache is empty. -/
theorem reachable_without_room (memoryLimit : Nat) (timeLimit : Int)
    (persistDir : PersistDir) (c : Container)
    (h : Reachable 0 memoryLimit timeLimit persistDir c) :
    c.countLimit = 0 ∧ c.values = [] ∧ c.count = 0 ∧ c.memory = 0 := by
  induction h with
  | init => exact ⟨rfl, rfl, rfl, rfl⟩
  | step c c1 _ hstep ih =>
    obtain ⟨hlimit, hvalues, hcount, hmemory⟩ := ih
    have hfind : ∀ fileIndex, find c.values fileIndex = none := by
      intro fileIndex
      rw [hvalues]
      rfl
    cases hstep with
    | add _ fileIndex image created now hadd =>
      rw [add_without_room c fileIndex image created now hlimit (hfind fileIndex)
        (by rw [hvalues]; intro v hv; cases hv) (by rw [hcount]; decide)
        (by rw [hmemory]; decide)] at hadd
      simp only [Option.some.injEq] at hadd
      rw [← hadd]
      exact ⟨hlimit, hvalues, hcount, hmemory⟩
    | acquire fileIndex =>
      unfold acquire
      rw [hfind fileIndex]
      exact ⟨hlimit, hvalues, hcount, hmemory⟩
    | release fileIndex idle now =>
      unfold release
      rw [hfind fileIndex]
      exact ⟨hlimit, hvalues, hcount, hmemory⟩
    | cull now =>
      unfold cull
      rw [hvalues]
      exact ⟨hlimit, rfl, hcount, hmemory⟩

end ImageCache

/-! ## The reader factory: read-ahead -/

namespace ReaderFactory

theorem increment_fields {f f1 : ReaderFactory} {a : Nat} (h : increment f a = some f1) :
    f1.readAheadCount = f.readAheadCount ∧ f1.readAheadLimit = f.readAheadLimit
      ∧ f1.trueSize = f.trueSize ∧ f1.map = f.map ∧ f1.imageCache = f.imageCache
      ∧ f1.transcodeMapping = f.transcodeMapping
      ∧ ∀ x, x ≠ a → f1.heap x = f.heap x := by
  obtain ⟨r, hr, hf1⟩ := increment_eq h
  rw [hf1]
  exact ⟨rfl, rfl, rfl, rfl, rfl, rfl, fun x hx => Function.update_noteq hx _ _⟩

theorem constructs_of_none (f f1 : ReaderFactory) (address : Nat)
    (h1 : f1.heap address = none) : constructsReadAhead f f1 address = false := by
  unfold constructsReadAhead
  rw [h1]
  cases f.heap address <;> rfl

theorem constructs_of_some (f f1 : ReaderFactory) (address : Nat) (r : Reader)
    (hfree : f.heap address = none) (h1 : f1.heap address = some r) :
    constructsReadAhead f f1 address
      = match r.derived with
        | .transcodeFileReader _ .readAheadIsDone => true
        | _ => false := by
  unfold constructsReadAhead
  rw [hfree, h1]

/-- What a call that shares a Reader already in the map does to the
read-ahead count: nothing. -/
theorem increment_readAhead {f f1 : ReaderFactory} {a address : Nat}
    (h : increment f a = some f1) (hfree : f.heap address = none) :
    f1.trueSize = f.trueSize ∧ f1.readAheadLimit = f.readAheadLimit
      ∧ constructsReadAhead f f1 address = false ∧ f1.readAheadCount = f.readAheadCount := by
  obtain ⟨h1, h2, h3, -, -, -, hheap⟩ := increment_fields h
  obtain ⟨r, hr, -⟩ := increment_eq h
  have hne : address ≠ a := by
    intro e
    rw [e, hr] at hfree
    cases hfree
  refine ⟨h3, h2, constructs_of_none f f1 address ?_, h1⟩
  rw [hheap address hne, hfree]

theorem open_readAhead (f f1 : ReaderFactory) (base : Base) (path : List Char)
    (uninitialized : Stat) (address : Nat) (built : Bool) (result : Option Nat)
    (hfree : f.heap address = none)
    (h : open_ f base path uninitialized address built = some (f1, result)) :
    f1.trueSize = f.trueSize ∧ f1.readAheadLimit = f.readAheadLimit
      ∧ ((constructsReadAhead f f1 address = false ∧ f1.readAheadCount = f.readAheadCount)
        ∨ (constructsReadAhead f f1 address = true ∧ f.readAheadCount < f.readAheadLimit
          ∧ f1.readAheadCount = (f.readAheadCount + 1) % SIZE_RANGE)) := by
  have hsame : ∀ {x : Option Nat}, some (f, x) = some (f1, result) →
      f1.trueSize = f.trueSize ∧ f1.readAheadLimit = f.readAheadLimit
      ∧ ((constructsReadAhead f f1 address = false ∧ f1.readAheadCount = f.readAheadCount)
        ∨ (constructsReadAhead f f1 address = true ∧ f.readAheadCount < f.readAheadLimit
          ∧ f1.readAheadCount = (f.readAheadCount + 1) % SIZE_RANGE)) := by
    intro x hx
    simp only [Option.some.injEq, Prod.mk.injEq] at hx
    rw [← hx.1]
    exact ⟨rfl, rfl, Or.inl ⟨constructs_of_none f f address hfree, rfl⟩⟩
  unfold open_ at h
  simp only at h
  split at h
  · exact hsame h
  · split at h
    · exact hsame h
    · rename_i st hst
      split at h
      · rename_i reader hfind
        cases hinc : increment f reader with
        | none => rw [hinc] at h; cases h
        | some f2 =>
          rw [hinc] at h
          simp only [Option.map_some', Option.some.injEq, Prod.mk.injEq] at h
          rw [← h.1]
          obtain ⟨h1, h2, h3, h4⟩ := increment_readAhead hinc hfree
          exact ⟨h1, h2, Or.inl ⟨h3, h4⟩⟩
      · rename_i hfind
        split at h
        · simp only [Option.some.injEq, Prod.mk.injEq] at h
          rw [← h.1]
          exact ⟨rfl, rfl, Or.inl ⟨constructs_of_none _ _ address hfree, rfl⟩⟩
        · rename_i f2 r hcreated
          cases hinc : increment
              { f2 with
                heap := Function.update f2.heap address (some r)
                map := mapInsert f2.map st.fileIndex address } address with
          | none => rw [hinc] at h; cases h
          | some f4 =>
            rw [hinc] at h
            simp only [Option.map_some', Option.some.injEq, Prod.mk.injEq] at h
            rw [← h.1]
            obtain ⟨h1, h2, h3, -⟩ := increment_fields hinc
            have hheap := increment_heap hinc (Function.update_same _ _ _)
            have hcon := constructs_of_some f f4 address _ hfree hheap
            simp only at hcon h1 h2 h3
            rw [h1, h2, h3, hcon]
            split at hcreated
            · rename_i r0 hopen
              simp only [Option.some.injEq, Prod.mk.injEq] at hcreated
              rw [← hcreated.1, ← hcreated.2]
              refine ⟨rfl, rfl, Or.inl ⟨?_, rfl⟩⟩
              unfold ImageCache.open_ at hopen
              split at hopen
              · simp only [Option.some.injEq] at hopen
                rw [← hopen]
              · split at hopen
                · cases hopen
                · split at hopen
                  · simp only [Option.some.injEq] at hopen
                    rw [← hopen]
                  · cases hopen
            · split at hcreated
              · cases hcreated
              · split at hcreated
                · simp only [Option.some.injEq, Prod.mk.injEq] at hcreated
                  rw [← hcreated.1, ← hcreated.2]
                  exact ⟨rfl, rfl, Or.inl ⟨rfl, rfl⟩⟩
                · split at hcreated
                  · rename_i hroom
                    simp only [Option.some.injEq, Prod.mk.injEq] at hcreated
                    rw [← hcreated.1, ← hcreated.2]
                    exact ⟨rfl, rfl, Or.inr ⟨rfl, hroom, rfl⟩⟩
                  · simp only [Option.some.injEq, Prod.mk.injEq] at hcreated
                    rw [← hcreated.1, ← hcreated.2]
                    exact ⟨rfl, rfl, Or.inl ⟨rfl, rfl⟩⟩

theorem stat_readAhead (f f1 : ReaderFactory) (base : Base) (path : List Char)
    (address : Nat) (built : Bool) (held : Option Nat) (hfree : f.heap address = none)
    (h : stat f base path address built = some (f1, held)) :
    f1.trueSize = f.trueSize ∧ f1.readAheadLimit = f.readAheadLimit
      ∧ ((constructsReadAhead f f1 address = false ∧ f1.readAheadCount = f.readAheadCount)
        ∨ (constructsReadAhead f f1 address = true
          ∧ (f.trueSize = true ∨ f.readAheadCount < f.readAheadLimit)
          ∧ f1.readAheadCount = (f.readAheadCount + 1) % SIZE_RANGE)) := by
  have hsame : ∀ {x : Option Nat}, some (f, x) = some (f1, held) →
      f1.trueSize = f.trueSize ∧ f1.readAheadLimit = f.readAheadLimit
      ∧ ((constructsReadAhead f f1 address = false ∧ f1.readAheadCount = f.readAheadCount)
        ∨ (constructsReadAhead f f1 address = true
          ∧ (f.trueSize = true ∨ f.readAheadCount < f.readAheadLimit)
          ∧ f1.readAheadCount = (f.readAheadCount + 1) % SIZE_RANGE)) := by
    intro x hx
    simp only [Option.some.injEq, Prod.mk.injEq] at hx
    rw [← hx.1]
    exact ⟨rfl, rfl, Or.inl ⟨constructs_of_none f f address hfree, rfl⟩⟩
  unfold stat at h
  simp only at h
  split at h
  · exact hsame h
  · split at h
    · exact hsame h
    · split at h
      · exact hsame h
      · split at h
        · exact hsame h
        · rename_i st hst
          split at h
          · exact hsame h
          · split at h
            · rename_i reader hfind
              cases hinc : increment f reader with
              | none => rw [hinc] at h; cases h
              | some f2 =>
                rw [hinc] at h
                simp only [Option.map_some', Option.some.injEq, Prod.mk.injEq] at h
                rw [← h.1]
                obtain ⟨h1, h2, h3, h4⟩ := increment_readAhead hinc hfree
                exact ⟨h1, h2, Or.inl ⟨h3, h4⟩⟩
            · rename_i hfind
              split at h
              · rename_i hroom
                split at h
                · exact hsame h
                · split at h
                  · cases h
                  · rename_i f2 hinc1
                    cases hinc2 : increment
                        { f2 with readAheadCount := (f2.readAheadCount + 1) % SIZE_RANGE }
                        address with
                    | none => rw [hinc2] at h; cases h
                    | some f4 =>
                      rw [hinc2] at h
                      simp only [Option.map_some', Option.some.injEq, Prod.mk.injEq] at h
                      rw [← h.1]
                      obtain ⟨a1, a2, a3, -⟩ := increment_fields hinc1
                      obtain ⟨b1, b2, b3, -⟩ := increment_fields hinc2
                      have hheap1 := increment_heap hinc1 (Function.update_same _ _ _)
                      have hheap2 := increment_heap hinc2 hheap1
                      have hcon := constructs_of_some f f4 address _ hfree hheap2
                      simp only at hcon a1 a2 a3 b1 b2 b3
                      rw [b1, b2, b3, a1, a2, a3, hcon]
                      exact ⟨rfl, rfl, Or.inr ⟨rfl, hroom, rfl⟩⟩
              · exact hsame h

theorem readAhead_readAhead (f f1 : ReaderFactory) (base : Base) (path : List Char)
    (address : Nat) (built : Bool) (hfree : f.heap address = none)
    (h : readAhead f base path address built = some f1) :
    f1.trueSize = f.trueSize ∧ f1.readAheadLimit = f.readAheadLimit
      ∧ ((constructsReadAhead f f1 address = false ∧ f1.readAheadCount = f.readAheadCount)
        ∨ (constructsReadAhead f f1 address = true ∧ f.readAheadCount < f.readAheadLimit
          ∧ f1.readAheadCount = (f.readAheadCount + 1) % SIZE_RANGE)) := by
  have hsame : some f = some f1 →
      f1.trueSize = f.trueSize ∧ f1.readAheadLimit = f.readAheadLimit
      ∧ ((constructsReadAhead f f1 address = false ∧ f1.readAheadCount = f.readAheadCount)
        ∨ (constructsReadAhead f f1 address = true ∧ f.readAheadCount < f.readAheadLimit
          ∧ f1.readAheadCount = (f.readAheadCount + 1) % SIZE_RANGE)) := by
    intro hx
    simp only [Option.some.injEq] at hx
    rw [← hx]
    exact ⟨rfl, rfl, Or.inl ⟨constructs_of_none f f address hfree, rfl⟩⟩
  unfold readAhead at h
  simp only at h
  split at h
  · exact hsame h
  · rename_i hroom
    split at h
    · exact hsame h
    · split at h
      · exact hsame h
      · split at h
        · exact hsame h
        · rename_i st hst
          split at h
          · exact hsame h
          · split at h
            · exact hsame h
            · split at h
              · exact hsame h
              · cases hinc : increment
                    { f with
                      heap := Function.update f.heap address
                        (some (newTranscodeFileReader st.fileIndex built .readAheadIsDone))
                      map := mapInsert f.map st.fileIndex address } address with
                | none => rw [hinc] at h; cases h
                | some f2 =>
                  rw [hinc] at h
                  simp only [Option.map_some', Option.some.injEq] at h
                  rw [← h]
                  obtain ⟨a1, a2, a3, -⟩ := increment_fields hinc
                  have hheap := increment_heap hinc (Function.update_same _ _ _)
                  have hcon := constructs_of_some f
                    { f2 with readAheadCount := (f2.readAheadCount + 1) % SIZE_RANGE }
                    address _ hfree hheap
                  simp only at hcon a1 a2 a3
                  rw [hcon]
                  simp only [a1, a2, a3]
                  exact ⟨trivial, trivial, Or.inr ⟨rfl, not_not.1 hroom, trivial⟩⟩

theorem release_fields (f f1 : ReaderFactory) (reader : Nat) (t1 t2 : Int)
    (h : release f reader t1 t2 = some f1) :
    f1.trueSize = f.trueSize ∧ f1.readAheadLimit = f.readAheadLimit
      ∧ f1.readAheadCount = f.readAheadCount
      ∧ f1.transcodeMapping = f.transcodeMapping ∧ f1.deque = f.deque := by
  unfold release at h
  split at h
  · cases h
  · simp only at h
    split at h
    · split at h
      · cases h
      · split at h
        · cases h
        · simp only [Option.some.injEq] at h
          rw [← h]
          exact ⟨rfl, rfl, rfl, rfl, rfl⟩
    · simp only [Option.some.injEq] at h
      rw [← h]
      exact ⟨rfl, rfl, rfl, rfl, rfl⟩

theorem builderStep_fields (f : ReaderFactory) (reader : Nat) (b : ImageBuilderThread) :
    (builderStep f reader b).trueSize = f.trueSize
      ∧ (builderStep f reader b).readAheadLimit = f.readAheadLimit
      ∧ (builderStep f reader b).readAheadCount = f.readAheadCount := by
  unfold builderStep
  split
  · exact ⟨rfl, rfl, rfl⟩
  · exact ⟨rfl, rfl, rfl⟩

/-- Without `trueSize`, the read-ahead count is the number of outstanding
guarantees and stays within the limit. -/
theorem guaranteed_invariant (f0 f : ReaderFactory) (pending : List Nat)
    (h : Guaranteed f0 f pending) (htrue : f0.trueSize = false) (hcount : f0.readAheadCount = 0)
    (hlimit : f0.readAheadLimit < SIZE_RANGE) :
    f.trueSize = false ∧ f.readAheadLimit = f0.readAheadLimit
      ∧ f.readAheadCount = pending.length ∧ f.readAheadCount ≤ f.readAheadLimit := by
  have hgrow : ∀ (g g1 : ReaderFactory) (p : List Nat) (address : Nat),
      g.trueSize = false ∧ g.readAheadLimit = f0.readAheadLimit
        ∧ g.readAheadCount = p.length ∧ g.readAheadCount ≤ g.readAheadLimit →
      g1.trueSize = g.trueSize ∧ g1.readAheadLimit = g.readAheadLimit
        ∧ ((constructsReadAhead g g1 address = false ∧ g1.readAheadCount = g.readAheadCount)
          ∨ (constructsReadAhead g g1 address = true
            ∧ (g.trueSize = true ∨ g.readAheadCount < g.readAheadLimit)
            ∧ g1.readAheadCount = (g.readAheadCount + 1) % SIZE_RANGE)) →
      g1.trueSize = false ∧ g1.readAheadLimit = f0.readAheadLimit
        ∧ g1.readAheadCount
            = (if constructsReadAhead g g1 address then address :: p else p).length
        ∧ g1.readAheadCount ≤ g1.readAheadLimit := by
    intro g g1 p address ⟨i1, i2, i3, i4⟩ ⟨e1, e2, e3⟩
    rcases e3 with ⟨hc, hsame⟩ | ⟨hc, hroom, hmore⟩
    · rw [hc]
      simp only [Bool.false_eq_true, if_false]
      rw [e1, e2, hsame]
      exact ⟨i1, i2, i3, i4⟩
    · rw [hc]
      simp only [if_true, List.length_cons]
      have hlt : g.readAheadCount < g.readAheadLimit := by
        rcases hroom with ht | hl
        · rw [i1] at ht; cases ht
        · exact hl
      have hmod : (g.readAheadCount + 1) % SIZE_RANGE = g.readAheadCount + 1 := by
        apply Nat.mod_eq_of_lt
        rw [i2] at hlt
        omega
      rw [e1, e2, hmore, hmod, ← i3]
      exact ⟨i1, i2, rfl, hlt⟩
  induction h with
  | init => exact ⟨htrue, rfl, hcount, by rw [hcount]; exact Nat.zero_le _⟩
  | open_ f f1 pending base path uninitialized address built result _ hfree hopen ih =>
    obtain ⟨e1, e2, e3⟩ := open_readAhead f f1 base path uninitialized address built result
      hfree hopen
    refine hgrow f f1 pending address ih ⟨e1, e2, ?_⟩
    rcases e3 with e | ⟨hc, hroom, hmore⟩
    · exact Or.inl e
    · exact Or.inr ⟨hc, Or.inr hroom, hmore⟩
  | release f f1 pending reader t1 t2 _ hrel ih =>
    obtain ⟨e1, e2, e3, -⟩ := release_fields f f1 reader t1 t2 hrel
    rw [e1, e2, e3]
    exact ih
  | stat f f1 pending base path address built held _ hfree hstat ih =>
    exact hgrow f f1 pending address ih
      (stat_readAhead f f1 base path address built held hfree hstat)
  | readAhead f f1 pending base path address built _ hfree hread ih =>
    obtain ⟨e1, e2, e3⟩ := readAhead_readAhead f f1 base path address built hfree hread
    refine hgrow f f1 pending address ih ⟨e1, e2, ?_⟩
    rcases e3 with e | ⟨hc, hroom, hmore⟩
    · exact Or.inl e
    · exact Or.inr ⟨hc, Or.inr hroom, hmore⟩
  | builderStep f pending reader b _ ih =>
    obtain ⟨e1, e2, e3⟩ := builderStep_fields f reader b
    rw [e1, e2, e3]
    exact ih
  | readAheadIsDone f pending reader _ hmem ih =>
    obtain ⟨i1, i2, i3, i4⟩ := ih
    have hpos : 0 < pending.length := List.length_pos_of_mem hmem
    have hlen : (pending.erase reader).length = pending.length - 1 :=
      List.length_erase_of_mem hmem
    have hdec : (readAheadIsDone f reader).readAheadCount = f.readAheadCount - 1 := by
      show ((SIZE_RANGE - 1) + f.readAheadCount) % SIZE_RANGE = f.readAheadCount - 1
      have hb : f.readAheadCount < SIZE_RANGE := by
        rw [i2] at i4
        omega
      simp only [SIZE_RANGE] at hb ⊢
      omega
    refine ⟨i1, i2, ?_, ?_⟩
    · rw [hdec, hlen, i3]
    · rw [hdec]
      show f.readAheadCount - 1 ≤ f.readAheadLimit
      omega

theorem sized_guaranteed : Guaranteed sizing sized [0] := by
  have h := Guaranteed.stat sizing sized [] oneFlac "x.mp3".toList 0 true (some 0)
    Guaranteed.init rfl rfl
  have hc : constructsReadAhead sizing sized 0 = true := rfl
  rw [hc] at h
  exact h

/-- C11, as stated, fails with `trueSize`: on a new factory with a
read-ahead limit of 0 that reports true sizes, `stat("x.mp3")` constructs a
TranscodeFileReader with `readAheadIsDone` and counts it, so that
`readAheadCount` is 1. -/
theorem stat_exceeds_readAheadLimit :
    Guaranteed sizing sized [0]
    ∧ sizing.trueSize = true
    ∧ stat sizing oneFlac "x.mp3".toList 0 true = some (sized, some 0)
    ∧ sized.readAheadLimit = 0 ∧ sized.readAheadCount = 1 :=
  ⟨sized_guaranteed, rfl, rfl, rfl, rfl⟩

/-- C11, amended. In every state that a new factory without `trueSize`
reaches by `open`, `release`, `stat`, `readAhead`, steps of the builder
threads and the calls of `readAheadIsDone` that the outstanding guarantees
make, `readAheadCount` is the number of outstanding guarantees and is at
most `readAheadLimit`. With or without `trueSize`, `open` and `readAhead`
raise `readAheadCount` by one only from a value below the limit and leave it
alone otherwise, and `stat` raises it by one only with `trueSize` or from a
value below the limit. -/
theorem readAheadCount_within_limit (transcodeMapping : Transcode.Mapping)
    (readAheadLimit countLimit memoryLimit : Nat) (timeLimit : Int)
    (persistDir : ImageCache.PersistDir) (hlimit : readAheadLimit < SIZE_RANGE)
    (f : ReaderFactory) (pending : List Nat)
    (h : Guaranteed
      (new transcodeMapping false readAheadLimit countLimit memoryLimit timeLimit persistDir)
      f pending) :
    (f.readAheadCount = pending.length ∧ f.readAheadCount ≤ f.readAheadLimit
      ∧ f.readAheadLimit = readAheadLimit)
    ∧ (∀ (g g1 : ReaderFactory) (base : Base) (path : List Char) (uninitialized : Stat)
        (address : Nat) (built : Bool) (result : Option Nat),
        g.heap address = none →
        open_ g base path uninitialized address built = some (g1, result) →
        g1.readAheadCount = g.readAheadCount
          ∨ (g.readAheadCount < g.readAheadLimit
            ∧ g1.readAheadCount = (g.readAheadCount + 1) % SIZE_RANGE))
    ∧ (∀ (g g1 : ReaderFactory) (base : Base) (path : List Char) (address : Nat)
        (built : Bool),
        g.heap address = none → readAhead g base path address built = some g1 →
        g1.readAheadCount = g.readAheadCount
          ∨ (g.readAheadCount < g.readAheadLimit
            ∧ g1.readAheadCount = (g.readAheadCount + 1) % SIZE_RANGE))
    ∧ (∀ (g g1 : ReaderFactory) (base : Base) (path : List Char) (address : Nat)
        (built : Bool) (held : Option Nat),
        g.heap address = none → stat g base path address built = some (g1, held) →
        g1.readAheadCount = g.readAheadCount
          ∨ ((g.trueSize = true ∨ g.readAheadCount < g.readAheadLimit)
            ∧ g1.readAheadCount = (g.readAheadCount + 1) % SIZE_RANGE)) := by
  refine ⟨?_, ?_, ?_, ?_⟩
  · obtain ⟨-, h2, h3, h4⟩ := guaranteed_invariant _ f pending h rfl rfl hlimit
    exact ⟨h3, h4, h2⟩
  · intro g g1 base path uninitialized address built result hfree hopen
    obtain ⟨-, -, e | e⟩ := open_readAhead g g1 base path uninitialized address built result
      hfree hopen
    · exact Or.inl e.2
    · exact Or.inr e.2
  · intro g g1 base path address built hfree hread
    obtain ⟨-, -, e | e⟩ := readAhead_readAhead g g1 base path address built hfree hread
    · exact Or.inl e.2
    · exact Or.inr e.2
  · intro g g1 base path address built held hfree hstat
    obtain ⟨-, -, e | e⟩ := stat_readAhead g g1 base path address built held hfree hstat
    · exact Or.inl e.2
    · exact Or.inr e.2

theorem opened_guaranteed : Guaranteed start opened [0] := by
  have h := Guaranteed.open_ start opened [] oneFlac "x.mp3".toList ⟨false, ⟨0, 0, 0⟩, 0⟩ 0
    true (some 0) Guaranteed.init rfl rfl
  have hc : constructsReadAhead start opened 0 = true := rfl
  rw [hc] at h
  exact h

/-- The amended C11 at the factory `opened`: one outstanding guarantee, a
read-ahead count of 1 and a limit of 16. -/
theorem readAheadCount_within_limit_witness :
    Guaranteed start opened [0]
    ∧ opened.readAheadCount = ([0] : List Nat).length
    ∧ opened.readAheadCount ≤ opened.readAheadLimit ∧ opened.readAheadLimit = 16 :=
  ⟨opened_guaranteed,
    (readAheadCount_within_limit Transcode.flacToMp3 16 50 1000 3600 none (by decide)
      opened [0] opened_guaranteed).1⟩

end ReaderFactory

/-! ## The reader factory: sharing a Reader -/

namespace ImageCache

theorem open_without_entry (c : Container) (fileIndex : FileIndex)
    (h : sizeOf c fileIndex < 0) : open_ c fileIndex = (c, none) := by
  unfold sizeOf at h
  unfold open_ acquire
  cases hf : find c.values fileIndex with
  | some v =>
    rw [hf] at h
    simp only at h
    omega
  | none =>
    rw [hf] at h
    simp only at h ⊢
    cases hp : c.persistDir with
    | none => rfl
    | some d =>
      rw [hp] at h
      simp only at h ⊢
      cases hfile : d.files.find? (fun f => decide (f.1 = fileIndex)) with
      | none => rfl
      | some file =>
        rw [hfile] at h
        simp only at h
        omega

end ImageCache

namespace ReaderFactory

theorem mapFind_append_new (map : List (FileIndex × Nat)) (fileIndex : FileIndex) (a : Nat)
    (h : mapFind map fileIndex = none) :
    mapFind (map ++ [(fileIndex, a)]) fileIndex = some a := by
  have h1 : map.find? (fun e => decide (e.1 = fileIndex)) = none := by
    unfold mapFind at h
    simpa using h
  unfold mapFind
  rw [List.find?_append, h1]
  simp

theorem mapErase_append_new (map : List (FileIndex × Nat)) (fileIndex : FileIndex) (a : Nat)
    (h : mapFind map fileIndex = none) :
    mapErase (map ++ [(fileIndex, a)]) fileIndex = map := by
  have h1 := mapFind_eq_none.1 h
  unfold mapErase
  rw [List.filter_append]
  have h2 : map.filter (fun e => decide (e.1 ≠ fileIndex)) = map := by
    rw [List.filter_eq_self]
    intro e he
    simpa using h1 e he
  rw [h2]
  simp

/-- The first `open` of a transcoded path whose source has neither a Reader
in the map nor an entry in the image cache. -/
theorem open_creates (f : ReaderFactory) (base : Base) (path : List Char)
    (uninitialized st : Stat) (address : Nat) (built : Bool) (content : List Char)
    (hdir : ∀ s, base.fstatat path = some s → s.isDir = false)
    (hdiffers : (Transcode.sourceFrom f.transcodeMapping path).result.differs = true)
    (hstat : base.fstatat ((Transcode.sourceFrom f.transcodeMapping path).result.get path)
      = some st)
    (hmap : mapFind f.map st.fileIndex = none)
    (hcache : ImageCache.sizeOf f.imageCache st.fileIndex < 0)
    (hopen : base.openat ((Transcode.sourceFrom f.transcodeMapping path).result.get path)
      = some content) :
    open_ f base path uninitialized address built
      = some
        ({ f with
            readAheadCount :=
              if f.readAheadCount < f.readAheadLimit then (f.readAheadCount + 1) % SIZE_RANGE
              else f.readAheadCount
            heap := Function.update f.heap address
              (some ⟨st.fileIndex, if f.readAheadCount < f.readAheadLimit then 2 else 1,
                .transcodeFileReader (if built then some ⟨true, true, some []⟩ else none)
                  (if f.readAheadCount < f.readAheadLimit then .readAheadIsDone
                    else .nonReadAheadIsDone)⟩)
            map := f.map ++ [(st.fileIndex, address)] },
          some address) := by
  have hd : (match base.fstatat path with | some st => st.isDir | none => false) = false := by
    cases hs : base.fstatat path with
    | none => rfl
    | some s => exact hdir s hs
  unfold open_
  simp only [hd, hdiffers, hstat, hmap, hopen, ImageCache.open_without_entry _ _ hcache,
    Bool.false_eq_true, if_false, if_true, Bool.not_true, mapInsert, Option.isSome_none]
  by_cases hroom : f.readAheadCount < f.readAheadLimit
  · simp [hroom, increment, newTranscodeFileReader, UINT_RANGE, hmap]
  · simp [hroom, increment, newTranscodeFileReader, UINT_RANGE, hmap]

/-- An `open` of a transcoded path whose source has a Reader in the map. -/
theorem open_shares (f : ReaderFactory) (base : Base) (path : List Char)
    (uninitialized st : Stat) (address reader : Nat) (built : Bool) (r : Reader)
    (hdir : ∀ s, base.fstatat path = some s → s.isDir = false)
    (hdiffers : (Transcode.sourceFrom f.transcodeMapping path).result.differs = true)
    (hstat : base.fstatat ((Transcode.sourceFrom f.transcodeMapping path).result.get path)
      = some st)
    (hmap : mapFind f.map st.fileIndex = some reader)
    (hheap : f.heap reader = some r) :
    open_ f base path uninitialized address built
      = some
        ({ f with
            heap := Function.update f.heap reader
              (some { r with count := (r.count + 1) % UINT_RANGE }) },
          some reader) := by
  have hd : (match base.fstatat path with | some st => st.isDir | none => false) = false := by
    cases hs : base.fstatat path with
    | none => rfl
    | some s => exact hdir s hs
  unfold open_
  simp only [hd, hdiffers, hstat, hmap, Bool.false_eq_true, if_false, if_true, increment,
    hheap, Option.map_some']

/-- A `release` that is not of the last hold. -/
theorem release_decrements (f : ReaderFactory) (reader : Nat) (t1 t2 : Int) (r : Reader)
    (hheap : f.heap reader = some r) (hcount : 1 < r.count) (hrange : r.count < UINT_RANGE) :
    release f reader t1 t2
      = some { f with
          heap := Function.update f.heap reader (some { r with count := r.count - 1 }) } := by
  have h1 : ((UINT_RANGE - 1) + r.count) % UINT_RANGE = r.count - 1 := by
    simp only [UINT_RANGE] at hrange ⊢
    omega
  unfold release
  simp only [hheap, h1]
  rw [if_neg (by omega)]

/-- The `release` of the last hold on a TranscodeFileReader whose builder
thread is still streaming. -/
theorem release_deletes (f : ReaderFactory) (reader : Nat) (t1 t2 : Int)
    (fileIndex : FileIndex) (b : ImageBuilderThread) (done : Done)
    (hheap : f.heap reader = some ⟨fileIndex, 1, .transcodeFileReader (some b) done⟩)
    (hstreaming : b.streaming = true) :
    release f reader t1 t2
      = some { f with
          map := mapErase f.map fileIndex
          heap := Function.update f.heap reader none } := by
  unfold release
  simp [hheap, UINT_RANGE, Reader.getImage, ImageBuilderThread.getImage, hstreaming]

/-- The lemma `open_creates`, with the factory afterwards given by what it
holds at the address, its map and its transcode mapping. -/
theorem creates_of_open (f : ReaderFactory) (base : Base) (path : List Char)
    (uninitialized st : Stat) (address : Nat) (built : Bool) (content : List Char)
    (hdir : ∀ s, base.fstatat path = some s → s.isDir = false)
    (hdiffers : (Transcode.sourceFrom f.transcodeMapping path).result.differs = true)
    (hstat : base.fstatat ((Transcode.sourceFrom f.transcodeMapping path).result.get path)
      = some st)
    (hmap : mapFind f.map st.fileIndex = none)
    (hcache : ImageCache.sizeOf f.imageCache st.fileIndex < 0)
    (hopen : base.openat ((Transcode.sourceFrom f.transcodeMapping path).result.get path)
      = some content) :
    ∃ f1, open_ f base path uninitialized address built = some (f1, some address)
      ∧ f1.heap address
        = some ⟨st.fileIndex, if f.readAheadCount < f.readAheadLimit then 2 else 1,
            .transcodeFileReader (if built then some ⟨true, true, some []⟩ else none)
              (if f.readAheadCount < f.readAheadLimit then .readAheadIsDone
                else .nonReadAheadIsDone)⟩
      ∧ f1.map = f.map ++ [(st.fileIndex, address)]
      ∧ f1.transcodeMapping = f.transcodeMapping :=
  ⟨_, open_creates f base path uninitialized st address built content hdir hdiffers hstat
    hmap hcache hopen, Function.update_same _ _ _, rfl, rfl⟩

/-- The lemma `open_shares`, with the factory afterwards given by what it
holds at the address and its map. -/
theorem shares_of_open (f1 : ReaderFactory) (transcodeMapping : Transcode.Mapping)
    (base : Base) (path : List Char) (uninitialized st : Stat) (address reader : Nat)
    (built : Bool) (r : Reader)
    (hmapping : f1.transcodeMapping = transcodeMapping)
    (hdir : ∀ s, base.fstatat path = some s → s.isDir = false)
    (hdiffers : (Transcode.sourceFrom transcodeMapping path).result.differs = true)
    (hstat : base.fstatat ((Transcode.sourceFrom transcodeMapping path).result.get path)
      = some st)
    (hmap : mapFind f1.map st.fileIndex = some reader)
    (hheap : f1.heap reader = some r) :
    ∃ f2, open_ f1 base path uninitialized address built = some (f2, some reader)
      ∧ f2.heap reader = some { r with count := (r.count + 1) % UINT_RANGE }
      ∧ f2.map = f1.map := by
  subst hmapping
  exact ⟨_, open_shares f1 base path uninitialized st address reader built r hdir hdiffers
    hstat hmap hheap, Function.update_same _ _ _, rfl⟩

theorem decrements_of_release (f : ReaderFactory) (reader : Nat) (t1 t2 : Int) (r : Reader)
    (hheap : f.heap reader = some r) (hcount : 1 < r.count) (hrange : r.count < UINT_RANGE) :
    ∃ f1, release f reader t1 t2 = some f1
      ∧ f1.heap reader = some { r with count := r.count - 1 } ∧ f1.map = f.map :=
  ⟨_, release_decrements f reader t1 t2 r hheap hcount hrange, Function.update_same _ _ _, rfl⟩

theorem deletes_of_release (f : ReaderFactory) (reader : Nat) (t1 t2 : Int)
    (fileIndex : FileIndex) (b : ImageBuilderThread) (done : Done)
    (hheap : f.heap reader = some ⟨fileIndex, 1, .transcodeFileReader (some b) done⟩)
    (hstreaming : b.streaming = true) :
    ∃ f1, release f reader t1 t2 = some f1
      ∧ f1.heap reader = none ∧ f1.map = mapErase f.map fileIndex :=
  ⟨_, release_deletes f reader t1 t2 fileIndex b done hheap hstreaming,
    Function.update_same _ _ _, rfl⟩

end ReaderFactory

/-! ## The reader factory: two opens and two releases -/

namespace ReaderFactory

/-- C12, as stated, fails when there is room for read-ahead: on a new
factory with the default read-ahead limit of 16, the first `open("x.mp3")`
also takes the hold of the read-ahead release, so that two opens leave the
use counter of the one Reader at 3, and two releases leave it at 1 with the
Reader alive and in the map. -/
theorem two_releases_leave_the_read_ahead_hold :
    start.map = [] ∧ start.imageCache.values = []
    ∧ open_ start oneFlac "x.mp3".toList ⟨false, ⟨0, 0, 0⟩, 0⟩ 0 true = some (opened, some 0)
    ∧ open_ opened oneFlac "x.mp3".toList ⟨false, ⟨0, 0, 0⟩, 0⟩ 1 true
      = some (openedTwice, some 0)
    ∧ (openedTwice.heap 0).map Reader.count = some 3
    ∧ (release openedTwice 0 5 5).bind (fun f => release f 0 6 6) = some releasedTwice
    ∧ (releasedTwice.heap 0).map Reader.count = some 1
    ∧ mapFind releasedTwice.map ⟨1, 7, 0⟩ = some 0 :=
  ⟨rfl, rfl, rfl, rfl, rfl, rfl, rfl, rfl⟩

/-- C12, amended. Take a transcoded path whose source can be stat-ed and
opened and has no Reader in the map and no entry in the image cache, and let
`hold` be 1 when `readAheadCount` is below `readAheadLimit` and 0 otherwise.
Two `open` calls for the path return the same Reader, the one that the first
call constructs, and leave its use counter at `2 + hold`. The first
`release` leaves the Reader alive and in the map with a counter of
`1 + hold`. Without the read-ahead hold the second `release` removes the
Reader from the map and deletes it; with it the second `release` leaves the
Reader alive and in the map with a counter of 1, and it is the next
`release`, that of the read-ahead release, that removes and deletes it. (The
pipeline of the Reader is taken to have been constructed, and its builder
thread to be streaming still.) -/
theorem two_opens_share_one_reader (f : ReaderFactory) (base : Base) (path : List Char)
    (u1 u2 st : Stat) (address address2 : Nat) (built2 : Bool) (content : List Char)
    (t1 t2 t3 t4 t5 t6 : Int)
    (_hfree : f.heap address = none)
    (hdir : ∀ s, base.fstatat path = some s → s.isDir = false)
    (hdiffers : (Transcode.sourceFrom f.transcodeMapping path).result.differs = true)
    (hstat : base.fstatat ((Transcode.sourceFrom f.transcodeMapping path).result.get path)
      = some st)
    (hmap : mapFind f.map st.fileIndex = none)
    (hcache : ImageCache.sizeOf f.imageCache st.fileIndex < 0)
    (hopen : base.openat ((Transcode.sourceFrom f.transcodeMapping path).result.get path)
      = some content) :
    ∃ f1 f2 f3 f4 : ReaderFactory,
      open_ f base path u1 address true = some (f1, some address)
      ∧ open_ f1 base path u2 address2 built2 = some (f2, some address)
      ∧ (f2.heap address).map Reader.count
        = some (2 + if f.readAheadCount < f.readAheadLimit then 1 else 0)
      ∧ release f2 address t1 t2 = some f3
      ∧ (f3.heap address).map Reader.count
        = some (1 + if f.readAheadCount < f.readAheadLimit then 1 else 0)
      ∧ mapFind f3.map st.fileIndex = some address
      ∧ release f3 address t3 t4 = some f4
      ∧ (¬ f.readAheadCount < f.readAheadLimit →
          f4.heap address = none ∧ f4.map = f.map ∧ mapFind f4.map st.fileIndex = none)
      ∧ (f.readAheadCount < f.readAheadLimit →
          (f4.heap address).map Reader.count = some 1
          ∧ mapFind f4.map st.fileIndex = some address
          ∧ ∃ f5, release f4 address t5 t6 = some f5
            ∧ f5.heap address = none ∧ f5.map = f.map
            ∧ mapFind f5.map st.fileIndex = none) := by
  obtain ⟨f1, h1, hheap1, hmap1, hmapping⟩ := creates_of_open f base path u1 st address true
    content hdir hdiffers hstat hmap hcache hopen
  have hfound := mapFind_append_new f.map st.fileIndex address hmap
  have herase := mapErase_append_new f.map st.fileIndex address hmap
  rw [← hmap1] at hfound herase
  by_cases hroom : f.readAheadCount < f.readAheadLimit
  · simp only [hroom, if_true] at hheap1 ⊢
    obtain ⟨f2, h2, hheap2, hmap2⟩ := shares_of_open f1 _ base path u2 st address2 address
      built2 _ hmapping hdir hdiffers hstat hfound hheap1
    obtain ⟨f3, h3, hheap3, hmap3⟩ := decrements_of_release f2 address t1 t2 _ hheap2
      (by show 1 < (2 + 1) % UINT_RANGE; decide)
      (by show (2 + 1) % UINT_RANGE < UINT_RANGE; decide)
    obtain ⟨f4, h4, hheap4, hmap4⟩ := decrements_of_release f3 address t3 t4 _ hheap3
      (by show 1 < (2 + 1) % UINT_RANGE - 1; decide)
      (by show (2 + 1) % UINT_RANGE - 1 < UINT_RANGE; decide)
    obtain ⟨f5, h5, hheap5, hmap5⟩ := deletes_of_release f4 address t5 t6 st.fileIndex
      ⟨true, true, some []⟩ .readAheadIsDone hheap4 rfl
    refine ⟨f1, f2, f3, f4, h1, h2, ?_, h3, ?_, ?_, h4, ?_, ?_⟩
    · rw [hheap2]
      rfl
    · rw [hheap3]
      rfl
    · rw [hmap3, hmap2]
      exact hfound
    · intro hno
      exact absurd trivial hno
    · intro _
      refine ⟨?_, ?_, f5, h5, hheap5, ?_, ?_⟩
      · rw [hheap4]
        rfl
      · rw [hmap4, hmap3, hmap2]
        exact hfound
      · rw [hmap5, hmap4, hmap3, hmap2]
        exact herase
      · rw [hmap5, hmap4, hmap3, hmap2, herase]
        exact hmap
  · simp only [hroom, if_false] at hheap1 ⊢
    obtain ⟨f2, h2, hheap2, hmap2⟩ := shares_of_open f1 _ base path u2 st address2 address
      built2 _ hmapping hdir hdiffers hstat hfound hheap1
    obtain ⟨f3, h3, hheap3, hmap3⟩ := decrements_of_release f2 address t1 t2 _ hheap2
      (by show 1 < (1 + 1) % UINT_RANGE; decide)
      (by show (1 + 1) % UINT_RANGE < UINT_RANGE; decide)
    obtain ⟨f4, h4, hheap4, hmap4⟩ := deletes_of_release f3 address t3 t4 st.fileIndex
      ⟨true, true, some []⟩ .nonReadAheadIsDone hheap3 rfl
    refine ⟨f1, f2, f3, f4, h1, h2, ?_, h3, ?_, ?_, h4, ?_, ?_⟩
    · rw [hheap2]
      rfl
    · rw [hheap3]
      rfl
    · rw [hmap3, hmap2]
      exact hfound
    · intro _
      refine ⟨hheap4, ?_, ?_⟩
      · rw [hmap4, hmap3, hmap2]
        exact herase
      · rw [hmap4, hmap3, hmap2, herase]
        exact hmap
    · intro hyes
      exact absurd hyes (by simp)

theorem oneFlac_virtual (s : Stat) (h : oneFlac.fstatat "x.mp3".toList = some s) :
    s.isDir = false := by
  have hnone : oneFlac.fstatat "x.mp3".toList = none := rfl
  rw [hnone] at h
  cases h

/-- The amended C12 at a new factory without room for read-ahead and the
base `oneFlac`: two opens of "x.mp3" share the Reader at address 0 with a
use counter of 2, and the second of two releases deletes it and leaves the
map empty. -/
theorem two_opens_share_one_reader_witness :
    single.heap 0 = none
    ∧ ¬ single.readAheadCount < single.readAheadLimit
    ∧ ∃ f1 f2 f3 f4 : ReaderFactory,
      open_ single oneFlac "x.mp3".toList ⟨false, ⟨0, 0, 0⟩, 0⟩ 0 true = some (f1, some 0)
      ∧ open_ f1 oneFlac "x.mp3".toList ⟨false, ⟨0, 0, 0⟩, 0⟩ 1 true = some (f2, some 0)
      ∧ (f2.heap 0).map Reader.count = some 2
      ∧ release f2 0 5 5 = some f3
      ∧ (f3.heap 0).map Reader.count = some 1
      ∧ release f3 0 6 6 = some f4
      ∧ f4.heap 0 = none ∧ f4.map = [] := by
  obtain ⟨f1, f2, f3, f4, h1, h2, h3, h4, h5, -, h7, h8, -⟩ :=
    two_opens_share_one_reader single oneFlac "x.mp3".toList ⟨false, ⟨0, 0, 0⟩, 0⟩
      ⟨false, ⟨0, 0, 0⟩, 0⟩ ⟨false, ⟨1, 7, 0⟩, 100⟩ 0 1 true "flac".toList 5 5 6 6 7 7
      rfl oneFlac_virtual rfl rfl rfl (by decide) rfl
  have hroom : ¬ single.readAheadCount < single.readAheadLimit := by decide
  exact ⟨rfl, hroom, f1, f2, f3, f4, h1, h2, by simpa [hroom] using h3, h4,
    by simpa [hroom] using h5, h7, (h8 hroom).1, (h8 hroom).2.1⟩

end ReaderFactory

/-! ## The reader factory: release -/

namespace ReaderFactory

/-- What `release` does whenever it comes to an end: for a use counter above
1 only the counter of the Reader changes; for a use counter of 1 `getImage`
has answered, the entry of the Reader's FileIndex is erased from the map and
no other entry changes, the Reader is deleted and no other Reader changes, and
the image cache has been given `add(fileIndex, image)` exactly when
`getImage` has yielded an image (an ImageReader, which yields none, gives
its hold on the cached value back when it is deleted). -/
theorem release_contract (f f1 : ReaderFactory) (reader : Nat) (t1 t2 : Int) (r : Reader)
    (hheap : f.heap reader = some r) (hrange : r.count < UINT_RANGE)
    (h : release f reader t1 t2 = some f1) :
    (1 < r.count →
      f1 = { f with
        heap := Function.update f.heap reader (some { r with count := r.count - 1 }) })
    ∧ (r.count = 1 →
      ∃ r1 image, r.getImage = some (r1, image)
        ∧ f1.map = mapErase f.map r.fileIndex
        ∧ (∀ e, e.1 ≠ r.fileIndex → (e ∈ f1.map ↔ e ∈ f.map))
        ∧ f1.heap reader = none
        ∧ (∀ a, a ≠ reader → f1.heap a = f.heap a)
        ∧ (∀ i, image = some i →
            ImageCache.add f.imageCache r.fileIndex i t1 t2 = some f1.imageCache)
        ∧ (image = none →
            f1.imageCache
              = match r.derived with
                | .imageReader _ => ImageCache.release f.imageCache r.fileIndex t1 t2
                | _ => f.imageCache)) := by
  constructor
  · intro hcount
    rw [release_decrements f reader t1 t2 r hheap hcount hrange] at h
    simp only [Option.some.injEq] at h
    exact h.symm
  · intro hcount
    unfold release at h
    simp only [hheap, hcount] at h
    rw [if_pos (by decide)] at h
    cases hget : ({ r with count := ((UINT_RANGE - 1) + 1) % UINT_RANGE } : Reader).getImage with
    | none =>
      rw [hget] at h
      cases h
    | some p =>
      obtain ⟨r1, image⟩ := p
      rw [hget] at h
      simp only at h
      have hkey := (getImage_fileIndex hget).1
      simp only at hkey
      have hmem : ∀ e : FileIndex × Nat, e.1 ≠ r.fileIndex →
          (e ∈ mapErase f.map r.fileIndex ↔ e ∈ f.map) := by
        intro e he
        unfold mapErase
        simp [List.mem_filter, he]
      have hother : ∀ a, a ≠ reader → Function.update f.heap reader none a = f.heap a :=
        fun a ha => Function.update_noteq ha _ _
      unfold Reader.getImage at hget
      cases hd : r.derived with
      | fileReader content =>
        simp only [hd, Option.some.injEq, Prod.mk.injEq] at hget
        obtain ⟨hr1, himage⟩ := hget
        subst himage
        subst hr1
        simp only [Option.some.injEq, hd] at h
        subst h
        refine ⟨r, none, by unfold Reader.getImage; simp only [hd], rfl, hmem, Function.update_same _ _ _,
          hother, ?_, ?_⟩
        · intro i hi
          cases hi
        · intro _
          rfl
      | imageReader img =>
        simp only [hd, Option.some.injEq, Prod.mk.injEq] at hget
        obtain ⟨hr1, himage⟩ := hget
        subst himage
        subst hr1
        simp only [Option.some.injEq, hd] at h
        subst h
        refine ⟨r, none, by unfold Reader.getImage; simp only [hd], rfl, hmem, Function.update_same _ _ _,
          hother, ?_, ?_⟩
        · intro i hi
          cases hi
        · intro _
          rfl
      | transcodeFileReader builder done =>
        cases builder with
        | none => simp [hd] at hget
        | some b =>
          simp only [hd, Option.some.injEq, Prod.mk.injEq] at hget
          obtain ⟨hr1, himage⟩ := hget
          subst himage
          subst hr1
          simp only at h
          cases hi : b.getImage.2 with
          | none =>
            simp only [hi, Option.some.injEq] at h
            subst h
            refine ⟨{ r with derived := .transcodeFileReader (some b.getImage.1) done }, none,
              by unfold Reader.getImage; simp only [hd, hi], rfl, hmem,
              Function.update_same _ _ _, hother, ?_, ?_⟩
            · intro i h2
              cases h2
            · intro _
              rfl
          | some i =>
            simp only [hi] at h
            cases hadd : ImageCache.add f.imageCache r.fileIndex i t1 t2 with
            | none =>
              rw [hadd] at h
              cases h
            | some c =>
              rw [hadd] at h
              simp only [Option.some.injEq] at h
              subst h
              refine ⟨{ r with derived := .transcodeFileReader (some b.getImage.1) done }, some i,
                by unfold Reader.getImage; simp only [hd, hi], rfl, hmem,
                Function.update_same _ _ _, hother, ?_, ?_⟩
              · intro i2 h2
                cases h2
                exact hadd
              · intro h2
                cases h2

/-- C13 fails for a TranscodeFileReader whose pipeline could not be
constructed: in the factory `unbuilt` the Reader at address 0 is in the map
with a use counter of 1 and has no builder thread, and `release` does not
come to an end, as `getImage` goes through the null `imageBuilderThread`. -/
theorem release_of_unbuilt_reader_faults :
    unbuilt.heap 0 = some ⟨⟨1, 7, 0⟩, 1, .transcodeFileReader none .nonReadAheadIsDone⟩
    ∧ mapFind unbuilt.map ⟨1, 7, 0⟩ = some 0
    ∧ release unbuilt 0 5 5 = none :=
  ⟨rfl, rfl, rfl⟩

end ReaderFactory

/-! ## The reader factory: open without a file -/

namespace ReaderFactory

/-- Where `open` does return 0 with the factory as it was: for a path that
is a directory under the base, and for a path that a rule rewrites to a
source that cannot be stat-ed. -/
theorem open_refuses (f : ReaderFactory) (base : Base) (path : List Char)
    (uninitialized : Stat) (address : Nat) (built : Bool) :
    (∀ s, base.fstatat path = some s → s.isDir = true →
      open_ f base path uninitialized address built = some (f, none))
    ∧ ((Transcode.sourceFrom f.transcodeMapping path).result.differs = true →
      base.fstatat ((Transcode.sourceFrom f.transcodeMapping path).result.get path) = none →
      open_ f base path uninitialized address built = some (f, none)) := by
  constructor
  · intro s hs hdir
    unfold open_
    simp only [hs, hdir, if_true]
  · intro hdiffers hstat
    unfold open_
    simp only [hdiffers, hstat, if_true]
    split
    · rfl
    · rfl

/-- C14 fails for a path that no rule rewrites and that cannot be stat-ed:
`open` then indexes the file by a `struct stat` that nothing has written to.
In the factory `opened`, whose one Reader has the FileIndex (1, 7, 0) and a
use counter of 2, `open("missing.txt")` with that FileIndex left in the
memory of `st` returns the Reader and raises its counter to 3; with another
value there it returns 0. -/
theorem open_of_missing_file_shares_a_reader :
    oneFlac.fstatat "missing.txt".toList = none
    ∧ (Transcode.sourceFrom opened.transcodeMapping "missing.txt".toList).result.differs = false
    ∧ opened.heap 0
      = some ⟨⟨1, 7, 0⟩, 2, .transcodeFileReader (some ⟨true, true, some []⟩) .readAheadIsDone⟩
    ∧ (open_ opened oneFlac "missing.txt".toList ⟨false, ⟨1, 7, 0⟩, 0⟩ 1 true).map Prod.snd
      = some (some 0)
    ∧ ((open_ opened oneFlac "missing.txt".toList ⟨false, ⟨1, 7, 0⟩, 0⟩ 1 true).bind
        (fun p => p.1.heap 0)).map Reader.count = some 3
    ∧ (open_ opened oneFlac "missing.txt".toList ⟨false, ⟨0, 0, 0⟩, 0⟩ 1 true).map Prod.snd
      = some none :=
  ⟨rfl, rfl, rfl, rfl, rfl, rfl⟩

end ReaderFactory

/-! ## FileIndex: the order -/

namespace FileIndex

theorem fileIndex_lt_iff (a b : FileIndex) :
    a.lt b = true ↔
      a.fileSystem < b.fileSystem
        ∨ (a.fileSystem = b.fileSystem
          ∧ (a.inode < b.inode ∨ (a.inode = b.inode ∧ a.time < b.time))) := by
  unfold FileIndex.lt
  split_ifs <;> simp <;> omega

theorem fileIndex_lt_eq_false_iff (a b : FileIndex) :
    a.lt b = false ↔
      ¬ (a.fileSystem < b.fileSystem
        ∨ (a.fileSystem = b.fileSystem
          ∧ (a.inode < b.inode ∨ (a.inode = b.inode ∧ a.time < b.time)))) := by
  rw [← fileIndex_lt_iff]
  simp

/-- C21. `FileIndex::operator<` is the strict lexicographic order on
(fileSystem, inode, time): it is irreflexive and transitive, and of `a < b`,
`b < a` and the equality of all three fields exactly one holds. -/
theorem lt_is_strict_lexicographic (a b c : FileIndex) :
    (a.lt b = true ↔
      a.fileSystem < b.fileSystem
        ∨ (a.fileSystem = b.fileSystem
          ∧ (a.inode < b.inode ∨ (a.inode = b.inode ∧ a.time < b.time))))
    ∧ a.lt a = false
    ∧ (a.lt b = true → b.lt c = true → a.lt c = true)
    ∧ ((a.lt b = true ∧ b.lt a = false
          ∧ ¬ (a.fileSystem = b.fileSystem ∧ a.inode = b.inode ∧ a.time = b.time))
      ∨ (a.lt b = false ∧ b.lt a = true
          ∧ ¬ (a.fileSystem = b.fileSystem ∧ a.inode = b.inode ∧ a.time = b.time))
      ∨ (a.lt b = false ∧ b.lt a = false
          ∧ (a.fileSystem = b.fileSystem ∧ a.inode = b.inode ∧ a.time = b.time))) := by
  refine ⟨fileIndex_lt_iff a b, ?_, ?_, ?_⟩
  · rw [fileIndex_lt_eq_false_iff]
    omega
  · rw [fileIndex_lt_iff, fileIndex_lt_iff, fileIndex_lt_iff]
    omega
  · rw [fileIndex_lt_iff, fileIndex_lt_iff, fileIndex_lt_eq_false_iff, fileIndex_lt_eq_false_iff]
    omega

/-- C21 at the FileIndexes (1, 2, 9), (1, 3, 0) and (2, 0, 0). -/
theorem lt_is_strict_lexicographic_witness :
    (⟨1, 2, 9⟩ : FileIndex).lt ⟨1, 3, 0⟩ = true ∧ (⟨1, 3, 0⟩ : FileIndex).lt ⟨2, 0, 0⟩ = true
    ∧ (⟨1, 2, 9⟩ : FileIndex).lt ⟨2, 0, 0⟩ = true :=
  ⟨by decide, by decide,
    (lt_is_strict_lexicographic ⟨1, 2, 9⟩ ⟨1, 3, 0⟩ ⟨2, 0, 0⟩).2.2.1 (by decide) (by decide)⟩

end FileIndex

/-! ## FileIndex: the stream operators -/

theorem isDigit_digitChar (k : Nat) (h : k < 10) :
    (Nat.digitChar k).isDigit = true ∧ (Nat.digitChar k).toNat - 48 = k := by
  interval_cases k <;> exact ⟨by decide, by decide⟩

theorem not_sign_of_isDigit (c : Char) (h : c.isDigit = true) :
    c ≠ '-' ∧ c ≠ '+' ∧ isSpace c = false := by
  refine ⟨?_, ?_, ?_⟩
  · rintro rfl
    exact absurd h (by decide)
  · rintro rfl
    exact absurd h (by decide)
  · unfold isSpace
    simp only [Bool.or_eq_false_iff, decide_eq_false_iff_not]
    refine ⟨⟨⟨⟨⟨?_, ?_⟩, ?_⟩, ?_⟩, ?_⟩, ?_⟩ <;>
    · rintro rfl
      exact absurd h (by decide)

theorem toDigitsCore_spec (fuel : Nat) :
    ∀ (n : Nat) (acc : List Char), n < fuel →
      ∃ ds, Nat.toDigitsCore 10 fuel n acc = ds ++ acc
        ∧ (∀ c ∈ ds, c.isDigit = true) ∧ ds ≠ [] ∧ digitsValue ds = n := by
  induction fuel with
  | zero => intro n acc h; omega
  | succ fuel ih =>
    intro n acc h
    have hd := isDigit_digitChar (n % 10) (Nat.mod_lt _ (by decide))
    unfold Nat.toDigitsCore
    by_cases h0 : n / 10 = 0
    · simp only [h0, if_true]
      refine ⟨[Nat.digitChar (n % 10)], rfl, ?_, by simp, ?_⟩
      · intro c hc
        rw [List.mem_singleton] at hc
        rw [hc]
        exact hd.1
      · simp only [digitsValue, List.foldl_cons, List.foldl_nil]
        rw [hd.2]
        omega
    · simp only [h0, if_false]
      obtain ⟨ds, hds, hall, -, hval⟩ := ih (n / 10) (Nat.digitChar (n % 10) :: acc) (by omega)
      refine ⟨ds ++ [Nat.digitChar (n % 10)], ?_, ?_, by simp, ?_⟩
      · rw [hds]
        simp
      · intro c hc
        rcases List.mem_append.1 hc with hc | hc
        · exact hall c hc
        · rw [List.mem_singleton] at hc
          rw [hc]
          exact hd.1
      · unfold digitsValue at hval ⊢
        rw [List.foldl_append, hval]
        simp only [List.foldl_cons, List.foldl_nil]
        rw [hd.2]
        omega

theorem toDigits_spec (n : Nat) :
    (∀ c ∈ Nat.toDigits 10 n, c.isDigit = true) ∧ Nat.toDigits 10 n ≠ []
      ∧ digitsValue (Nat.toDigits 10 n) = n := by
  obtain ⟨ds, hds, h⟩ := toDigitsCore_spec (n + 1) n [] (by omega)
  unfold Nat.toDigits
  rw [hds, List.append_nil]
  exact h

theorem span_digits (ds rest : List Char) (hall : ∀ c ∈ ds, c.isDigit = true)
    (hrest : EndsNumber rest) : (ds ++ rest).span Char.isDigit = (ds, rest) := by
  rw [List.span_eq_take_drop, List.takeWhile_append_of_pos hall,
    List.dropWhile_append_of_pos hall]
  cases rest with
  | nil => simp
  | cons c r =>
    have := hrest c r rfl
    simp [List.takeWhile_cons, List.dropWhile_cons, this]

theorem scanInteger_digits (ds rest : List Char) (hall : ∀ c ∈ ds, c.isDigit = true)
    (hne : ds ≠ []) (hrest : EndsNumber rest) : scanInteger (ds ++ rest) = ⟨false, ds, rest⟩ := by
  cases ds with
  | nil => exact absurd rfl hne
  | cons d ds1 =>
    have hd := not_sign_of_isDigit d (hall d (List.mem_cons_self _ _))
    have hspan := span_digits (d :: ds1) rest hall hrest
    simp only [List.cons_append] at hspan ⊢
    unfold scanInteger
    simp only [hd.1, hd.2.1, or_self, if_false, hspan, decide_False]

theorem scanInteger_minus (ds rest : List Char) (hall : ∀ c ∈ ds, c.isDigit = true)
    (hrest : EndsNumber rest) : scanInteger ('-' :: (ds ++ rest)) = ⟨true, ds, rest⟩ := by
  have hspan := span_digits ds rest hall hrest
  unfold scanInteger
  simp only [true_or, if_true, hspan, decide_True]

theorem dropWhile_digits (ds rest : List Char) (hall : ∀ c ∈ ds, c.isDigit = true)
    (hne : ds ≠ []) : (ds ++ rest).dropWhile isSpace = ds ++ rest := by
  cases ds with
  | nil => exact absurd rfl hne
  | cons d ds1 =>
    have hd := not_sign_of_isDigit d (hall d (List.mem_cons_self _ _))
    simp [List.dropWhile_cons, hd.2.2]

theorem extractUnsigned_digits (ds rest : List Char) (hall : ∀ c ∈ ds, c.isDigit = true)
    (hne : ds ≠ []) (hrest : EndsNumber rest) (hrange : digitsValue ds < SIZE_RANGE) :
    extractUnsigned ⟨ds ++ rest, false, false⟩
      = (⟨rest, false, decide (rest = [])⟩, some (digitsValue ds)) := by
  have hscan := scanInteger_digits ds rest hall hne hrest
  have hdrop := dropWhile_digits ds rest hall hne
  unfold extractUnsigned
  simp only [IStream.good, Bool.not_false, Bool.and_self, if_true, hdrop]
  cases hds : ds ++ rest with
  | nil =>
    cases ds with
    | nil => exact absurd rfl hne
    | cons d ds1 => cases hds
  | cons c r =>
    rw [hds] at hscan
    simp only [hscan, hne, if_false, Nat.not_le.2 hrange, Bool.false_eq_true]

theorem extractSigned_digits (ds rest : List Char) (hall : ∀ c ∈ ds, c.isDigit = true)
    (hne : ds ≠ []) (hrest : EndsNumber rest) (hrange : digitsValue ds < LONG_RANGE) :
    extractSigned ⟨ds ++ rest, false, false⟩
      = (⟨rest, false, decide (rest = [])⟩, some (digitsValue ds : Int)) := by
  have hscan := scanInteger_digits ds rest hall hne hrest
  have hdrop := dropWhile_digits ds rest hall hne
  unfold extractSigned
  simp only [IStream.good, Bool.not_false, Bool.and_self, if_true, hdrop]
  cases hds : ds ++ rest with
  | nil =>
    cases ds with
    | nil => exact absurd rfl hne
    | cons d ds1 => cases hds
  | cons c r =>
    rw [hds] at hscan
    simp only [hscan, hne, if_false, Nat.not_le.2 hrange, Bool.false_eq_true]

theorem extractSigned_minus (ds rest : List Char) (hall : ∀ c ∈ ds, c.isDigit = true)
    (hne : ds ≠ []) (hrest : EndsNumber rest) (hrange : digitsValue ds ≤ LONG_RANGE) :
    extractSigned ⟨'-' :: (ds ++ rest), false, false⟩
      = (⟨rest, false, decide (rest = [])⟩, some (-(digitsValue ds : Int))) := by
  have hscan := scanInteger_minus ds rest hall hrest
  unfold extractSigned
  have hdrop : ('-' :: (ds ++ rest)).dropWhile isSpace = '-' :: (ds ++ rest) := by
    rw [List.dropWhile_cons]
    have : isSpace '-' = false := by decide
    simp [this]
  simp only [IStream.good, Bool.not_false, Bool.and_self, if_true, hdrop, hscan, hne, if_false,
    Nat.not_lt.2 hrange]

theorem extractDot_dot (rest : List Char) :
    extractDot ⟨'.' :: rest, false, false⟩ = ⟨rest, false, false⟩ := by
  simp [extractDot, IStream.get, IStream.good]

theorem endsNumber_dot (rest : List Char) : EndsNumber ('.' :: rest) := by
  intro c r h
  cases h
  decide

theorem endsNumber_nil : EndsNumber [] := by
  intro c r h
  cases h

namespace FileIndex

theorem read_write (fi old : FileIndex) (h1 : fi.fileSystem < SIZE_RANGE)
    (h2 : fi.inode < SIZE_RANGE) (h3 : -(LONG_RANGE : Int) ≤ fi.time)
    (h4 : fi.time < (LONG_RANGE : Int)) :
    read ⟨write fi, false, false⟩ old = (⟨[], false, true⟩, fi) := by
  obtain ⟨a1, a2, a3⟩ := toDigits_spec fi.fileSystem
  obtain ⟨b1, b2, b3⟩ := toDigits_spec fi.inode
  have hA := extractUnsigned_digits _ ('.' :: (putUnsigned fi.inode ++ '.' :: putSigned fi.time))
    a1 a2 (endsNumber_dot _) (by rw [a3]; exact h1)
  have hB := extractUnsigned_digits _ ('.' :: putSigned fi.time) b1 b2 (endsNumber_dot _)
    (by rw [b3]; exact h2)
  have hC : extractSigned ⟨putSigned fi.time, false, false⟩
      = (⟨[], false, true⟩, some fi.time) := by
    unfold putSigned
    by_cases hneg : fi.time < 0
    · obtain ⟨c1, c2, c3⟩ := toDigits_spec fi.time.natAbs
      have := extractSigned_minus _ [] c1 c2 endsNumber_nil (by rw [c3]; omega)
      rw [List.append_nil] at this
      rw [if_pos hneg, this, c3]
      have : -((fi.time.natAbs : Nat) : Int) = fi.time := by omega
      rw [this]
      rfl
    · obtain ⟨c1, c2, c3⟩ := toDigits_spec fi.time.toNat
      have := extractSigned_digits _ [] c1 c2 endsNumber_nil (by rw [c3]; omega)
      rw [List.append_nil] at this
      rw [if_neg hneg, this, c3]
      have : ((fi.time.toNat : Nat) : Int) = fi.time := by omega
      rw [this]
      rfl
  unfold putUnsigned at hA hB
  unfold read write putUnsigned
  simp only [hA, hB, decide_False, reduceCtorEq, extractDot_dot, hC, a3, b3, Option.getD_some]

end FileIndex

namespace ImageCache

theorem named_persistName (fi : FileIndex) (h1 : fi.fileSystem < SIZE_RANGE)
    (h2 : fi.inode < SIZE_RANGE) (h3 : -(LONG_RANGE : Int) ≤ fi.time)
    (h4 : fi.time < (LONG_RANGE : Int)) : named (persistName fi) = some fi := by
  unfold named persistName
  rw [FileIndex.read_write fi ⟨0, 0, 0⟩ h1 h2 h3 h4]
  rfl

/-- C22. For every FileIndex (its fields in the ranges of `dev_t`, `ino_t`
and `time_t`), `operator<<` writes the decimal device, a '.', the decimal
inode, a '.' and the decimal mtime; `operator>>` on that text succeeds,
reads all of it with `eofbit` set and without `failbit`, and yields the
FileIndex, whatever its variable held before. So the name of the persist
file of a FileIndex is recognised by the start-up reconciliation, which
unlinks the file exactly when the FileIndex is not referenced, and
different FileIndexes have different names. -/
theorem serialisation_round_trip (fi : FileIndex) (h1 : fi.fileSystem < SIZE_RANGE)
    (h2 : fi.inode < SIZE_RANGE) (h3 : -(LONG_RANGE : Int) ≤ fi.time)
    (h4 : fi.time < (LONG_RANGE : Int)) :
    FileIndex.write fi
        = putUnsigned fi.fileSystem ++ ['.'] ++ putUnsigned fi.inode ++ ['.']
          ++ putSigned fi.time
    ∧ (∀ n : Nat, (∀ c ∈ putUnsigned n, c.isDigit = true) ∧ putUnsigned n ≠ []
        ∧ digitsValue (putUnsigned n) = n)
    ∧ (∀ i : Int, putSigned i
        = if i < 0 then '-' :: putUnsigned i.natAbs else putUnsigned i.toNat)
    ∧ (∀ old : FileIndex,
        FileIndex.read ⟨FileIndex.write fi, false, false⟩ old = (⟨[], false, true⟩, fi))
    ∧ named (persistName fi) = some fi
    ∧ (∀ references : List FileIndex,
        unlinks references (persistName fi) = !decide (fi ∈ references))
    ∧ (∀ fj : FileIndex, fj.fileSystem < SIZE_RANGE → fj.inode < SIZE_RANGE →
        -(LONG_RANGE : Int) ≤ fj.time → fj.time < (LONG_RANGE : Int) →
        persistName fj = persistName fi → fj = fi) := by
  have hnamed := named_persistName fi h1 h2 h3 h4
  refine ⟨?_, fun n => toDigits_spec n, fun i => rfl,
    fun old => FileIndex.read_write fi old h1 h2 h3 h4, hnamed, ?_, ?_⟩
  · unfold FileIndex.write
    simp
  · intro references
    unfold unlinks
    rw [hnamed]
  · intro fj g1 g2 g3 g4 heq
    have hj := named_persistName fj g1 g2 g3 g4
    rw [heq, hnamed] at hj
    exact (Option.some.inj hj).symm

/-- C22 at the FileIndex (2049, 77, -5): the name is "2049.77.-5", and it
is read back. -/
theorem serialisation_round_trip_witness :
    persistName ⟨2049, 77, -5⟩ = "2049.77.-5".toList
    ∧ named "2049.77.-5".toList = some ⟨2049, 77, -5⟩
    ∧ named (persistName ⟨2049, 77, -5⟩) = some ⟨2049, 77, -5⟩ :=
  ⟨by decide, by decide,
    (serialisation_round_trip ⟨2049, 77, -5⟩ (by decide) (by decide) (by decide)
      (by decide)).2.2.2.2.1⟩

end ImageCache

/-! ## The extension mapping: the wrapped pipeline -/

namespace Transcode

theorem wrapPipeline_eq (p : List Char) :
    wrapPipeline p
      = if p = [] then "filesrc name=filesrc ! fdsink name=fdsink".toList
        else "filesrc name=filesrc ! ".toList ++ p ++ " ! fdsink name=fdsink".toList := by
  unfold wrapPipeline
  by_cases h : p = []
  · subst h
    decide
  · simp only [h, if_false, ne_eq, not_false_eq_true, if_true, List.append_assoc]
    rfl

theorem foldl_add_wrapped (calls : List (List Char × List Char × List Char)) (m : Mapping)
    (e : Element) (he : e ∈ calls.foldl (fun m c => add m c.1 c.2.1 c.2.2) m) :
    e ∈ m ∨ ∃ c ∈ calls, e = ⟨c.1, c.2.1, wrapPipeline c.2.2⟩ := by
  induction calls generalizing m with
  | nil => exact Or.inl he
  | cons c cs ih =>
    rw [List.foldl_cons] at he
    rcases ih _ he with h | ⟨c1, hc1, h⟩
    · rw [add_eq] at h
      split_ifs at h
      · exact Or.inl h
      · rcases List.mem_append.1 h with h | h
        · exact Or.inl h
        · rw [List.mem_singleton] at h
          exact Or.inr ⟨c, List.mem_cons_self _ _, h⟩
    · exact Or.inr ⟨c1, List.mem_cons_of_mem _ hc1, h⟩

/-- C23. For every pipeline `p` given to `add`, the pipeline of the element
that `add` stores is "filesrc name=filesrc ! " followed by `p` and
" ! fdsink name=fdsink" when `p` is not empty, and
"filesrc name=filesrc ! fdsink name=fdsink" when it is: it starts with the
element named filesrc and ends with the element named fdsink. When neither
extension is in the mapping yet, that element is stored and found under
both extensions; and every element of a mapping built by `add` calls has
the wrapped pipeline of one of the calls. -/
theorem add_wraps_the_pipeline (m : Mapping) (s t p : List Char)
    (calls : List (List Char × List Char × List Char)) :
    (p ≠ [] →
      wrapPipeline p
        = "filesrc name=filesrc ! ".toList ++ p ++ " ! fdsink name=fdsink".toList)
    ∧ wrapPipeline [] = "filesrc name=filesrc ! fdsink name=fdsink".toList
    ∧ (∃ middle, wrapPipeline p
        = "filesrc name=filesrc".toList ++ middle ++ "fdsink name=fdsink".toList)
    ∧ (findBySource m s = none → findByTarget m t = none →
        add m s t p = m ++ [⟨s, t, wrapPipeline p⟩]
        ∧ findBySource (add m s t p) s = some ⟨s, t, wrapPipeline p⟩
        ∧ findByTarget (add m s t p) t = some ⟨s, t, wrapPipeline p⟩)
    ∧ (∀ e ∈ add m s t p, e ∈ m ∨ e = ⟨s, t, wrapPipeline p⟩)
    ∧ (∀ e ∈ addAll calls, ∃ c ∈ calls, e = ⟨c.1, c.2.1, wrapPipeline c.2.2⟩) := by
  refine ⟨?_, ?_, ?_, ?_, ?_, ?_⟩
  · intro hp
    rw [wrapPipeline_eq, if_neg hp]
  · rw [wrapPipeline_eq, if_pos rfl]
  · unfold wrapPipeline
    exact ⟨" ! ".toList ++ p ++ (if p ≠ [] then " ! ".toList else []), by
      simp only [List.append_assoc]
      rfl⟩
  · intro hs ht
    have hadd : add m s t p = m ++ [⟨s, t, wrapPipeline p⟩] := by
      unfold add insert
      simp [hs, ht]
    refine ⟨hadd, ?_, ?_⟩
    · rw [hadd]
      unfold findBySource at hs ⊢
      rw [List.find?_append, hs]
      simp
    · rw [hadd]
      unfold findByTarget at ht ⊢
      rw [List.find?_append, ht]
      simp
  · intro e he
    rw [add_eq] at he
    split_ifs at he
    · exact Or.inl he
    · rcases List.mem_append.1 he with h | h
      · exact Or.inl h
      · rw [List.mem_singleton] at h
        exact Or.inr h
  · intro e he
    rcases foldl_add_wrapped calls [] e he with h | h
    · cases h
    · exact h

/-- C23 at the pipeline "lame" for the rule (wav, mp3) on an empty mapping,
and at the empty pipeline of the rule (flac, mp3). -/
theorem add_wraps_the_pipeline_witness :
    wrapPipeline "lame".toList = "filesrc name=filesrc ! lame ! fdsink name=fdsink".toList
    ∧ add [] "wav".toList "mp3".toList "lame".toList
      = [⟨"wav".toList, "mp3".toList,
          "filesrc name=filesrc ! lame ! fdsink name=fdsink".toList⟩]
    ∧ flacToMp3
      = [⟨"flac".toList, "mp3".toList, "filesrc name=filesrc ! fdsink name=fdsink".toList⟩] :=
  ⟨(add_wraps_the_pipeline [] "wav".toList "mp3".toList "lame".toList []).1 (by decide),
    by decide, by decide⟩

end Transcode

/-! ## The working directory -/

namespace CwdSynchronized

end CwdSynchronized

/-! ## The traverse of a file hierarchy -/

namespace FindFile

theorem ended_call (log : List Call) (c : Call) (h : Quiet log) :
    Ended c.direction (log ++ [c]) := by
  by_cases hc : c.direction = .Stop
  · exact Or.inr ⟨hc, log, c, rfl, hc, h⟩
  · refine Or.inl ⟨hc, ?_⟩
    intro x hx
    rcases List.mem_append.1 hx with hx | hx
    · exact h x hx
    · rw [List.mem_singleton] at hx
      rw [hx]
      exact hc

theorem ended_after {σ : Type} (v : Visitor σ) (location : List (List Char))
    (r : DirectionEnum × σ × List Call) (h : Ended r.1 r.2.2) :
    Ended
      (if r.1 ≠ .Stop then
        ((v.after r.2.1 location).1, (v.after r.2.1 location).2,
          r.2.2 ++ [.after location (v.after r.2.1 location).1])
      else r).1
      (if r.1 ≠ .Stop then
        ((v.after r.2.1 location).1, (v.after r.2.1 location).2,
          r.2.2 ++ [.after location (v.after r.2.1 location).1])
      else r).2.2 := by
  by_cases hr : r.1 = .Stop
  · simp only [hr, ne_eq, not_true_eq_false, if_false]
    rw [← hr]
    exact h
  · simp only [hr, ne_eq, not_false_eq_true, if_true]
    rcases h with ⟨-, hq⟩ | ⟨hstop, -⟩
    · exact ended_call r.2.2 (.after location (v.after r.2.1 location).1) hq
    · exact absurd hstop hr

mutual
theorem traverseLocation_ended {σ : Type} (v : Visitor σ) (parents : List (List Char)) :
    ∀ (t : Tree) (s : σ) (log : List Call), Quiet log →
      Ended (traverseLocation v parents t s log).1 (traverseLocation v parents t s log).2.2
  | .node name children, s, log, hq => by
    unfold traverseLocation
    apply ended_after
    have hb := ended_call log (.before (name :: parents) (v.before s (name :: parents)).1) hq
    by_cases hc : (v.before s (name :: parents)).1 = .Continue
    · simp only [hc, if_true]
      apply children_ended v (name :: parents) children
      · decide
      · rcases hb with ⟨-, hq1⟩ | ⟨hstop, -⟩
        · rw [hc] at hq1
          exact hq1
        · simp only [Call.direction] at hstop
          rw [hc] at hstop
          cases hstop
    · simp only [hc, if_false]
      exact hb
theorem children_ended {σ : Type} (v : Visitor σ) (location : List (List Char)) :
    ∀ (ts : List Tree) (d : DirectionEnum) (s : σ) (log : List Call), d ≠ .Stop → Quiet log →
      Ended (children_ v location ts d s log).1 (children_ v location ts d s log).2.2
  | [], d, s, log, hd, hq => by
    unfold children_
    exact Or.inl ⟨hd, hq⟩
  | child :: rest, d, s, log, _, hq => by
    unfold children_
    have hchild := traverseLocation_ended v location child s log hq
    by_cases hgo : (traverseLocation v location child s log).1 = .Continue
        ∨ (traverseLocation v location child s log).1 = .Prune
    · simp only [hgo, if_true]
      rcases hchild with ⟨hns, hq1⟩ | ⟨hstop, -⟩
      · exact children_ended v location rest _ _ _ hns hq1
      · rcases hgo with h | h
        · rw [h] at hstop
          cases hstop
        · rw [h] at hstop
          cases hstop
    · simp only [hgo, if_false]
      exact hchild
end

/-- C26. For every file hierarchy and every Visitor: once a `before` or an
`after` callback has returned `Stop`, no callback is called any more, for
no file (the `after` of the parents included), and `traverse` returns
`Stop`. -/
theorem stop_ends_the_traverse {σ : Type} (v : Visitor σ) (root : Tree) (s : σ)
    (pre post : List Call) (c : Call)
    (hlog : (traverse v root s).2.2 = pre ++ c :: post) (hstop : c.direction = .Stop) :
    post = [] ∧ (traverse v root s).1 = .Stop := by
  have h := traverseLocation_ended v [] root s [] (fun x hx => by cases hx)
  unfold traverse at hlog ⊢
  rcases h with ⟨-, hq⟩ | ⟨hd, pre1, c1, hlog1, -, hq1⟩
  · have hmem : c ∈ (traverseLocation v [] root s []).2.2 := by
      rw [hlog]
      simp
    exact absurd hstop (hq c hmem)
  · refine ⟨?_, hd⟩
    rw [hlog1] at hlog
    by_contra hpost
    have hmem : c ∈ pre1 := by
      have hlen := congrArg List.length hlog
      simp only [List.length_append, List.length_cons, List.length_nil] at hlen
      have hpos : 0 < post.length := List.length_pos.2 hpost
      have htake := congrArg (List.take pre1.length) hlog
      rw [List.take_left' rfl] at htake
      rw [htake, List.take_append_eq_append_take]
      have : pre1.length - pre.length = (post.length - 1) + 1 := by omega
      rw [this, List.take_succ_cons]
      simp
    exact hq1 c hmem hstop

/-- C26 at the hierarchy r/(a/(c), b) and a Visitor whose `before` returns
`Stop` at "c": the call for "c" is the last, neither `after` of "a" or "r"
nor any callback for "b" follows, and `traverse` returns `Stop`. -/
theorem stop_ends_the_traverse_witness :
    (traverse (directs .Stop "c".toList) hierarchy ()).2.2
      = [.before ["r".toList] .Continue, .before ["a".toList, "r".toList] .Continue,
          .before ["c".toList, "a".toList, "r".toList] .Stop]
    ∧ (traverse (directs .Stop "c".toList) hierarchy ()).1 = .Stop :=
  ⟨by decide,
    (stop_ends_the_traverse (directs .Stop "c".toList) hierarchy ()
      [.before ["r".toList] .Continue, .before ["a".toList, "r".toList] .Continue]
      [] (.before ["c".toList, "a".toList, "r".toList] .Stop) (by decide) rfl).2⟩

/-- What `traverseLocation` returns, unless it is `Stop`, is what its own
call of `after` returned, which is its last call: the direction that
`before` or the traverse of a child returned is not kept. -/
theorem traverseLocation_returns_after {σ : Type} (v : Visitor σ)
    (parents : List (List Char)) (name : List Char) (children : List Tree) (s : σ)
    (log : List Call)
    (h : (traverseLocation v parents (.node name children) s log).1 ≠ .Stop) :
    ∃ pre, (traverseLocation v parents (.node name children) s log).2.2
      = pre ++ [.after (name :: parents)
          (traverseLocation v parents (.node name children) s log).1] := by
  unfold traverseLocation at h ⊢
  simp only at h ⊢
  split_ifs at h ⊢ with h1 h2 h3
  · exact ⟨_, rfl⟩
  · exact absurd (not_not.1 h2) h
  · exact ⟨_, rfl⟩
  · exact absurd (not_not.1 h3) h

/-- C25 fails with the `after` of the base class: at the hierarchy
r/(a/(c), b), with a `before` that returns `Return` at "a", the file "c"
under "a" is not visited, but `after` is called for "a" and what it
returns, `Continue`, is what the traverse of "a" returns; the loop over "r"
goes on and `before` is called for "b". -/
theorem return_does_not_unwind :
    (traverse (directs .Return "a".toList) hierarchy ()).2.2
      = [.before ["r".toList] .Continue, .before ["a".toList, "r".toList] .Return,
          .after ["a".toList, "r".toList] .Continue,
          .before ["b".toList, "r".toList] .Continue,
          .after ["b".toList, "r".toList] .Continue, .after ["r".toList] .Continue]
    ∧ (traverse (directs .Return "a".toList) hierarchy ()).1 = .Continue := by
  decide

end FindFile

/-! ## A TranscodeFileReader without a builder thread -/

namespace ReaderFactory

/-- C27 fails: for the TranscodeFileReader of the factory `unbuilt`, whose
pipeline could not be constructed and which has no builder thread,
`getImage` goes through the null `imageBuilderThread` (no result), while
`read` on it returns `-EIO`; so the release of its last hold, which calls
`getImage`, does not come to an end and the Reader stays in the map. -/
theorem getImage_without_builder_faults :
    unbuilt.heap 0 = some ⟨⟨1, 7, 0⟩, 1, .transcodeFileReader none .nonReadAheadIsDone⟩
    ∧ (∀ (fileIndex : FileIndex) (count : Nat) (done : Done),
        Reader.getImage ⟨fileIndex, count, .transcodeFileReader none done⟩ = none)
    ∧ TranscodeFileReader.read none ['x'] 1 0 = some (.returned (-EIO_) ['x'])
    ∧ (unbuilt.heap 0).bind Reader.getImage = none
    ∧ release unbuilt 0 9 9 = none :=
  ⟨rfl, fun _ _ _ => rfl, rfl, rfl, rfl⟩

end ReaderFactory

/-! ## The image of a builder thread that is still running -/

namespace ImageBuilderThread

/-- C29 fails: the end of the stream may be delivered while the thread is
still running. From the builder as constructed, a tile "ab" is appended and
`eos` is called; `getImage` then returns the image "ab" and leaves a null
pointer although `running` is still true, and the next turn of the loop of
`run` appends its tile through that null pointer (no result). -/
theorem getImage_while_running :
    Relation.ReflTransGen Event ⟨true, true, some []⟩ ⟨true, false, some ['a', 'b']⟩
    ∧ (⟨true, false, some ['a', 'b']⟩ : ImageBuilderThread).getImage
      = (⟨true, false, none⟩, some ['a', 'b'])
    ∧ (⟨true, false, some ['a', 'b']⟩ : ImageBuilderThread).getImage.1.running = true
    ∧ (⟨true, false, some ['a', 'b']⟩ : ImageBuilderThread).getImage.1.append ['c', 'd']
      = none :=
  ⟨Relation.ReflTransGen.tail
      (Relation.ReflTransGen.single
        (Event.step _ _ (Step.append ⟨true, true, some []⟩ ⟨true, true, some ['a', 'b']⟩
          ['a', 'b'] rfl (by decide) (by decide) rfl)))
      (Event.step _ _ (Step.eos ⟨true, true, some ['a', 'b']⟩)),
    rfl, rfl, rfl⟩

/-- What does hold of `getImage`: it returns an image only when the stream
has ended, and a builder whose thread has ended appends no tile any
more. -/
theorem getImage_after_eos (b : ImageBuilderThread) (image : Image)
    (h : b.getImage.2 = some image) :
    b.streaming = false ∧ b.image = some image
      ∧ (b.running = false → ∀ b1, ¬ Step b.getImage.1 b1 ∨ b1.image = none) := by
  obtain ⟨running, streaming, img⟩ := b
  cases streaming with
  | true => simp [ImageBuilderThread.getImage] at h
  | false =>
    simp only [ImageBuilderThread.getImage, Bool.false_eq_true, if_false] at h
    refine ⟨rfl, h, ?_⟩
    intro hrun b1
    simp only at hrun
    by_cases hstep : Step (ImageBuilderThread.getImage ⟨running, false, img⟩).1 b1
    · right
      have hg : (ImageBuilderThread.getImage ⟨running, false, img⟩).1
          = ⟨running, false, none⟩ := rfl
      rw [hg] at hstep
      generalize hb : (⟨running, false, none⟩ : ImageBuilderThread) = g at hstep
      cases hstep with
      | append _ tile hr _ _ _ =>
        subst hb
        simp only [hrun] at hr
        cases hr
      | eos =>
        subst hb
        rfl
      | runEnd hr =>
        subst hb
        simp only [hrun] at hr
        cases hr
    · exact Or.inl hstep

end ImageBuilderThread

/-! ## The paths of readdir -/

namespace GstFs

theorem readdir_paths (transcodeMapping : Transcode.Mapping) (path : List Char) :
    ∀ (entries : List (List Char)) (room : Nat),
      ∀ p ∈ (readdir transcodeMapping path entries room).1,
        ∃ d_name ∈ entries,
          (Transcode.targetFrom transcodeMapping d_name).result.differs = true
          ∧ p = path.drop 1
            ++ ('/' :: (Transcode.targetFrom transcodeMapping d_name).result.get d_name) := by
  intro entries
  induction entries with
  | nil =>
    intro room p hp
    simp [readdir] at hp
  | cons d_name rest ih =>
    intro room p hp
    have hhead : ∀ q ∈ (if (Transcode.targetFrom transcodeMapping d_name).result.differs = true
          then [path.drop 1
            ++ ('/' :: (Transcode.targetFrom transcodeMapping d_name).result.get d_name)]
          else []),
        ∃ d ∈ d_name :: rest,
          (Transcode.targetFrom transcodeMapping d).result.differs = true
          ∧ q = path.drop 1
            ++ ('/' :: (Transcode.targetFrom transcodeMapping d).result.get d) := by
      intro q hq
      split_ifs at hq with hd
      · rw [List.mem_singleton] at hq
        exact ⟨d_name, List.mem_cons_self _ _, hd, hq⟩
      · cases hq
    cases room with
    | zero =>
      simp only [readdir] at hp
      exact hhead p hp
    | succ room1 =>
      simp only [readdir] at hp
      rcases List.mem_append.1 hp with hp | hp
      · exact hhead p hp
      · obtain ⟨d, hd, h⟩ := ih room1 p hp
        exact ⟨d, List.mem_cons_of_mem _ hd, h⟩

/-- For a directory other than the root of the mount, "/" followed by the
characters `sub`, the paths that `readdir` hands to `readAhead` are those
that `open` and `getattr` resolve for the entries: `sub`, "/" and the
target name. -/
theorem readdir_below_the_root (transcodeMapping : Transcode.Mapping)
    (sub : List Char) (entries : List (List Char)) (room : Nat) (p : List Char)
    (hp : p ∈ (readdir transcodeMapping ('/' :: sub) entries room).1) :
    ∃ d_name ∈ entries,
      p = (('/' :: sub) ++ ('/' ::
        (Transcode.targetFrom transcodeMapping d_name).result.get d_name)).drop 1
      ∧ p = sub ++ ('/' ::
        (Transcode.targetFrom transcodeMapping d_name).result.get d_name) := by
  obtain ⟨d, hd, -, h⟩ := readdir_paths transcodeMapping ('/' :: sub) entries room p hp
  exact ⟨d, hd, by rw [h]; rfl, by rw [h]; rfl⟩

/-- C30 fails at the root of the mount: for the path "/" and the entry
"x.flac", which `targetFrom` translates to "x.mp3", `readdir` hands
"/x.mp3" to `readAhead`, with the '/' that it puts after the emptied path,
while `open` and `getattr` for the entry "/x.mp3" hand "x.mp3" to the
factory. On the base `oneFlac` the `readAhead` of "/x.mp3" finds no source
and leaves the factory as it is; that of "x.mp3" would have constructed the
Reader. -/
theorem readdir_of_the_root_keeps_the_slash :
    readdir Transcode.flacToMp3 "/".toList ["x.flac".toList] 8
      = (["/x.mp3".toList], ["x.mp3".toList])
    ∧ open_ ReaderFactory.start ReaderFactory.oneFlac "/x.mp3".toList ⟨false, ⟨0, 0, 0⟩, 0⟩ 0
        true
      = ReaderFactory.open_ ReaderFactory.start ReaderFactory.oneFlac "x.mp3".toList
        ⟨false, ⟨0, 0, 0⟩, 0⟩ 0 true
    ∧ getattr ReaderFactory.start ReaderFactory.oneFlac "/x.mp3".toList 0 true
      = ReaderFactory.stat ReaderFactory.start ReaderFactory.oneFlac "x.mp3".toList 0 true
    ∧ (ReaderFactory.readAhead ReaderFactory.start ReaderFactory.oneFlac "/x.mp3".toList 0
        true).map (fun f => f.map) = some []
    ∧ (ReaderFactory.readAhead ReaderFactory.start ReaderFactory.oneFlac "x.mp3".toList 0
        true).map (fun f => f.map) = some [(⟨1, 7, 0⟩, 0)]
    ∧ readdir Transcode.flacToMp3 "/music".toList ["x.flac".toList] 8
      = (["music/x.mp3".toList], ["x.mp3".toList]) :=
  ⟨by decide, rfl, rfl, rfl, rfl, by decide⟩

end GstFs

/-! ## The reader factory and the keys of the image cache -/

namespace ImageCache

theorem find_none_of_subset {l l1 : List Value} {k : FileIndex}
    (hsub : ∀ v ∈ l1, v.fileIndex = k → ∃ w ∈ l, w.fileIndex = k)
    (h : find l k = none) : find l1 k = none := by
  rw [find_eq_none] at h ⊢
  intro v hv hk
  obtain ⟨w, hw, hwk⟩ := hsub v hv hk
  exact h w hw hwk

theorem cull_find_none (c : Container) (now : Int) (k : FileIndex)
    (h : find c.values k = none) : find (cull c now).values k = none :=
  find_none_of_subset (fun v hv hk => ⟨v, (cull_values_sublist c now).subset hv, hk⟩) h

theorem replace_find_none (l : List Value) (v0 v : Value) (k : FileIndex)
    (hv0 : v0 ∈ l) (hkey : v.fileIndex = v0.fileIndex) (h : find l k = none) :
    find (replace l v) k = none := by
  apply find_none_of_subset _ h
  intro w hw hk
  unfold replace at hw
  rcases (mem_link v w _).1 hw with hw | hw
  · rw [hw, hkey] at hk
    exact ⟨v0, hv0, hk⟩
  · exact ⟨w, ((mem_unlink w l _).1 hw).1, hk⟩

theorem acquire_find_none (c : Container) (fileIndex k : FileIndex)
    (h : find c.values k = none) : find (acquire c fileIndex).1.values k = none := by
  unfold acquire
  cases hf : find c.values fileIndex with
  | none => exact h
  | some v =>
    simp only
    exact replace_find_none c.values v _ k (find_some hf).1 rfl h

theorem open_find_none (c : Container) (fileIndex k : FileIndex)
    (h : find c.values k = none) : find (open_ c fileIndex).1.values k = none := by
  have ha := acquire_find_none c fileIndex k h
  unfold open_
  split
  · rename_i c1 image heq
    rw [heq] at ha
    exact ha
  · rename_i c1 heq
    rw [heq] at ha
    split
    · exact ha
    · split
      · exact ha
      · exact ha

theorem open_transcode (c : Container) (fileIndex : FileIndex)
    (h : (open_ c fileIndex).2 = none) :
    find (open_ c fileIndex).1.values fileIndex = none := by
  unfold open_ acquire at h ⊢
  cases hf : find c.values fileIndex with
  | some v =>
    rw [hf] at h
    simp at h
  | none =>
    simp only
    split
    · exact hf
    · split
      · exact hf
      · exact hf

theorem release_find_none (c : Container) (fileIndex k : FileIndex) (idle now : Int)
    (h : find c.values k = none) : find (release c fileIndex idle now).values k = none := by
  unfold release
  cases hf : find c.values fileIndex with
  | none => exact h
  | some v =>
    simp only
    split
    · exact cull_find_none _ now k
        (replace_find_none c.values v _ k (find_some hf).1 rfl h)
    · exact replace_find_none c.values v _ k (find_some hf).1 rfl h

theorem add_find_none (c c1 : Container) (fileIndex k : FileIndex) (image : Image)
    (created now : Int) (hadd : add c fileIndex image created now = some c1)
    (hk : k ≠ fileIndex) (h : find c.values k = none) : find c1.values k = none := by
  unfold add at hadd
  split_ifs at hadd
  simp only [Option.some.injEq] at hadd
  rw [← hadd]
  apply cull_find_none
  simp only
  apply find_none_of_subset _ h
  intro w hw hwk
  rcases (mem_link _ w _).1 hw with hw | hw
  · rw [hw] at hwk
    exact absurd hwk.symm hk
  · exact ⟨w, hw, hwk⟩

end ImageCache

namespace ReaderFactory

theorem settled_update (f f1 : ReaderFactory) (a : Nat) (r r1 : Reader)
    (hr : f.heap a = some r) (hheap : f1.heap = Function.update f.heap a (some r1))
    (hmap : f1.map = f.map) (hkey : r1.fileIndex = r.fileIndex)
    (htrans : isTranscode r1 = true → isTranscode r = true)
    (hcache : ∀ k, ImageCache.find f.imageCache.values k = none →
      ImageCache.find f1.imageCache.values k = none)
    (hi : Indexed f) (hu : Uncached f) : Indexed f1 ∧ Uncached f1 := by
  constructor
  · intro b x hx
    rw [hheap] at hx
    rw [hmap]
    by_cases hb : b = a
    · subst hb
      rw [Function.update_same] at hx
      cases hx
      rw [hkey]
      exact hi b r hr
    · rw [Function.update_noteq hb] at hx
      exact hi b x hx
  · intro e he x hx hx1
    rw [hheap] at hx
    rw [hmap] at he
    apply hcache
    by_cases hb : e.2 = a
    · rw [hb, Function.update_same] at hx
      cases hx
      exact hu e he r (by rw [hb]; exact hr) (htrans hx1)
    · rw [Function.update_noteq hb] at hx
      exact hu e he x hx hx1

theorem settled_create (f f1 : ReaderFactory) (a : Nat) (r1 : Reader)
    (hlinked : MapInvariant f) (hfree : f.heap a = none)
    (hheap : f1.heap = Function.update f.heap a (some r1))
    (hmap : f1.map = f.map ++ [(r1.fileIndex, a)])
    (hcache : ∀ k, ImageCache.find f.imageCache.values k = none →
      ImageCache.find f1.imageCache.values k = none)
    (hfresh : isTranscode r1 = true →
      ImageCache.find f1.imageCache.values r1.fileIndex = none)
    (hi : Indexed f) (hu : Uncached f) : Indexed f1 ∧ Uncached f1 := by
  constructor
  · intro b x hx
    rw [hheap] at hx
    rw [hmap]
    by_cases hb : b = a
    · subst hb
      rw [Function.update_same] at hx
      cases hx
      simp
    · rw [Function.update_noteq hb] at hx
      exact List.mem_append_left _ (hi b x hx)
  · intro e he x hx hx1
    rw [hheap] at hx
    rw [hmap] at he
    rcases List.mem_append.1 he with he | he
    · have hb : e.2 ≠ a := by
        intro hb
        obtain ⟨r, hr, -⟩ := hlinked.2 e he
        rw [hb, hfree] at hr
        cases hr
      rw [Function.update_noteq hb] at hx
      exact hcache _ (hu e he x hx hx1)
    · rw [List.mem_singleton] at he
      subst he
      rw [Function.update_same] at hx
      cases hx
      exact hfresh hx1

theorem settled_delete (f f1 : ReaderFactory) (a : Nat) (r : Reader)
    (hlinked : MapInvariant f) (hr : f.heap a = some r)
    (hheap : f1.heap = Function.update f.heap a none)
    (hmap : f1.map = mapErase f.map r.fileIndex)
    (hcache : ∀ k, k ≠ r.fileIndex → ImageCache.find f.imageCache.values k = none →
      ImageCache.find f1.imageCache.values k = none)
    (hi : Indexed f) (hu : Uncached f) : Indexed f1 ∧ Uncached f1 := by
  have herase : ∀ e : FileIndex × Nat, e ∈ mapErase f.map r.fileIndex ↔
      e ∈ f.map ∧ e.1 ≠ r.fileIndex := by
    intro e
    unfold mapErase
    simp [List.mem_filter]
  constructor
  · intro b x hx
    rw [hheap] at hx
    rw [hmap, herase]
    by_cases hb : b = a
    · subst hb
      rw [Function.update_same] at hx
      cases hx
    · rw [Function.update_noteq hb] at hx
      refine ⟨hi b x hx, ?_⟩
      intro hk
      simp only at hk
      have h1 := hi b x hx
      have h2 := hi a r hr
      rw [hk] at h1
      have hnodup := hlinked.1
      have := List.inj_on_of_nodup_map hnodup h1 h2 rfl
      simp only [Prod.mk.injEq, true_and] at this
      exact hb this
  · intro e he x hx hx1
    rw [hheap] at hx
    rw [hmap, herase] at he
    have hb : e.2 ≠ a := by
      intro hb
      rw [hb, Function.update_same] at hx
      cases hx
    rw [Function.update_noteq hb] at hx
    exact hcache _ he.2 (hu e he.1 x hx hx1)

theorem increment_settled {f f1 : ReaderFactory} {a : Nat} (h : increment f a = some f1)
    (hi : Indexed f) (hu : Uncached f) : Indexed f1 ∧ Uncached f1 := by
  obtain ⟨r, hr, hf1⟩ := increment_eq h
  subst hf1
  exact settled_update f _ a r _ hr rfl rfl rfl id (fun _ hk => hk) hi hu

theorem insert_increment_settled (f f2 f4 : ReaderFactory) (a : Nat) (r : Reader)
    (hlinked : MapInvariant f) (hfree : f.heap a = none)
    (hnew : mapFind f.map r.fileIndex = none)
    (hmap : f2.map = f.map) (hheap : f2.heap = f.heap)
    (hcache : ∀ k, ImageCache.find f.imageCache.values k = none →
      ImageCache.find f2.imageCache.values k = none)
    (hfresh : isTranscode r = true → ImageCache.find f2.imageCache.values r.fileIndex = none)
    (h : increment
      { f2 with
        heap := Function.update f2.heap a (some r)
        map := mapInsert f2.map r.fileIndex a } a = some f4)
    (hi : Indexed f) (hu : Uncached f) : Indexed f4 ∧ Uncached f4 := by
  obtain ⟨r0, hr0, hf4⟩ := increment_eq h
  simp only [Function.update_same, Option.some.injEq] at hr0
  subst hr0
  refine settled_create f f4 a { r with count := (r.count + 1) % UINT_RANGE } hlinked hfree
    ?_ ?_ ?_ ?_ hi hu
  · rw [hf4]
    simp only [Function.update_idem, hheap]
  · rw [hf4]
    simp only [mapInsert, hmap, hnew, Option.isSome_none, Bool.false_eq_true, if_false]
  · rw [hf4]
    exact hcache
  · rw [hf4]
    exact hfresh

theorem imageCache_open_not_transcode {c : ImageCache.Container} {fileIndex : FileIndex}
    {r : Reader} (h : (ImageCache.open_ c fileIndex).2 = some r) : isTranscode r = false := by
  unfold ImageCache.open_ at h
  split at h
  · simp only [Option.some.injEq] at h
    rw [← h]
    rfl
  · split at h
    · cases h
    · split at h
      · simp only [Option.some.injEq] at h
        rw [← h]
        rfl
      · cases h

theorem settled_same (f f1 : ReaderFactory) (hheap : f1.heap = f.heap) (hmap : f1.map = f.map)
    (hcache : ∀ k, ImageCache.find f.imageCache.values k = none →
      ImageCache.find f1.imageCache.values k = none)
    (hi : Indexed f) (hu : Uncached f) : Indexed f1 ∧ Uncached f1 := by
  constructor
  · intro b x hx
    rw [hheap] at hx
    rw [hmap]
    exact hi b x hx
  · intro e he x hx hx1
    rw [hheap] at hx
    rw [hmap] at he
    exact hcache _ (hu e he x hx hx1)

theorem sizeOf_neg_find (c : ImageCache.Container) (fileIndex : FileIndex)
    (h : ¬ 0 ≤ ImageCache.sizeOf c fileIndex) :
    ImageCache.find c.values fileIndex = none := by
  unfold ImageCache.sizeOf at h
  cases hf : ImageCache.find c.values fileIndex with
  | none => rfl
  | some v =>
    rw [hf] at h
    simp only at h
    omega

theorem open_settled (f f1 : ReaderFactory) (base : Base) (path : List Char)
    (uninitialized : Stat) (address : Nat) (built : Bool) (result : Option Nat)
    (hfree : f.heap address = none)
    (h : open_ f base path uninitialized address built = some (f1, result))
    (hlinked : MapInvariant f) (hi : Indexed f) (hu : Uncached f) :
    Indexed f1 ∧ Uncached f1 := by
  unfold open_ at h
  simp only at h
  split at h
  · simp only [Option.some.injEq, Prod.mk.injEq] at h
    rw [← h.1]
    exact ⟨hi, hu⟩
  · split at h
    · simp only [Option.some.injEq, Prod.mk.injEq] at h
      rw [← h.1]
      exact ⟨hi, hu⟩
    · rename_i st hst
      split at h
      · rename_i reader hfind
        cases hinc : increment f reader with
        | none => rw [hinc] at h; cases h
        | some f2 =>
          rw [hinc] at h
          simp only [Option.map_some', Option.some.injEq, Prod.mk.injEq] at h
          rw [← h.1]
          exact increment_settled hinc hi hu
      · rename_i hfind
        split at h
        · simp only [Option.some.injEq, Prod.mk.injEq] at h
          rw [← h.1]
          exact settled_same f _ rfl rfl
            (fun k hk => ImageCache.open_find_none f.imageCache st.fileIndex k hk) hi hu
        · rename_i f2 r hcreated
          have hprops : f2.map = f.map ∧ f2.heap = f.heap ∧ r.fileIndex = st.fileIndex
              ∧ f2.imageCache = (ImageCache.open_ f.imageCache st.fileIndex).1
              ∧ (isTranscode r = true →
                (ImageCache.open_ f.imageCache st.fileIndex).2 = none) := by
            split at hcreated
            · rename_i r0 hopen
              simp only [Option.some.injEq, Prod.mk.injEq] at hcreated
              obtain ⟨hk, -⟩ := imageCache_open_reader hopen
              have hnt := imageCache_open_not_transcode hopen
              rw [← hcreated.1, ← hcreated.2]
              refine ⟨rfl, rfl, hk, rfl, ?_⟩
              intro ht
              rw [hnt] at ht
              cases ht
            · rename_i hopen
              split at hcreated
              · cases hcreated
              · split at hcreated
                · simp only [Option.some.injEq, Prod.mk.injEq] at hcreated
                  rw [← hcreated.1, ← hcreated.2]
                  exact ⟨rfl, rfl, rfl, rfl, fun _ => hopen⟩
                · split at hcreated
                  · simp only [Option.some.injEq, Prod.mk.injEq] at hcreated
                    rw [← hcreated.1, ← hcreated.2]
                    exact ⟨rfl, rfl, rfl, rfl, fun _ => hopen⟩
                  · simp only [Option.some.injEq, Prod.mk.injEq] at hcreated
                    rw [← hcreated.1, ← hcreated.2]
                    exact ⟨rfl, rfl, rfl, rfl, fun _ => hopen⟩
          obtain ⟨hmap, hheap, hkey, hcache, htrans⟩ := hprops
          cases hinc : increment
              { f2 with
                heap := Function.update f2.heap address (some r)
                map := mapInsert f2.map st.fileIndex address } address with
          | none => rw [hinc] at h; cases h
          | some f4 =>
            rw [hinc] at h
            simp only [Option.map_some', Option.some.injEq, Prod.mk.injEq] at h
            rw [← h.1]
            rw [← hkey] at hinc hfind
            refine insert_increment_settled f f2 f4 address r hlinked hfree hfind hmap hheap
              ?_ ?_ hinc hi hu
            · intro k hk
              rw [hcache]
              exact ImageCache.open_find_none f.imageCache st.fileIndex k hk
            · intro ht
              rw [hcache, hkey]
              exact ImageCache.open_transcode f.imageCache st.fileIndex (htrans ht)

theorem stat_settled (f f1 : ReaderFactory) (base : Base) (path : List Char)
    (address : Nat) (built : Bool) (held : Option Nat)
    (hfree : f.heap address = none)
    (h : stat f base path address built = some (f1, held))
    (hlinked : MapInvariant f) (hi : Indexed f) (hu : Uncached f) :
    Indexed f1 ∧ Uncached f1 := by
  have hsame : ∀ {x : Option Nat}, some (f, x) = some (f1, held) →
      Indexed f1 ∧ Uncached f1 := by
    intro x hx
    simp only [Option.some.injEq, Prod.mk.injEq] at hx
    rw [← hx.1]
    exact ⟨hi, hu⟩
  unfold stat at h
  simp only at h
  split at h
  · exact hsame h
  · split at h
    · exact hsame h
    · split at h
      · exact hsame h
      · split at h
        · exact hsame h
        · rename_i st hst
          split at h
          · exact hsame h
          · rename_i hsize
            split at h
            · rename_i reader hfind
              cases hinc : increment f reader with
              | none => rw [hinc] at h; cases h
              | some f2 =>
                rw [hinc] at h
                simp only [Option.map_some', Option.some.injEq, Prod.mk.injEq] at h
                rw [← h.1]
                exact increment_settled hinc hi hu
            · rename_i hfind
              split at h
              · split at h
                · exact hsame h
                · split at h
                  · cases h
                  · rename_i f2 hinc1
                    cases hinc2 : increment
                        { f2 with readAheadCount := (f2.readAheadCount + 1) % SIZE_RANGE }
                        address with
                    | none => rw [hinc2] at h; cases h
                    | some f4 =>
                      rw [hinc2] at h
                      simp only [Option.map_some', Option.some.injEq, Prod.mk.injEq] at h
                      rw [← h.1]
                      have h2 := insert_increment_settled f f f2 address
                        (newTranscodeFileReader st.fileIndex built .readAheadIsDone) hlinked
                        hfree hfind rfl rfl (fun _ hk => hk)
                        (fun _ => sizeOf_neg_find f.imageCache st.fileIndex hsize) hinc1 hi hu
                      exact increment_settled hinc2 h2.1 h2.2
              · exact hsame h

theorem readAhead_settled (f f1 : ReaderFactory) (base : Base) (path : List Char)
    (address : Nat) (built : Bool) (hfree : f.heap address = none)
    (h : readAhead f base path address built = some f1)
    (hlinked : MapInvariant f) (hi : Indexed f) (hu : Uncached f) :
    Indexed f1 ∧ Uncached f1 := by
  have hsame : some f = some f1 → Indexed f1 ∧ Uncached f1 := by
    intro hx
    simp only [Option.some.injEq] at hx
    rw [← hx]
    exact ⟨hi, hu⟩
  unfold readAhead at h
  simp only at h
  split at h
  · exact hsame h
  · split at h
    · exact hsame h
    · split at h
      · exact hsame h
      · split at h
        · exact hsame h
        · rename_i st hst
          split at h
          · exact hsame h
          · rename_i hsize
            split at h
            · exact hsame h
            · rename_i hfind
              split at h
              · exact hsame h
              · cases hinc : increment
                    { f with
                      heap := Function.update f.heap address
                        (some (newTranscodeFileReader st.fileIndex built .readAheadIsDone))
                      map := mapInsert f.map st.fileIndex address } address with
                | none => rw [hinc] at h; cases h
                | some f2 =>
                  rw [hinc] at h
                  simp only [Option.map_some', Option.some.injEq] at h
                  rw [← h]
                  have hnone : mapFind f.map st.fileIndex = none := by
                    cases hm : mapFind f.map st.fileIndex with
                    | none => rfl
                    | some a => rw [hm] at hfind; simp at hfind
                  exact insert_increment_settled f f f2 address
                    (newTranscodeFileReader st.fileIndex built .readAheadIsDone) hlinked
                    hfree hnone rfl rfl (fun _ hk => hk)
                    (fun _ => sizeOf_neg_find f.imageCache st.fileIndex hsize) hinc hi hu

theorem release_cache (f f1 : ReaderFactory) (reader : Nat) (t1 t2 : Int) (r : Reader)
    (hr : f.heap reader = some r) (h : release f reader t1 t2 = some f1) :
    (∀ k, k ≠ r.fileIndex → ImageCache.find f.imageCache.values k = none →
      ImageCache.find f1.imageCache.values k = none)
    ∧ (((UINT_RANGE - 1) + r.count) % UINT_RANGE ≠ 0 → f1.imageCache = f.imageCache) := by
  unfold release at h
  rw [hr] at h
  simp only at h
  split at h
  · rename_i hz
    refine ⟨?_, fun hnz => absurd hz hnz⟩
    intro k hk hnone
    split at h
    · cases h
    · rename_i r1 image hget
      have hkey := (getImage_fileIndex hget).1
      simp only at hkey
      split at h
      · cases h
      · rename_i c hcache
        simp only [Option.some.injEq] at h
        rw [← h]
        simp only
        have hc : ImageCache.find c.values k = none := by
          split at hcache
          · rename_i i
            exact ImageCache.add_find_none f.imageCache c r1.fileIndex k i t1 t2 hcache
              (by rw [hkey]; exact hk) hnone
          · simp only [Option.some.injEq] at hcache
            rw [← hcache]
            exact hnone
        split
        · exact ImageCache.release_find_none c r1.fileIndex k t1 t2 hc
        · exact hc
  · rename_i hz
    simp only [Option.some.injEq] at h
    rw [← h]
    exact ⟨fun _ _ hnone => hnone, fun _ => rfl⟩

theorem release_settled (f f1 : ReaderFactory) (reader : Nat) (t1 t2 : Int)
    (h : release f reader t1 t2 = some f1)
    (hlinked : MapInvariant f) (hi : Indexed f) (hu : Uncached f) :
    Indexed f1 ∧ Uncached f1 := by
  obtain ⟨r, hr, hcase | hcase⟩ := release_eq f f1 reader t1 t2 h
  · obtain ⟨-, hmap, hheap⟩ := hcase
    exact settled_delete f f1 reader r hlinked hr hheap hmap
      (release_cache f f1 reader t1 t2 r hr h).1 hi hu
  · obtain ⟨hz, hmap, hheap⟩ := hcase
    have hc := (release_cache f f1 reader t1 t2 r hr h).2 hz
    refine settled_update f f1 reader r _ hr hheap hmap rfl id ?_ hi hu
    intro k hk
    rw [hc]
    exact hk

theorem builderStep_settled (f : ReaderFactory) (reader : Nat) (b : ImageBuilderThread)
    (hi : Indexed f) (hu : Uncached f) :
    Indexed (builderStep f reader b) ∧ Uncached (builderStep f reader b) := by
  unfold builderStep
  split
  · rename_i fileIndex count b0 done hr
    exact settled_update f _ reader _ _ hr rfl rfl rfl (fun _ => rfl) (fun _ hk => hk) hi hu
  · exact ⟨hi, hu⟩

theorem step_invariant (f f1 : ReaderFactory) (hstep : Step f f1) (hinv : MapInvariant f) :
    MapInvariant f1 := by
  cases hstep with
  | open_ _ base path uninitialized address built result hfree hrange hopen =>
    exact open_invariant f f1 base path uninitialized address built result hfree hrange
      hopen hinv
  | release _ reader t1 t2 _ hrel => exact release_invariant f f1 reader t1 t2 hrel hinv
  | stat _ base path address built held hfree hrange hstat =>
    exact stat_invariant f f1 base path address built held hfree hrange hstat hinv
  | readAhead _ base path address built hfree hread =>
    exact readAhead_invariant f f1 base path address built hfree hread hinv
  | builderStep reader b => exact builderStep_invariant f reader b hinv
  | readAheadIsDone reader =>
    unfold MapInvariant readAheadIsDone
    exact hinv

theorem step_settled (f f1 : ReaderFactory) (hstep : Step f f1) (hlinked : MapInvariant f)
    (hi : Indexed f) (hu : Uncached f) : Indexed f1 ∧ Uncached f1 := by
  cases hstep with
  | open_ _ base path uninitialized address built result hfree hrange hopen =>
    exact open_settled f f1 base path uninitialized address built result hfree hopen
      hlinked hi hu
  | release _ reader t1 t2 _ hrel => exact release_settled f f1 reader t1 t2 hrel hlinked hi hu
  | stat _ base path address built held hfree hrange hstat =>
    exact stat_settled f f1 base path address built held hfree hstat hlinked hi hu
  | readAhead _ base path address built hfree hread =>
    exact readAhead_settled f f1 base path address built hfree hread hlinked hi hu
  | builderStep reader b => exact builderStep_settled f reader b hi hu
  | readAheadIsDone reader => exact ⟨hi, hu⟩

/-- The three invariants hold along the steps of the factory and of the
thread of the cache. -/
theorem settled_of_reachable (f0 f : ReaderFactory)
    (h : Relation.ReflTransGen StepOrCull f0 f) (hlinked : MapInvariant f0)
    (hi : Indexed f0) (hu : Uncached f0) : MapInvariant f ∧ Indexed f ∧ Uncached f := by
  induction h with
  | refl => exact ⟨hlinked, hi, hu⟩
  | @tail g g1 _ hstep ih =>
    obtain ⟨h1, h2, h3⟩ := ih
    cases hstep with
    | step _ hs =>
      exact ⟨step_invariant _ _ hs h1, step_settled _ _ hs h1 h2 h3⟩
    | cull now =>
      exact ⟨h1, settled_same g { g with imageCache := ImageCache.cull g.imageCache now }
        rfl rfl (fun k hk => ImageCache.cull_find_none g.imageCache now k hk) h2 h3⟩

/-- C28. In every state that a new factory reaches by `open`, `release`,
`stat`, `readAhead`, the steps of the builder threads and of the read-ahead
release, and the `cull` of the thread of the image cache, no
TranscodeFileReader of the map has a FileIndex that the image cache holds a
value for. So `Container::add` for the FileIndex of a live
TranscodeFileReader inserts, whatever the image, and the release of the last
hold on a TranscodeFileReader whose builder hands out an image comes to its
end, the assertion `inserted` holding. -/
theorem transcode_readers_are_not_cached (transcodeMapping : Transcode.Mapping)
    (trueSize : Bool) (readAheadLimit countLimit memoryLimit : Nat) (timeLimit : Int)
    (persistDir : ImageCache.PersistDir) (f : ReaderFactory)
    (h : Relation.ReflTransGen StepOrCull
      (new transcodeMapping trueSize readAheadLimit countLimit memoryLimit timeLimit
        persistDir) f) :
    (∀ e ∈ f.map, ∀ r, f.heap e.2 = some r → isTranscode r = true →
      ImageCache.find f.imageCache.values e.1 = none)
    ∧ (∀ reader r image t1 t2, f.heap reader = some r → isTranscode r = true →
        (r.fileIndex, reader) ∈ f.map
        ∧ (ImageCache.add f.imageCache r.fileIndex image t1 t2).isSome = true)
    ∧ (∀ reader fileIndex b done image t1 t2,
        f.heap reader = some ⟨fileIndex, 1, .transcodeFileReader (some b) done⟩ →
        b.getImage.2 = some image →
        ∃ c, ImageCache.add f.imageCache fileIndex image t1 t2 = some c
          ∧ release f reader t1 t2
            = some { f with
                imageCache := c
                map := mapErase f.map fileIndex
                heap := Function.update f.heap reader none }) := by
  obtain ⟨-, hi, hu⟩ := settled_of_reachable _ f h
    (new_invariant transcodeMapping trueSize readAheadLimit countLimit memoryLimit timeLimit
      persistDir)
    (fun a r hr => by cases hr) (fun e he => by cases he)
  have hadd : ∀ reader r image t1 t2, f.heap reader = some r → isTranscode r = true →
      (r.fileIndex, reader) ∈ f.map
      ∧ ∃ c, ImageCache.add f.imageCache r.fileIndex image t1 t2 = some c := by
    intro reader r image t1 t2 hr ht
    have hmem := hi reader r hr
    have hnone := hu _ hmem r hr ht
    refine ⟨hmem, ?_⟩
    unfold ImageCache.add
    simp only at hnone
    rw [hnone]
    exact ⟨_, rfl⟩
  refine ⟨hu, ?_, ?_⟩
  · intro reader r image t1 t2 hr ht
    obtain ⟨hmem, c, hc⟩ := hadd reader r image t1 t2 hr ht
    exact ⟨hmem, by rw [hc]; rfl⟩
  · intro reader fileIndex b done image t1 t2 hr himage
    obtain ⟨-, c, hc⟩ := hadd reader _ image t1 t2 hr rfl
    refine ⟨c, hc, ?_⟩
    simp only at hc
    unfold release
    rw [hr]
    simp only [Reader.getImage, himage, hc]
    rfl

theorem opened_reachable_with_cull : Relation.ReflTransGen StepOrCull start opened :=
  Relation.ReflTransGen.single
    (StepOrCull.step start opened
      (Step.open_ start opened oneFlac "x.mp3".toList ⟨false, ⟨0, 0, 0⟩, 0⟩ 0 true (some 0)
        rfl (fun a r hr => by cases hr) rfl))

/-- C28 at the factory `opened`: the TranscodeFileReader of the map has the
FileIndex (1, 7, 0), for which the image cache holds no value. -/
theorem transcode_readers_are_not_cached_witness :
    Relation.ReflTransGen StepOrCull start opened
    ∧ mapFind opened.map ⟨1, 7, 0⟩ = some 0
    ∧ ImageCache.find opened.imageCache.values ⟨1, 7, 0⟩ = none :=
  ⟨opened_reachable_with_cull, rfl,
    (transcode_readers_are_not_cached Transcode.flacToMp3 false 16 50 1000 3600 none opened
      opened_reachable_with_cull).1 (⟨1, 7, 0⟩, 0) (by decide) _ rfl rfl⟩

end ReaderFactory
